import Mathlib

/-!
# Block engine of `component/azstorage/block_blob.go`

A shallow embedding of the block-oriented truncate / write engine of the
block-blob connection, and theorems about it.

Conventions of the embedding

* `int64` and `int` values are `Int`.  No wrap-around is modelled: the
  statements are meant for values whose sums stay inside the `int64` range.
* `[]byte` is `List UInt8`; `make([]byte, n)` is `makeBytes n`, the built-in
  `copy(dst, src)` is `goCopy dst src`.
* A Go run-time panic (index out of range, slice bounds out of range, negative
  `make`, nil dereference) is `none` of an `Option`, or `Outcome.panicked`.
* `float64(x)` of an `int64` is `float64 x`, the integer the IEEE-754 double
  nearest to `x` stands for (ties to even); a quotient of two doubles is
  `roundDouble` of the exact quotient.
* Constants of the `azblob` library and helpers of package `common`, whose code
  is not part of the excerpt, are parameters (`Azblob`, `Common`).
* Remote calls are answered by explicit oracles (`Service`), and the calls a
  function issues are recorded in order as a list of `Call`.
-/

namespace BlockBlob

/-! ## Bytes, slices and numbers -/

abbrev Byte := UInt8

/-- Go `make([]byte, n)`: a buffer of `n` zero bytes; panics for a negative length. -/
def makeBytes (n : Int) : Option (List Byte) :=
  if n < 0 then none else some (List.replicate n.toNat 0)

/-- Go built-in `copy(dst, src)`: the contents of `dst` afterwards.  Copies
`min(len(dst), len(src))` bytes to the front of `dst`. -/
def goCopy (dst src : List Byte) : List Byte :=
  src.take dst.length ++ dst.drop src.length

/-- Go `copy(buf[offset:], data)`: the contents of `buf` afterwards.  The slice
expression `buf[offset:]` panics unless `0 ≤ offset ≤ len(buf)`. -/
def copyAt (buf : List Byte) (offset : Int) (data : List Byte) : Option (List Byte) :=
  if 0 ≤ offset ∧ offset ≤ (buf.length : Int) then
    some (buf.take offset.toNat ++ goCopy (buf.drop offset.toNat) data)
  else none

/-- Go slice expression `data[lo:hi]`: panics unless `0 ≤ lo ≤ hi ≤ len(data)`
(every buffer sliced here has its capacity equal to its length). -/
def sliceBytes (data : List Byte) (lo hi : Int) : Option (List Byte) :=
  if 0 ≤ lo ∧ lo ≤ hi ∧ hi ≤ (data.length : Int) then
    some ((data.drop lo.toNat).take (hi.toNat - lo.toNat))
  else none

/-- Go index expression `l[i]` with an `int` index: panics when out of range. -/
def getAt {α : Type} (l : List α) (i : Int) : Option α :=
  if i < 0 then none else l[i.toNat]?

/-- Go conversion `float64(x)` of an integer, read back as the integer the
double stands for: exact below `2^53`, otherwise rounded to 53 significant
bits, ties to even. -/
def float64 (n : Int) : Int :=
  let a := n.natAbs
  if a < 2 ^ 53 then n
  else
    let e := Nat.log2 a - 52
    let q := a / 2 ^ e
    let r := a % 2 ^ e
    let h := 2 ^ (e - 1)
    let q1 := if r < h then q else if h < r then q + 1 else if q % 2 = 0 then q else q + 1
    Int.sign n * ((q1 * 2 ^ e : Nat) : Int)

/-- Go `int64(math.Min(float64(a), float64(b)))` for `int64` values `a`, `b`. -/
def mathMin (a b : Int) : Int :=
  min (float64 a) (float64 b)

/-! ## Data model (`common.Block`, `common.BlockOffsetList`) -/

/-- Go `common.Block`: the two bits of `Flags` are the fields `Truncated`, `Dirty`. -/
structure Block where
  Id : String
  StartIndex : Int
  EndIndex : Int
  Data : List Byte
  Truncated : Bool
  Dirty : Bool
deriving DecidableEq, Repr

/-- Go `common.BlockOffsetList`: the `SmallFile` bit of `Flags` is a field. -/
structure BlockOffsetList where
  BlockList : List Block
  SmallFile : Bool
  BlockIdLength : Int
deriving DecidableEq, Repr

/-- Go `error` values the code distinguishes. -/
inductive Error where
  | ENOENT
  | EPERM
  | ERANGE
  | EIO
  | other (code : Nat)
deriving DecidableEq, Repr

/-- Collaborators whose code is not part of the excerpt (package `common` and
the Go library); they are parameters of the embedding. -/
structure Common where
  /-- Go `common.GetIdLength(id)` -/
  GetIdLength : String → Int
  /-- Go `common.NewUUIDWithLength(length)`, the bytes of the `k`-th draw -/
  NewUUIDWithLength : Nat → Int → List Byte
  /-- Go `common.NewUUID().Bytes()` -/
  NewUUID : List Byte
  /-- Go `base64.StdEncoding.EncodeToString` -/
  EncodeToString : List Byte → String
  /-- Go `BlockOffsetList.BinarySearch(offset)`: (found, index) -/
  BinarySearch : List Block → Int → Bool × Int
  /-- Go `BlockOffsetList.FindBlocksToModify(offset, length)`: the block list
  afterwards (the blocks are shared by pointer) and
  (index, oldDataSize, exceedsFileBlocks, appendOnly) -/
  FindBlocksToModify : List Block → Int → Int → List Block × Int × Int × Bool × Bool

/-- The receiver `bb`: its configured block size and the collaborators. -/
structure BB where
  blockSize : Int
  common : Common

/-- Answers of the object service to the remote calls of one operation. -/
structure Service where
  /-- Go `GetAttr(name)`: the size of the attribute, or the error (with a nil attribute) -/
  getAttr : Except Error Int
  /-- Go `GetBlockList`: the committed blocks as (name, size) -/
  getBlockList : Except Error (List (String × Int))
  /-- Go `DownloadBlobToBuffer(offset, count)`: the bytes delivered -/
  download : Int → Int → Except Error (List Byte)
  /-- Go `UploadBufferToBlockBlob(data)` -/
  upload : List Byte → Option Error
  /-- Go `StageBlock(id, data)` -/
  stageBlock : String → List Byte → Option Error
  /-- Go `CommitBlockList(ids)` -/
  commitBlockList : List String → Option Error

/-- Remote calls, as recorded in the order they are issued. -/
inductive Call where
  | getAttr
  | getBlockList
  | download (offset count : Int)
  | upload (data : List Byte)
  | stage (id : String) (data : List Byte)
  | commit (ids : List String)
deriving DecidableEq, Repr

/-- How a call ends: it returns an `error` value (`none` is `nil`) or panics. -/
inductive Outcome where
  | returned (err : Option Error)
  | panicked
deriving DecidableEq, Repr

/-! ## Block map construction -/

/-- Loop of `GetFileBlockOffsets` over `storageBlockList.CommittedBlocks`:
`blockOffset` is the running offset, `acc` the block list built so far. -/
def offsetsLoop : List (String × Int) → Int → List Block → List Block
  | [], _, acc => acc
  | (name, size) :: rest, blockOffset, acc =>
    let blk : Block :=
      { Id := name, StartIndex := blockOffset, EndIndex := blockOffset + size,
        Data := [], Truncated := false, Dirty := false }
    offsetsLoop rest (blockOffset + size) (acc ++ [blk])

/-- Go `GetFileBlockOffsets`: `resp` is the answer of `GetBlockList` (the committed
blocks as (name, size), or an error). -/
def GetFileBlockOffsets (bb : BB) (resp : Except Error (List (String × Int))) :
    Except Error BlockOffsetList :=
  match resp with
  | .error err => .error err
  | .ok committed =>
    if committed.length = 0 then
      .ok { BlockList := [], SmallFile := true, BlockIdLength := 0 }
    else
      let blockList := offsetsLoop committed 0 []
      -- blockList.BlockList[0]: the list is not empty here (see offsetsLoop_ne_nil)
      match blockList with
      | [] => .ok { BlockList := [], SmallFile := false, BlockIdLength := 0 }
      | b :: _ =>
        .ok { BlockList := blockList, SmallFile := false,
              BlockIdLength := bb.common.GetIdLength b.Id }

/-- Go `createBlock`: `k` numbers the random draw. -/
def createBlock (bb : BB) (k : Nat) (blockIdLength startIndex size : Int) : Block :=
  { Id := bb.common.EncodeToString (bb.common.NewUUIDWithLength k blockIdLength),
    StartIndex := startIndex,
    EndIndex := startIndex + size,
    Data := [],
    Truncated := true,
    Dirty := true }

/-- Loop of `createNewBlocks`: `for i := prevIndex; i < offset+length; i += blockSize`.
`limit` is `offset+length`; the result is the extended list and `bufferSize`.
`none` when the fuel runs out.  The sums are exact here; `createNewBlocksLoopInt64`
is the loop with the `int64` sums wrapping around. -/
def createNewBlocksLoop (bb : BB) (blockIdLength blockSize limit : Int) :
    Nat → Int → List Block → Int → Option (List Block × Int)
  | fuel, i, blockList, bufferSize =>
    if i < limit then
      match fuel with
      | 0 => none
      | fuel + 1 =>
        let blkSize := mathMin blockSize (limit - i)
        let newBlock := createBlock bb blockList.length blockIdLength i blkSize
        createNewBlocksLoop bb blockIdLength blockSize limit fuel (i + blockSize)
          (blockList ++ [newBlock]) (bufferSize + blkSize)
    else some (blockList, bufferSize)

/-- Go `createNewBlocks` with exact sums: the block list afterwards and the returned
`bufferSize`.  `none` when the call does not return: the list is empty (index out of
range) or the loop never ends (a negative block size).  It agrees with the function
on `int64`, `createNewBlocksInt64`, while no sum of the code overflows
(`createNewBlocksInt64_eq`). -/
def createNewBlocks (bb : BB) (blockList : BlockOffsetList) (offset length : Int) :
    Option (BlockOffsetList × Int) :=
  let blockSize := bb.blockSize
  match getAt blockList.BlockList ((blockList.BlockList.length : Int) - 1) with
  | none => none
  | some last =>
    let prevIndex := last.EndIndex
    let blockSize := if blockSize = 0 then 16 * 1024 * 1024 else blockSize
    match createNewBlocksLoop bb blockList.BlockIdLength blockSize (offset + length)
        ((offset + length - prevIndex).toNat) prevIndex blockList.BlockList 0 with
    | none => none
    | some (bl, bufferSize) => some ({ blockList with BlockList := bl }, bufferSize)

/-- The `int64` result of an integer operation whose exact result is `x`: Go integer
arithmetic wraps around, the result is `x` modulo `2^64` in `[-2^63, 2^63)`. -/
def wrap64 (x : Int) : Int :=
  (x + 2 ^ 63) % 2 ^ 64 - 2 ^ 63

/-- Loop of `createNewBlocks` on `int64`: `(offset+length)-i`, `startIndex + size` (in
`createBlock`), `i += blockSize` and `bufferSize += blkSize` wrap around, where
`createNewBlocksLoop` takes them exactly.  `none` when the fuel runs out. -/
def createNewBlocksLoopInt64 (bb : BB) (blockIdLength blockSize limit : Int) :
    Nat → Int → List Block → Int → Option (List Block × Int)
  | fuel, i, blockList, bufferSize =>
    if i < limit then
      match fuel with
      | 0 => none
      | fuel + 1 =>
        let blkSize := mathMin blockSize (wrap64 (limit - i))
        let newBlock : Block :=
          { createBlock bb blockList.length blockIdLength i blkSize with
            EndIndex := wrap64 (i + blkSize) }
        createNewBlocksLoopInt64 bb blockIdLength blockSize limit fuel (wrap64 (i + blockSize))
          (blockList ++ [newBlock]) (wrap64 (bufferSize + blkSize))
    else some (blockList, bufferSize)

/-- Go `createNewBlocks` on `int64`, with `offset+length` and the sums of the loop
wrapping around.  The loop variable has `2^64` values and decides alone whether the
loop goes on, so a loop that has not ended after `2^64` rounds never ends: `none` is a
call that does not return, or the index out of range on an empty list. -/
def createNewBlocksInt64 (bb : BB) (blockList : BlockOffsetList) (offset length : Int) :
    Option (BlockOffsetList × Int) :=
  let blockSize := bb.blockSize
  match getAt blockList.BlockList ((blockList.BlockList.length : Int) - 1) with
  | none => none
  | some last =>
    let prevIndex := last.EndIndex
    let blockSize := if blockSize = 0 then 16 * 1024 * 1024 else blockSize
    match createNewBlocksLoopInt64 bb blockList.BlockIdLength blockSize
        (wrap64 (offset + length)) (2 ^ 64) prevIndex blockList.BlockList 0 with
    | none => none
    | some (bl, bufferSize) => some ({ blockList with BlockList := bl }, bufferSize)

/-! ## Reads and whole-blob upload -/

/-- Go `ReadInBuffer(name, offset, len, data)`: the buffer afterwards and the error. -/
def ReadInBuffer (svc : Service) (offset len : Int) (data : List Byte) :
    List Byte × Option Error :=
  match svc.download offset len with
  | .ok bytes => (goCopy data bytes, none)
  | .error err => (data, some err)

/-- Go `ReadBuffer(name, offset, len)`: the calls issued and the returned buffer and
error; `none` when `make` panics. -/
def ReadBuffer (svc : Service) (offset len : Int) :
    List Call × Option (List Byte × Option Error) :=
  if len = 0 then
    -- len = azblob.CountToEnd (= 0)
    match svc.getAttr with
    | .error err => ([Call.getAttr], some ([], some err))
    | .ok attrSize =>
      match makeBytes attrSize with
      | none => ([Call.getAttr], none)
      | some buff =>
        match svc.download offset 0 with
        | .ok bytes => ([Call.getAttr, Call.download offset 0], some (goCopy buff bytes, none))
        | .error err => ([Call.getAttr, Call.download offset 0], some (buff, some err))
  else
    match makeBytes len with
    | none => ([], none)
    | some buff =>
      match svc.download offset len with
      | .ok bytes => ([Call.download offset len], some (goCopy buff bytes, none))
      | .error err => ([Call.download offset len], some (buff, some err))

/-- Go `WriteFromBuffer(name, metadata, data)`: the call issued and the returned error. -/
def WriteFromBuffer (svc : Service) (data : List Byte) : List Call × Option Error :=
  ([Call.upload data], svc.upload data)

/-! ## Shrinking a block map -/

/-- Go `removeBlocks`: the block list afterwards and the calls issued; `none` when
an index expression panics. -/
def removeBlocks (bb : BB) (svc : Service) (blockList : BlockOffsetList) (size : Int) :
    Option (BlockOffsetList × List Call) :=
  let index := (bb.common.BinarySearch blockList.BlockList size).2
  match getAt blockList.BlockList index with
  | none => none
  | some b0 =>
    -- if the start index is equal to new size - block should be removed - move one index back
    let index := if b0.StartIndex = size then index - 1 else index
    match getAt blockList.BlockList index with
    | none => none
    | some blk =>
      if blk.EndIndex > size then
        -- blk.EndIndex = size; blk.Data = make([]byte, blk.EndIndex-blk.StartIndex)
        match makeBytes (size - blk.StartIndex) with
        | none => none
        | some buf =>
          let rd := ReadInBuffer svc blk.StartIndex (size - blk.StartIndex) buf
          let blk1 := { blk with EndIndex := size, Data := rd.1, Dirty := true }
          some ({ blockList with
                  BlockList := (blockList.BlockList.set index.toNat blk1).take (index + 1).toNat },
                [Call.download blk.StartIndex (size - blk.StartIndex)])
      else
        some ({ blockList with BlockList := blockList.BlockList.take (index + 1).toNat }, [])

/-! ## Staging and commit -/

/-- State of the loop of `StageAndCommit` when it stops. -/
structure StageLoop where
  /-- the blocks afterwards -/
  blocks : List Block
  blockIDList : List String
  staged : Bool
  calls : List Call
  /-- Is `none` when the loop ran to its end, `some o` when it left the function with `o` -/
  stop : Option Outcome

/-- Loop of `StageAndCommit` over the blocks still to visit; `done` are the blocks
visited so far (as they are afterwards). -/
def stageLoop (svc : Service) :
    List Block → List Block → List String → Bool → List Call → StageLoop
  | [], done, blockIDList, staged, calls =>
    { blocks := done, blockIDList := blockIDList, staged := staged, calls := calls,
      stop := none }
  | blk :: rest, done, blockIDList, staged, calls =>
    let blockIDList := blockIDList ++ [blk.Id]
    let prep : Option (List Byte × Block) :=
      if blk.Truncated then
        match makeBytes (blk.EndIndex - blk.StartIndex) with
        | none => none
        | some data => some (data, { blk with Truncated := false })
      else some (blk.Data, blk)
    match prep with
    | none =>
      { blocks := done ++ blk :: rest, blockIDList := blockIDList, staged := staged,
        calls := calls, stop := some Outcome.panicked }
    | some (data, blk1) =>
      if blk1.Dirty then
        match svc.stageBlock blk1.Id data with
        | some err =>
          { blocks := done ++ blk1 :: rest, blockIDList := blockIDList, staged := staged,
            calls := calls ++ [Call.stage blk1.Id data],
            stop := some (Outcome.returned (some err)) }
        | none =>
          stageLoop svc rest (done ++ [{ blk1 with Dirty := false }]) blockIDList true
            (calls ++ [Call.stage blk1.Id data])
      else
        stageLoop svc rest (done ++ [blk1]) blockIDList staged calls

/-- Go `StageAndCommit(name, bol)`: the block list afterwards, the calls issued and
how the call ends. -/
def StageAndCommit (svc : Service) (bol : BlockOffsetList) :
    BlockOffsetList × List Call × Outcome :=
  let r := stageLoop svc bol.BlockList [] [] false []
  let bol1 := { bol with BlockList := r.blocks }
  match r.stop with
  | some o => (bol1, r.calls, o)
  | none =>
    if r.staged then
      match svc.commitBlockList r.blockIDList with
      | some err => (bol1, r.calls ++ [Call.commit r.blockIDList], Outcome.returned (some err))
      | none => (bol1, r.calls ++ [Call.commit r.blockIDList], Outcome.returned none)
    else (bol1, r.calls, Outcome.returned none)

/-- Loop of `stageAndCommitModifiedBlocks`: the id list, the calls and, when the
loop leaves the function, how. -/
def stageModifiedLoop (svc : Service) (data : List Byte) :
    List Block → Int → List String → List Call → List String × List Call × Option Outcome
  | [], _, blockIDList, calls => (blockIDList, calls, none)
  | blk :: rest, blockOffset, blockIDList, calls =>
    let blockIDList := blockIDList ++ [blk.Id]
    if blk.Dirty then
      match sliceBytes data blockOffset ((blk.EndIndex - blk.StartIndex) + blockOffset) with
      | none => (blockIDList, calls, some Outcome.panicked)
      | some chunk =>
        match svc.stageBlock blk.Id chunk with
        | some err =>
          (blockIDList, calls ++ [Call.stage blk.Id chunk], some (Outcome.returned (some err)))
        | none =>
          stageModifiedLoop svc data rest ((blk.EndIndex - blk.StartIndex) + blockOffset)
            blockIDList (calls ++ [Call.stage blk.Id chunk])
    else stageModifiedLoop svc data rest blockOffset blockIDList calls

/-- Go `stageAndCommitModifiedBlocks(name, data, offsetList)`: the calls issued and how
the call ends. -/
def stageAndCommitModifiedBlocks (svc : Service) (data : List Byte)
    (offsetList : BlockOffsetList) : List Call × Outcome :=
  match stageModifiedLoop svc data offsetList.BlockList 0 [] [] with
  | (_, calls, some o) => (calls, o)
  | (blockIDList, calls, none) =>
    (calls ++ [Call.commit blockIDList], Outcome.returned (svc.commitBlockList blockIDList))

/-! ## Truncate -/

/-- Go `TruncateFile`, the branch of a file that consists of blocks (`!bol.SmallFile()`);
`calls` are the calls issued before. -/
def truncateBlockFile (bb : BB) (svc : Service) (bol : BlockOffsetList)
    (size attrSize : Int) (calls : List Call) : List Call × Outcome :=
  let step : Option (BlockOffsetList × List Call) :=
    if size > attrSize then
      match getAt bol.BlockList ((bol.BlockList.length : Int) - 1) with
      | none => none
      | some last =>
        match createNewBlocks bb bol last.EndIndex (size - attrSize) with
        | none => none
        | some r => some (r.1, [])
    else if size < attrSize then removeBlocks bb svc bol size
    else some (bol, [])
  match step with
  | none => (calls, Outcome.panicked)
  | some (bol1, c1) =>
    let r := StageAndCommit svc bol1
    (calls ++ c1 ++ r.2.1, r.2.2)

/-- Go `TruncateFile`, the branch of a small file (no blocks); `calls` are the calls
issued before. -/
def truncateSmallFile (bb : BB) (svc : Service) (bol : BlockOffsetList)
    (size attrSize : Int) (calls : List Call) : List Call × Outcome :=
  let rb := ReadBuffer svc 0 0
  match rb.2 with
  | none => (calls ++ rb.1, Outcome.panicked)
  | some (_, some err) => (calls ++ rb.1, Outcome.returned (some err))
  | some (data, none) =>
    if size > attrSize then
      -- if expanding - convert the file to blocks
      let blk : Block :=
        { StartIndex := 0, EndIndex := attrSize, Data := data,
          Id := bb.common.EncodeToString bb.common.NewUUID,
          Truncated := false, Dirty := true }
      let bol1 : BlockOffsetList :=
        { BlockList := bol.BlockList ++ [blk], SmallFile := false,
          BlockIdLength := bb.common.GetIdLength blk.Id }
      match getAt bol1.BlockList ((bol1.BlockList.length : Int) - 1) with
      | none => (calls ++ rb.1, Outcome.panicked)
      | some last =>
        match createNewBlocks bb bol1 last.EndIndex (size - attrSize) with
        | none => (calls ++ rb.1, Outcome.panicked)
        | some r =>
          let sc := StageAndCommit svc r.1
          (calls ++ rb.1 ++ sc.2.1, sc.2.2)
    else if size < attrSize then
      -- if shrinking just adjust the size: data = data[0:size]
      match sliceBytes data 0 size with
      | none => (calls ++ rb.1, Outcome.panicked)
      | some data1 =>
        let w := WriteFromBuffer svc data1
        (calls ++ rb.1 ++ w.1, Outcome.returned w.2)
    else
      let sc := StageAndCommit svc bol
      (calls ++ rb.1 ++ sc.2.1, sc.2.2)

/-- Go `TruncateFile(name, size)`: the calls issued and how the call ends
(`Outcome.panicked` also stands for a call that never returns). -/
def TruncateFile (bb : BB) (svc : Service) (size : Int) : List Call × Outcome :=
  let calls := [Call.getAttr]
  let zeroFill : List Call × Outcome :=
    -- bb.WriteFromBuffer(name, nil, make([]byte, size))
    match makeBytes size with
    | none => (calls, Outcome.panicked)
    | some zeros =>
      let w := WriteFromBuffer svc zeros
      (calls ++ w.1, Outcome.returned w.2)
  match svc.getAttr with
  | .error err =>
    if err = Error.ENOENT then (calls, Outcome.returned (some err))
    -- attr is nil: `size == 0 || attr.Size == 0` reads attr.Size unless size == 0
    else if size = 0 then zeroFill
    else (calls, Outcome.panicked)
  | .ok attrSize =>
    if size = 0 ∨ attrSize = 0 then zeroFill
    else
      let calls := calls ++ [Call.getBlockList]
      match GetFileBlockOffsets bb svc.getBlockList with
      | .error err => (calls, Outcome.returned (some err))
      | .ok bol =>
        if !bol.SmallFile then truncateBlockFile bb svc bol size attrSize calls
        else truncateSmallFile bb svc bol size attrSize calls

/-! ## Write -/

/-- Go `Write`, small-file case: the buffer `*dataBuffer` handed to `WriteFromBuffer`,
from the existing content `oldData`; `none` when a slice or `make` panics. -/
def smallFileBuffer (oldData : List Byte) (offset : Int) (data : List Byte) :
    Option (List Byte) :=
  let length : Int := data.length
  -- if we are only overwriting existing data
  if (oldData.length : Int) ≥ offset + length then
    copyAt oldData offset data
  else if oldData.length > 0 then
    match makeBytes (offset + length) with
    | none => none
    | some newDataBuffer =>
      let newDataBuffer := if offset ≠ 0 then goCopy newDataBuffer oldData else newDataBuffer
      copyAt newDataBuffer offset data
  else some data

/-- Go `Write`, block-file case. -/
def writeBlockFile (bb : BB) (svc : Service) (fileOffsets : BlockOffsetList)
    (offset : Int) (data : List Byte) (calls : List Call) : List Call × Outcome :=
  let length : Int := data.length
  match bb.common.FindBlocksToModify fileOffsets.BlockList offset length with
  | (bl, index, oldDataSize, exceedsFileBlocks, appendOnly) =>
    let fo : BlockOffsetList := { fileOffsets with BlockList := bl }
    let grown : Option (BlockOffsetList × Int) :=
      if exceedsFileBlocks then createNewBlocks bb fo offset length else some (fo, 0)
    match grown with
    | none => (calls, Outcome.panicked)
    | some (fo1, newBufferSize) =>
      match makeBytes (oldDataSize + newBufferSize), getAt fo1.BlockList index with
      | some oldDataBuffer, some blk =>
        let rd : List Byte × List Call :=
          if !appendOnly then
            ((ReadInBuffer svc blk.StartIndex oldDataSize oldDataBuffer).1,
             [Call.download blk.StartIndex oldDataSize])
          else (oldDataBuffer, [])
        let blockOffset := offset - blk.StartIndex
        match copyAt rd.1 blockOffset data with
        | none => (calls ++ rd.2, Outcome.panicked)
        | some buf =>
          let r := stageAndCommitModifiedBlocks svc buf fo1
          (calls ++ rd.2 ++ r.1, r.2)
      | _, _ => (calls, Outcome.panicked)

/-- Go `Write(options)`: the calls issued and how the call ends; `offset` is
`options.Offset`, `data` is `options.Data`. -/
def Write (bb : BB) (svc : Service) (offset : Int) (data : List Byte) :
    List Call × Outcome :=
  let calls := [Call.getBlockList]
  match GetFileBlockOffsets bb svc.getBlockList with
  | .error err => (calls, Outcome.returned (some err))
  | .ok fileOffsets =>
    if fileOffsets.SmallFile then
      let rb := ReadBuffer svc 0 0
      match rb.2 with
      | none => (calls ++ rb.1, Outcome.panicked)
      | some (oldData, _) =>
        match smallFileBuffer oldData offset data with
        | none => (calls ++ rb.1, Outcome.panicked)
        | some dataBuffer =>
          let w := WriteFromBuffer svc dataBuffer
          (calls ++ rb.1 ++ w.1, Outcome.returned w.2)
    else writeBlockFile bb svc fileOffsets offset data calls

/-! ## The block-map invariant -/

/-- The blocks tile `[s, e)`: the first starts at `s`, each starts where the one
before ends, no block ends before it starts, and the last ends at `e`
(the empty list tiles the empty range only). -/
def Contiguous : Int → Int → List Block → Prop
  | s, e, [] => s = e
  | s, e, b :: rest => b.StartIndex = s ∧ b.StartIndex ≤ b.EndIndex ∧ Contiguous b.EndIndex e rest

/-- Every block but the last has length exactly `B`, the last has length in `[1, B]`. -/
def SizedBy (B : Int) : List Block → Prop
  | [] => True
  | [b] => 1 ≤ b.EndIndex - b.StartIndex ∧ b.EndIndex - b.StartIndex ≤ B
  | b :: c :: rest => b.EndIndex - b.StartIndex = B ∧ SizedBy B (c :: rest)

/-- Sum of the block lengths `EndIndex - StartIndex`. -/
def totalLength (bl : List Block) : Int :=
  (bl.map (fun b => b.EndIndex - b.StartIndex)).sum

/-- The block size `createNewBlocks` works with: the configured one, or 16 MiB
when that is 0. -/
def effectiveBlockSize (bb : BB) : Int :=
  if bb.blockSize = 0 then 16 * 1024 * 1024 else bb.blockSize

/-! ## Concrete collaborators and block maps used in the examples -/

/-- Modelled from the spec: loop of `BlockOffsetList.BinarySearch` (package `common`,
not part of the excerpt), a binary search over the block ranges for the block
that contains `offset`; `lo` and `hi` bound the indices still to search. -/
def binarySearchLoop (bl : List Block) (offset : Int) : Nat → Int → Int → Bool × Int
  | 0, _, _ => (false, bl.length)
  | fuel + 1, lo, hi =>
    if lo ≤ hi then
      let mid := (lo + hi) / 2
      match getAt bl mid with
      | none => (false, bl.length)
      | some b =>
        if b.StartIndex ≤ offset ∧ offset < b.EndIndex then (true, mid)
        else if b.EndIndex ≤ offset then binarySearchLoop bl offset fuel (mid + 1) hi
        else binarySearchLoop bl offset fuel lo (mid - 1)
    else (false, bl.length)

/-- Modelled from the spec: `BlockOffsetList.BinarySearch(offset)` (package `common`,
not part of the excerpt): whether a block contains `offset` and the index of
that block, or the number of blocks when there is none. -/
def BinarySearch (bl : List Block) (offset : Int) : Bool × Int :=
  binarySearchLoop bl offset bl.length 0 ((bl.length : Int) - 1)

/-- One mebibyte. -/
def MiB : Int := 1024 * 1024

/-- A concrete set of collaborators: ids are the drawn bytes read as characters. -/
def exampleCommon : Common :=
  { GetIdLength := fun id => id.length
    NewUUIDWithLength := fun k n => List.replicate n.toNat (UInt8.ofNat (97 + k))
    NewUUID := List.replicate 16 (UInt8.ofNat 110)
    EncodeToString := fun bytes => String.mk (bytes.map (fun b => Char.ofNat b.toNat))
    BinarySearch := BinarySearch
    FindBlocksToModify := fun bl _ _ => (bl, 0, 0, false, false) }

/-- A receiver with the given block size. -/
def exampleBB (blockSize : Int) : BB :=
  { blockSize := blockSize, common := exampleCommon }

/-- A committed block `[lo, hi)` as `GetFileBlockOffsets` builds it. -/
def committedBlock (id : String) (lo hi : Int) : Block :=
  { Id := id, StartIndex := lo, EndIndex := hi, Data := [], Truncated := false, Dirty := false }

/-- A file of 3 blocks of 16 MiB. -/
def threeBlocks : BlockOffsetList :=
  { BlockList := [committedBlock "blk0" 0 (16 * MiB), committedBlock "blk1" (16 * MiB) (32 * MiB),
                  committedBlock "blk2" (32 * MiB) (48 * MiB)]
    SmallFile := false
    BlockIdLength := 4 }

/-- A service on which every call succeeds, for a blob of `size` bytes with the
committed blocks `committed`; a range read delivers as many bytes `65` as it
was asked for (`size - offset` when the count is 0). -/
def exampleService (size : Int) (committed : List (String × Int)) : Service :=
  { getAttr := .ok size
    getBlockList := .ok committed
    download := fun offset count =>
      .ok (List.replicate (if count = 0 then size - offset else count).toNat 65)
    upload := fun _ => none
    stageBlock := fun _ _ => none
    commitBlockList := fun _ => none }

/-- A service holding a small file (no committed blocks) with the bytes `content`;
every call succeeds. -/
def smallFileService (content : List Byte) : Service :=
  { getAttr := .ok content.length
    getBlockList := .ok []
    download := fun offset count =>
      .ok (if count = 0 then content.drop offset.toNat
           else (content.drop offset.toNat).take count.toNat)
    upload := fun _ => none
    stageBlock := fun _ _ => none
    commitBlockList := fun _ => none }

/-- The bytes of "HelloWorld". -/
def helloWorld : List Byte := [72, 101, 108, 108, 111, 87, 111, 114, 108, 100]

/-- The bytes of "ABCDE". -/
def abcde : List Byte := [65, 66, 67, 68, 69]

/-- A block map of 28 bytes with a clean block, a dirty block that holds 4 bytes
and a new truncated block of 8 bytes. -/
def mixedBlocks : BlockOffsetList :=
  { BlockList :=
      [committedBlock "blk0" 0 16,
       { Id := "blk1", StartIndex := 16, EndIndex := 20, Data := [65, 65, 65, 65],
         Truncated := false, Dirty := true },
       { Id := "blk2", StartIndex := 20, EndIndex := 28, Data := [],
         Truncated := true, Dirty := true }]
    SmallFile := false
    BlockIdLength := 4 }

/-- A service on which every call succeeds but the `StageBlock` of the id `failing`,
which fails with the error code 7. -/
def stageFailingService (failing : String) : Service :=
  { getAttr := .ok 28
    getBlockList := .ok [("blk0", 16), ("blk1", 12)]
    download := fun _ count => .ok (List.replicate count.toNat 65)
    upload := fun _ => none
    stageBlock := fun id _ => if id = failing then some (Error.other 7) else none
    commitBlockList := fun _ => none }

/-! ## Block size selection: `calculateBlockSize` -/

/-- Constants of the `azblob` library that `calculateBlockSize` uses; their
declarations are not part of the excerpt, they are parameters. -/
structure Azblob where
  BlockBlobMaxStageBlockBytes : Int
  BlockBlobMaxBlocks : Int
  BlockBlobMaxUploadBlobBytes : Int
  BlobDefaultDownloadBlockSize : Int

/-- Go constant `MaxBlocksSize = azblob.BlockBlobMaxStageBlockBytes * azblob.BlockBlobMaxBlocks`. -/
def MaxBlocksSize (az : Azblob) : Int :=
  az.BlockBlobMaxStageBlockBytes * az.BlockBlobMaxBlocks

/-- Round a rational to the nearest integer, ties to the even one. -/
def roundHalfEven (y : ℚ) : Int :=
  let f := ⌊y⌋
  let d := y - f
  if d < 1 / 2 then f else if 1 / 2 < d then f + 1 else if f % 2 = 0 then f else f + 1

/-- The IEEE-754 double nearest to the rational `x` (53 significant bits, round to
nearest, ties to even), as a rational; the bounds of the exponent are not
modelled (no overflow, no subnormal numbers). -/
def roundDouble (x : ℚ) : ℚ :=
  if x = 0 then 0
  else
    let a := |x|
    let e : Int := Int.log 2 a - 52
    let m := roundHalfEven (a / (2 : ℚ) ^ e)
    (if x < 0 then -1 else 1) * (m * (2 : ℚ) ^ e)

/-- Go `int64(math.Ceil(float64(a) / b))` for an `int64` value `a` and an integer
constant `b`: both are converted to doubles, divided with one rounding, and the
quotient is rounded up. -/
def ceilDiv64 (a b : Int) : Int :=
  ⌈roundDouble ((float64 a : ℚ) / (float64 b : ℚ))⌉

/-- Go `calculateBlockSize(name, fileSize)`: the block size, or the message of the
error.  `x & (-8)` on `int64` is `Int.land x (-8)`. -/
def calculateBlockSize (az : Azblob) (fileSize : Int) : Except String Int :=
  -- If bufferSize > (BlockBlobMaxStageBlockBytes * BlockBlobMaxBlocks), then error
  if fileSize > MaxBlocksSize az then
    .error "buffer is too large to upload to a block blob"
  else if fileSize ≤ az.BlockBlobMaxUploadBlobBytes then
    -- Files up to 256MB can be uploaded as a single block
    .ok az.BlockBlobMaxUploadBlobBytes
  else
    -- buffer / max blocks = block size to use all 50,000 blocks
    let blockSize := ceilDiv64 fileSize az.BlockBlobMaxBlocks
    if blockSize < az.BlobDefaultDownloadBlockSize then
      .ok az.BlobDefaultDownloadBlockSize
    else
      let blockSize :=
        if Int.land blockSize (-8) ≠ 0 then Int.land (blockSize + 7) (-8) else blockSize
      if blockSize > az.BlockBlobMaxStageBlockBytes then
        .error "block-size is too large to upload to a block blob"
      else .ok blockSize

/-- Modelled from the spec: the constants of the `azblob` library, whose
declarations are not part of the excerpt: a single-upload limit of 256 MiB, a
default of 16 MiB, 50,000 blocks (the number the comment in `calculateBlockSize`
gives), and 4000 MiB for the largest block, a multiple of 8. -/
def specAzblob : Azblob :=
  { BlockBlobMaxStageBlockBytes := 4000 * MiB
    BlockBlobMaxBlocks := 50000
    BlockBlobMaxUploadBlobBytes := 256 * MiB
    BlobDefaultDownloadBlockSize := 16 * MiB }

/-- The values the `azblob` library (`azure-storage-blob-go`) declares for the
constants; the declarations are not part of the excerpt.  The default download block
size is 4 MiB, not the 16 MiB of the comment in `calculateBlockSize`. -/
def libAzblob : Azblob :=
  { BlockBlobMaxStageBlockBytes := 4000 * MiB
    BlockBlobMaxBlocks := 50000
    BlockBlobMaxUploadBlobBytes := 256 * MiB
    BlobDefaultDownloadBlockSize := 4 * MiB }

/-! ## Vocabulary for the truncate theorems -/

/-- The block map `TruncateFile` builds for a small file that grows, right after
the existing bytes `data` became its first block and before `createNewBlocks`
(the statements between `blk := &common.Block` and `bol.BlockIdLength = ...`). -/
def smallFileToBlocks (bb : BB) (bol : BlockOffsetList) (data : List Byte)
    (attrSize : Int) : BlockOffsetList :=
  { BlockList := bol.BlockList ++
      [{ StartIndex := 0, EndIndex := attrSize, Data := data,
         Id := bb.common.EncodeToString bb.common.NewUUID,
         Truncated := false, Dirty := true }]
    SmallFile := false
    BlockIdLength := bb.common.GetIdLength (bb.common.EncodeToString bb.common.NewUUID) }

/-- The block map an empty committed block list gives: the small-file map. -/
def smallFileMap : BlockOffsetList :=
  { BlockList := [], SmallFile := true, BlockIdLength := 0 }

/-! ## Block ids -/

/-- The 64 characters of the standard base64 alphabet (RFC 4648). -/
def base64Alphabet : List Char :=
  "ABCDEFGHIJKLMNOPQRSTUVWXYZabcdefghijklmnopqrstuvwxyz0123456789+/".toList

/-- The character of the 6-bit value `n`. -/
def base64Char (n : Nat) : Char :=
  base64Alphabet.getD n 'A'

/-- Characters of the standard base64 encoding with padding: 3 bytes give 4
characters, a last group of 1 or 2 bytes is padded with `=`. -/
def base64Chars : List Byte → List Char
  | [] => []
  | [a] => [base64Char (a.toNat / 4), base64Char (a.toNat % 4 * 16), '=', '=']
  | [a, b] =>
    [base64Char (a.toNat / 4), base64Char (a.toNat % 4 * 16 + b.toNat / 16),
     base64Char (b.toNat % 16 * 4), '=']
  | a :: b :: c :: rest =>
    base64Char (a.toNat / 4) :: base64Char (a.toNat % 4 * 16 + b.toNat / 16) ::
      base64Char (b.toNat % 16 * 4 + c.toNat / 64) :: base64Char (c.toNat % 64) ::
      base64Chars rest

/-- Go `base64.StdEncoding.EncodeToString` (Go library): the standard base64
encoding of a byte string. -/
def base64Encode (bytes : List Byte) : String :=
  String.mk (base64Chars bytes)

/-- Modelled from the spec: `common.GetIdLength(id)` (package `common`, not part
of the excerpt), the byte length of the random byte sequence a block id
encodes: 3 bytes for every 4 characters, less the padding characters. -/
def decodedIdLength (id : String) : Int :=
  3 * ((id.length : Int) / 4) - ((id.toList.filter (fun ch => ch = '=')).length : Int)

/-- Modelled from the spec: the collaborators of package `common` that mint and
measure block ids (not part of the excerpt): `NewUUIDWithLength(length)` returns
`length` bytes, here the `k`-th draw repeats the byte `97 + k`; `NewUUID()` has
16 bytes; `GetIdLength` is the decoded byte length of an id; ids are encoded
with the standard base64 encoding. -/
def specCommon : Common :=
  { GetIdLength := decodedIdLength
    NewUUIDWithLength := fun k n => List.replicate n.toNat (UInt8.ofNat (97 + k))
    NewUUID := List.replicate 16 (UInt8.ofNat 110)
    EncodeToString := base64Encode
    BinarySearch := BinarySearch
    FindBlocksToModify := fun bl _ _ => (bl, 0, 0, false, false) }

/-- A receiver with the spec-modelled id collaborators and the default block size. -/
def specBB : BB :=
  { blockSize := 0, common := specCommon }

/-- The block map `TruncateFile` builds from the small file "ABCDE". -/
def convertedMap : BlockOffsetList :=
  smallFileToBlocks specBB smallFileMap abcde 5

/-- The map `convertedMap` grown to 12 bytes by `createNewBlocks`. -/
def grownMap : BlockOffsetList :=
  { convertedMap with BlockList := convertedMap.BlockList ++ [createBlock specBB 1 16 5 7] }

/-! ## Vocabulary for the staging theorems -/

/-- The buffer `StageAndCommit` hands to `StageBlock` for a block: zero bytes of
the length of the block when it is truncated, its data buffer otherwise. -/
def stageData (b : Block) : List Byte :=
  if b.Truncated then List.replicate (b.EndIndex - b.StartIndex).toNat 0 else b.Data

/-- The stage calls `StageAndCommit` issues for a list of blocks when none fails:
one for each dirty block, in order. -/
def stageCalls (bl : List Block) : List Call :=
  (bl.filter (fun b => b.Dirty)).map (fun b => Call.stage b.Id (stageData b))

/-- A block with both flags cleared. -/
def clearFlags (b : Block) : Block :=
  { b with Truncated := false, Dirty := false }

/-- Whether a call is a `CommitBlockList`. -/
def Call.isCommit : Call → Bool
  | Call.commit _ => true
  | _ => false

/-! ## Listing: `List` and `getAttrUsingList` -/

/-- What `storeBlobErrToErr` makes of the error of a storage call (the helper is not
part of the excerpt; these are the kinds the code tests for). -/
inductive StoreError where
  | ErrFileNotFound
  | InvalidPermission
  | other (code : Nat)
deriving DecidableEq, Repr

/-- One blob of a listing segment: its name, `*Properties.ContentLength` and its
metadata. -/
structure BlobItem where
  Name : String
  ContentLength : Int
  Metadata : List (String × String)
deriving DecidableEq, Repr

/-- A listing segment as the service returns it: the blob items, the names of the
common prefixes (`BlobPrefixes`) and `NextMarker.Val`. -/
structure Segment where
  BlobItems : List BlobItem
  BlobPrefixes : List String
  NextMarker : Option String
deriving DecidableEq, Repr

/-- Go `internal.ObjAttr`, without the times and the MD5; the bits of `Flags` are
fields. -/
structure ObjAttr where
  Path : String
  Name : String
  Size : Int
  Mode : Nat
  IsDir : Bool
  MetadataRetrieved : Bool
  ModeDefault : Bool
deriving DecidableEq, Repr

/-- Helpers on names whose code is not part of the excerpt; they are parameters. -/
structure PathOps where
  /-- Go `split(bb.Config.prefixPath, name)` -/
  split : String → String
  /-- Go `filepath.Base(name)` -/
  base : String → String
  /-- Whether `parseMetadata(attr, metadata)` sets the directory flag of `attr` -/
  metaIsDir : List (String × String) → Bool
  /-- Go `strings.Replace(srcPath, source, target, 1)` -/
  replaceFirst : String → String → String → String

/-- Go `os.ModeDir`. -/
def ModeDir : Nat := 2 ^ 31

/-- Go `strings.TrimSuffix(name, "/")`. -/
def trimSlash (name : String) : String :=
  match name.data.reverse with
  | '/' :: rest => String.mk rest.reverse
  | _ => name

/-- First loop of `List`, over `listBlob.Segment.BlobItems`: the entries so far and
the keys of `dirList`. -/
def listBlobItems (ops : PathOps) : List BlobItem → List ObjAttr → List String →
    List ObjAttr × List String
  | [], blobList, dirList => (blobList, dirList)
  | blobInfo :: rest, blobList, dirList =>
    let attr : ObjAttr :=
      { Path := ops.split blobInfo.Name
        Name := ops.base blobInfo.Name
        Size := blobInfo.ContentLength
        Mode := 0
        IsDir := ops.metaIsDir blobInfo.Metadata
        MetadataRetrieved := true
        ModeDefault := true }
    if attr.IsDir then
      -- 0 byte meta found so mark this directory in map; attr.Size = 4096
      listBlobItems ops rest (blobList ++ [{ attr with Size := 4096 }])
        (dirList ++ [blobInfo.Name ++ "/"])
    else listBlobItems ops rest (blobList ++ [attr]) dirList

/-- Second loop of `List`, over `listBlob.Segment.BlobPrefixes`. -/
def listBlobPrefixes (ops : PathOps) (dirList : List String) :
    List String → List ObjAttr → List ObjAttr
  | [], blobList => blobList
  | blobName :: rest, blobList =>
    if !(dirList.contains blobName) then
      let name := trimSlash blobName
      let attr : ObjAttr :=
        { Path := ops.split name
          Name := ops.base name
          Size := 4096
          Mode := ModeDir
          IsDir := true
          MetadataRetrieved := true
          ModeDefault := true }
      listBlobPrefixes ops dirList rest (blobList ++ [attr])
    else listBlobPrefixes ops dirList rest blobList

/-- Go `List(prefix, marker, count)`: the entries, the next marker and the error,
from the answer of `ListBlobsHierarchySegment`. -/
def ListEntries (ops : PathOps) (resp : Except StoreError Segment) :
    List ObjAttr × Option String × Option StoreError :=
  match resp with
  | .error err => ([], none, some err)
  | .ok listBlob =>
    let r := listBlobItems ops listBlob.BlobItems [] []
    (listBlobPrefixes ops r.2 listBlob.BlobPrefixes r.1, listBlob.NextMarker, none)

/-- One call of `List` made by `getAttrUsingList`: the marker passed and whether
the call failed. -/
structure ListCall where
  marker : Option String
  failed : Bool
deriving DecidableEq, Repr

/-- Go constant `maxFailCount` of `getAttrUsingList`. -/
def maxFailCount : Nat := 20

/-- The statements of `getAttrUsingList` after its loop.  `err` is the result
variable of the function: it is never assigned, the `err` of the loop is a
variable of its own (`blobs, new_marker, err := bb.List(...)`). -/
def getAttrAfterLoop (err : Option Error) : Except Error ObjAttr :=
  match err with
  | none => .error Error.ENOENT
  | some e => .error e

/-- Loop of `getAttrUsingList`.  The `k`-th call of `List` is answered by the
`k`-th element of the list of answers; the result is `none` when the answers run
out before the function returns.  `calls` records the calls made. -/
def getAttrUsingListLoop (ops : PathOps) (name : String) :
    List (Except StoreError Segment) → Nat → Option String → List ListCall →
    List ListCall × Option (Except Error ObjAttr)
  | [], failCount, _, calls =>
    if failCount < maxFailCount then (calls, none) else (calls, some (getAttrAfterLoop none))
  | resp :: rest, failCount, marker, calls =>
    if failCount < maxFailCount then
      match ListEntries ops resp with
      | (_, _, some err) =>
        match err with
        | StoreError.ErrFileNotFound =>
          (calls ++ [{ marker := marker, failed := true }], some (.error Error.ENOENT))
        | StoreError.InvalidPermission =>
          (calls ++ [{ marker := marker, failed := true }], some (.error Error.EPERM))
        | StoreError.other _ =>
          getAttrUsingListLoop ops name rest (failCount + 1) marker
            (calls ++ [{ marker := marker, failed := true }])
      | (blobs, new_marker, none) =>
        -- failCount = 0
        match blobs.find? (fun blob => blob.Path = name) with
        | some blob => (calls ++ [{ marker := marker, failed := false }], some (.ok blob))
        | none =>
          if new_marker = none ∨ new_marker = some "" ∨ 0 ≥ maxFailCount then
            (calls ++ [{ marker := marker, failed := false }], some (getAttrAfterLoop none))
          else
            getAttrUsingListLoop ops name rest 0 new_marker
              (calls ++ [{ marker := marker, failed := false }])
    else (calls, some (getAttrAfterLoop none))

/-- Go `getAttrUsingList(name)`: the calls of `List` made and the result. -/
def getAttrUsingList (ops : PathOps) (name : String)
    (answers : List (Except StoreError Segment)) :
    List ListCall × Option (Except Error ObjAttr) :=
  getAttrUsingListLoop ops name answers 0 none []

/-- The run of failed calls at the end of a list of calls and the longest run of
consecutive failed calls in it, computed call by call. -/
def failRuns (calls : List ListCall) : Nat × Nat :=
  calls.foldl
    (fun s c => if c.failed then (s.1 + 1, max s.2 (s.1 + 1)) else (0, s.2)) (0, 0)

/-- Length of the longest run of consecutive failed calls. -/
def maxFailRun (calls : List ListCall) : Nat :=
  (failRuns calls).2

/-- The entry `List` returns for a blob item: its size is 4096 when its metadata
marks it a directory. -/
def blobEntry (ops : PathOps) (b : BlobItem) : ObjAttr :=
  { Path := ops.split b.Name
    Name := ops.base b.Name
    Size := if ops.metaIsDir b.Metadata then 4096 else b.ContentLength
    Mode := 0
    IsDir := ops.metaIsDir b.Metadata
    MetadataRetrieved := true
    ModeDefault := true }

/-- The directory entry `List` returns for a common prefix without marker blob. -/
def prefixEntry (ops : PathOps) (blobName : String) : ObjAttr :=
  { Path := ops.split (trimSlash blobName)
    Name := ops.base (trimSlash blobName)
    Size := 4096
    Mode := ModeDir
    IsDir := true
    MetadataRetrieved := true
    ModeDefault := true }

/-- Whether the segment holds a directory-marker blob named like the common prefix
`blobName` without its trailing slash. -/
def hasMarker (ops : PathOps) (seg : Segment) (blobName : String) : Bool :=
  seg.BlobItems.any (fun b => ops.metaIsDir b.Metadata && decide (b.Name = trimSlash blobName))

/-- Go `strings.Replace(s, old, new, 1)` on the characters of the strings. -/
def replaceFirstChars (old new : List Char) : List Char → List Char
  | [] => if old = [] then new else []
  | c :: rest =>
    if (c :: rest).take old.length = old then new ++ (c :: rest).drop old.length
    else c :: replaceFirstChars old new rest

/-- Path helpers for the examples: the stored name is the path, a blob is a
directory marker when its metadata holds `hdi_isfolder=true`. -/
def examplePathOps : PathOps :=
  { split := fun name => name
    base := fun name => name
    metaIsDir := fun m => m.contains ("hdi_isfolder", "true")
    replaceFirst := fun s old new => String.mk (replaceFirstChars old.data new.data s.data) }

/-- A segment with the marker blob of `a/dir1`, a file, and the common prefixes
`a/dir1/` (marked) and `a/dir2/` (no marker). -/
def exampleSegment : Segment :=
  { BlobItems := [⟨"a/dir1", 0, [("hdi_isfolder", "true")]⟩, ⟨"a/file", 7, []⟩]
    BlobPrefixes := ["a/dir1/", "a/dir2/"]
    NextMarker := some "" }

/-! ## Deleting and renaming -/

/-- Answer of the blob `Delete` call, its error as `storeBlobErrToErr` classifies it;
`failed code` is any other error. -/
inductive DeleteAnswer where
  | done
  | ErrFileNotFound
  | BlobIsUnderLease
  | failed (code : Nat)
deriving DecidableEq, Repr

/-- Go `DeleteFile(name)`, from the answer of the blob `Delete` call. -/
def DeleteFile (answer : DeleteAnswer) : Option Error :=
  match answer with
  | .done => none
  | .ErrFileNotFound => some Error.ENOENT
  | .BlobIsUnderLease => some Error.EIO
  | .failed code => some (Error.other code)

/-- Go `azblob.Marker.NotDone()`: the marker is nil (`none`) or not empty. -/
def NotDone (marker : Option String) : Bool :=
  decide (marker ≠ some "")

/-- Calls a directory operation makes, in the order they are issued. -/
inductive DirCall where
  | list (marker : Option String)
  | delete (name : String)
  | rename (source target : String)
deriving DecidableEq, Repr

/-- Inner loop of `DeleteDirectory` over the blobs of one segment: every blob is
deleted, a failure is logged and nothing else. -/
def deleteChildren (ops : PathOps) (delete : String → DeleteAnswer) :
    List BlobItem → List DirCall → List DirCall
  | [], calls => calls
  | blobInfo :: rest, calls =>
    let _err := DeleteFile (delete (ops.split blobInfo.Name))
    deleteChildren ops delete rest (calls ++ [DirCall.delete (ops.split blobInfo.Name)])

/-- Outer loop of `DeleteDirectory`.  The `k`-th call of `ListBlobsFlatSegment` is
answered by the `k`-th element of the answers (an error is given by its code); the
result is `none` when the answers run out before the function returns. -/
def DeleteDirectoryLoop (ops : PathOps) (delete : String → DeleteAnswer) (name : String) :
    List (Except Nat Segment) → Option String → List DirCall →
    List DirCall × Option (Option Error)
  | [], marker, calls =>
    if NotDone marker then (calls, none)
    else (calls ++ [DirCall.delete name], some (DeleteFile (delete name)))
  | resp :: rest, marker, calls =>
    if NotDone marker then
      match resp with
      | .error code => (calls ++ [DirCall.list marker], some (some (Error.other code)))
      | .ok listBlob =>
        DeleteDirectoryLoop ops delete name rest listBlob.NextMarker
          (deleteChildren ops delete listBlob.BlobItems (calls ++ [DirCall.list marker]))
    else (calls ++ [DirCall.delete name], some (DeleteFile (delete name)))

/-- Go `DeleteDirectory(name)`: the calls made and the error returned. -/
def DeleteDirectory (ops : PathOps) (delete : String → DeleteAnswer) (name : String)
    (answers : List (Except Nat Segment)) : List DirCall × Option (Option Error) :=
  DeleteDirectoryLoop ops delete name answers none []

/-- Go `azblob.CopyStatusType`. -/
inductive CopyStatus where
  | pending
  | success
  | aborted
  | failed
deriving DecidableEq, Repr

/-- Answer of `GetProperties` on the source of a rename. -/
inductive PropertiesAnswer where
  | found
  | ErrFileNotFound
  | failed (code : Nat)
deriving DecidableEq, Repr

/-- Answers of the object service to the calls of one `RenameFile`: `polls` answers
the successive calls of `GetProperties` on the target (an error by its code). -/
structure RenameAnswers where
  sourceProperties : PropertiesAnswer
  startCopy : Except Nat CopyStatus
  polls : List (Except Nat CopyStatus)
  delete : DeleteAnswer

/-- Calls `RenameFile` makes, in the order they are issued. -/
inductive RenameCall where
  | getProperties
  | startCopy
  | sleep
  | getTargetProperties
  | deleteSource
deriving DecidableEq, Repr

/-- Polling loop of `RenameFile` and the statement after it.  A failed poll leaves
`prop` nil, which `prop.CopyStatus()` dereferences; the result is `none` when the
answers run out while the copy is pending. -/
def RenameFilePoll (delete : DeleteAnswer) :
    List (Except Nat CopyStatus) → CopyStatus → List RenameCall →
    List RenameCall × Option Outcome
  | [], copyStatus, calls =>
    if copyStatus = CopyStatus.pending then (calls, none)
    else (calls ++ [RenameCall.deleteSource], some (Outcome.returned (DeleteFile delete)))
  | answer :: rest, copyStatus, calls =>
    if copyStatus = CopyStatus.pending then
      match answer with
      | .error _ =>
        (calls ++ [RenameCall.sleep, RenameCall.getTargetProperties], some Outcome.panicked)
      | .ok status =>
        RenameFilePoll delete rest status
          (calls ++ [RenameCall.sleep, RenameCall.getTargetProperties])
    else (calls ++ [RenameCall.deleteSource], some (Outcome.returned (DeleteFile delete)))

/-- Go `RenameFile(source, target)`: the calls made and how the call ends. -/
def RenameFile (svc : RenameAnswers) : List RenameCall × Option Outcome :=
  match svc.sourceProperties with
  | .ErrFileNotFound => ([RenameCall.getProperties], some (Outcome.returned (some Error.ENOENT)))
  | .failed code => ([RenameCall.getProperties], some (Outcome.returned (some (Error.other code))))
  | .found =>
    match svc.startCopy with
    | .error code =>
      ([RenameCall.getProperties, RenameCall.startCopy],
        some (Outcome.returned (some (Error.other code))))
    | .ok copyStatus =>
      RenameFilePoll svc.delete svc.polls copyStatus
        [RenameCall.getProperties, RenameCall.startCopy]

/-- Inner loop of `RenameDirectory` over the blobs of one segment; `rename src dst`
is the error `RenameFile(src, dst)` returns.  A failure is logged and nothing else. -/
def renameChildren (ops : PathOps) (rename : String → String → Option Error)
    (source target : String) : List BlobItem → List DirCall → List DirCall
  | [], calls => calls
  | blobInfo :: rest, calls =>
    let srcPath := ops.split blobInfo.Name
    let _err := rename srcPath (ops.replaceFirst srcPath source target)
    renameChildren ops rename source target rest
      (calls ++ [DirCall.rename srcPath (ops.replaceFirst srcPath source target)])

/-- Outer loop of `RenameDirectory`, with the answers of `ListBlobsFlatSegment` as in
`DeleteDirectoryLoop`. -/
def RenameDirectoryLoop (ops : PathOps) (rename : String → String → Option Error)
    (source target : String) :
    List (Except Nat Segment) → Option String → List DirCall →
    List DirCall × Option (Option Error)
  | [], marker, calls =>
    if NotDone marker then (calls, none)
    else (calls ++ [DirCall.rename source target], some (rename source target))
  | resp :: rest, marker, calls =>
    if NotDone marker then
      match resp with
      | .error code => (calls ++ [DirCall.list marker], some (some (Error.other code)))
      | .ok listBlob =>
        RenameDirectoryLoop ops rename source target rest listBlob.NextMarker
          (renameChildren ops rename source target listBlob.BlobItems
            (calls ++ [DirCall.list marker]))
    else (calls ++ [DirCall.rename source target], some (rename source target))

/-- Go `RenameDirectory(source, target)`: the calls made and the error returned. -/
def RenameDirectory (ops : PathOps) (rename : String → String → Option Error)
    (source target : String) (answers : List (Except Nat Segment)) :
    List DirCall × Option (Option Error) :=
  RenameDirectoryLoop ops rename source target answers none []

/-- The calls of a directory walk over the segments `segs` starting at `marker`:
one list call per segment, each followed by one call per blob of the segment. -/
def walkCalls (child : String → DirCall) (ops : PathOps) :
    Option String → List Segment → List DirCall
  | _, [] => []
  | marker, seg :: rest =>
    DirCall.list marker :: seg.BlobItems.map (fun b => child (ops.split b.Name)) ++
      walkCalls child ops seg.NextMarker rest

/-- A flat listing of the directory `d` in one segment: the blobs `d/a` and `d/b`. -/
def dirSegment : Segment :=
  { BlobItems := [⟨"d/a", 3, []⟩, ⟨"d/b", 4, []⟩]
    BlobPrefixes := []
    NextMarker := some "" }

/-- The same directory listed in two segments: `d/a` first, with the marker `m1` to
continue at, then `d/b`. -/
def dirSegments : List Segment :=
  [{ BlobItems := [⟨"d/a", 3, []⟩], BlobPrefixes := [], NextMarker := some "m1" },
   { BlobItems := [⟨"d/b", 4, []⟩], BlobPrefixes := [], NextMarker := some "" }]

/-- A store on which the blob `d/a` is under lease and every other delete succeeds. -/
def leasedDelete (name : String) : DeleteAnswer :=
  if name = "d/a" then DeleteAnswer.BlobIsUnderLease else DeleteAnswer.done

/-- Results of `RenameFile` on a store where renaming `d/a` fails with the error
code 9 and every other rename succeeds. -/
def failingRename (source _target : String) : Option Error :=
  if source = "d/a" then some (Error.other 9) else none

/-- A rename whose server-side copy is pending at first and has failed at the first
poll; the delete of the source succeeds. -/
def copyFailsAnswers : RenameAnswers :=
  { sourceProperties := PropertiesAnswer.found
    startCopy := .ok CopyStatus.pending
    polls := [.ok CopyStatus.failed]
    delete := DeleteAnswer.done }

/-- A rename whose server-side copy is reported aborted by `StartCopyFromURL`. -/
def copyAbortedAnswers : RenameAnswers :=
  { sourceProperties := PropertiesAnswer.found
    startCopy := .ok CopyStatus.aborted
    polls := []
    delete := DeleteAnswer.done }

/-! ## Attribute errors in `TruncateFile` -/

/-- A service on which `GetAttr` fails with EPERM, so the attribute is nil; every
other call would succeed on a file of two blocks of 16 bytes. -/
def deniedService : Service :=
  { exampleService 32 [("blk0", 16), ("blk1", 16)] with getAttr := .error Error.EPERM }

/-! ## Mount options: `umask` -/

/-- Go `strings.Split(v, "=")` on the characters of `v`. -/
def splitEquals : List Char → List (List Char)
  | [] => [[]]
  | c :: rest =>
    match splitEquals rest with
    | [] => [[c]]
    | p :: ps => if c = '=' then [] :: p :: ps else (c :: p) :: ps

/-- The white space `strings.TrimSpace` removes (Unicode White_Space). -/
def isSpace (c : Char) : Bool :=
  let n := c.toNat
  n = 32 ∨ (9 ≤ n ∧ n ≤ 13) ∨ n = 0x85 ∨ n = 0xA0 ∨ n = 0x1680 ∨ (0x2000 ≤ n ∧ n ≤ 0x200A) ∨
    n = 0x2028 ∨ n = 0x2029 ∨ n = 0x202F ∨ n = 0x205F ∨ n = 0x3000

/-- Go `strings.TrimSpace(v)`. -/
def TrimSpace (v : String) : String :=
  String.mk ((v.data.dropWhile isSpace).reverse.dropWhile isSpace).reverse

/-- Go `strings.HasPrefix(v, p)`. -/
def HasPrefix (v p : String) : Bool :=
  decide (v.data.take p.data.length = p.data)

/-- Go `strconv.ParseUint(s, 10, 32)`: the value of a non-empty string of decimal
digits below `2^32`, `none` for the error. -/
def ParseUint (s : String) : Option Nat :=
  if s.data = [] then none
  else if s.data.all (fun c => decide ('0' ≤ c ∧ c ≤ '9')) then
    let value := s.data.foldl (fun acc c => 10 * acc + (c.toNat - 48)) 0
    if value < 2 ^ 32 then some value else none
  else none

/-- What the loop body of `RunE` over `options.LibfuseOptions` does with one option:
`RunE` returns an error, goes on to the next option, or sets a configuration key. -/
inductive OptionStep where
  | fail
  | skip
  | set (key value : String)
deriving DecidableEq, Repr

/-- Body of the loop of `mountCmd.RunE` over `options.LibfuseOptions`, for the option
`v`; `ignored` is `common.FuseIgnoredFlags()`.  Where `parameter[1]` is read the option
holds a `=`, so the index is in range. -/
def libfuseOption (ignored : List String) (v : String) : OptionStep :=
  let parameter := (splitEquals v.data).map String.mk
  if parameter.length > 2 ∨ parameter.length ≤ 0 then OptionStep.fail
  else
    let v := TrimSpace v
    if ignored.contains v then OptionStep.skip
    else if v = "allow_other" ∨ v = "allow_other=true" then OptionStep.set "allow-other" "true"
    else if HasPrefix v "attr_timeout=" then
      OptionStep.set "libfuse.attribute-expiration-sec" (parameter.getD 1 "")
    else if HasPrefix v "entry_timeout=" then
      OptionStep.set "libfuse.entry-expiration-sec" (parameter.getD 1 "")
    else if HasPrefix v "negative_timeout=" then
      OptionStep.set "libfuse.negative-entry-expiration-sec" (parameter.getD 1 "")
    else if v = "ro" ∨ v = "ro=true" then OptionStep.set "read-only" "true"
    else if v = "allow_root" then OptionStep.set "libfuse.default-permission" "700"
    else if HasPrefix v "umask=" then
      match ParseUint (parameter.getD 1 "") with
      | none => OptionStep.fail
      | some permission =>
        -- perm := ^uint32(permission) & 777
        let perm := (2 ^ 32 - 1 - permission) &&& 777
        OptionStep.set "libfuse.default-permission" (toString perm)
    else OptionStep.fail

/-! ## Vocabulary for the slices of `stageAndCommitModifiedBlocks` -/

/-- The bytes `[blk.StartIndex - s, blk.EndIndex - s)` of the buffer `data`. -/
def bufferChunk (s : Int) (data : List Byte) (blk : Block) : List Byte :=
  (data.drop (blk.StartIndex - s).toNat).take
    ((blk.EndIndex - s).toNat - (blk.StartIndex - s).toNat)

/-- One `StageBlock` call per block of `run`, each with its bytes of the buffer. -/
def chunkCalls (s : Int) (data : List Byte) (run : List Block) : List Call :=
  run.map (fun b => Call.stage b.Id (bufferChunk s data b))

/-- A block `[lo, hi)` marked dirty by `FindBlocksToModify`. -/
def dirtyBlock (id : String) (lo hi : Int) : Block :=
  { Id := id, StartIndex := lo, EndIndex := hi, Data := [], Truncated := false, Dirty := true }

/-! ## Block selection for `Write` -/

/-- Marks dirty the blocks from position `index` on that start before `limit`; the
block at `index` itself is always marked.  Returns the list and the byte span of the
marked blocks. -/
def markTouched (limit : Int) : List Block → Nat → Bool → List Block × Int
  | [], _, _ => ([], 0)
  | b :: rest, 0, first =>
    if first ∨ b.StartIndex < limit then
      let r := markTouched limit rest 0 false
      ({ b with Dirty := true } :: r.1, (b.EndIndex - b.StartIndex) + r.2)
    else (b :: rest, 0)
  | b :: rest, index + 1, first =>
    let r := markTouched limit rest index first
    (b :: r.1, r.2)

/-- Modelled from the spec: `BlockOffsetList.FindBlocksToModify(offset, length)`
(package `common`, not part of the excerpt).  `index` is the block that contains
`offset`, or the number of blocks when `offset` is at or beyond the end of the file;
`oldDataSize` is the byte span of the blocks from `index` to the last one the write
touches, which are marked dirty; `exceedsFileBlocks` tells that `offset + length` is
beyond the end of the file and `appendOnly` that `offset` is at or beyond it. -/
def FindBlocksToModify (bl : List Block) (offset length : Int) :
    List Block × Int × Int × Bool × Bool :=
  let fileEnd : Int :=
    match bl.getLast? with
    | some last => last.EndIndex
    | none => 0
  match BinarySearch bl offset with
  | (false, index) => (bl, index, 0, decide (offset + length > fileEnd), true)
  | (true, index) =>
    let r := markTouched (offset + length) bl index.toNat true
    (r.1, index, r.2, decide (offset + length > fileEnd), false)

/-- The collaborators of `exampleCommon` with the block selection of the spec. -/
def selectingCommon : Common :=
  { exampleCommon with FindBlocksToModify := FindBlocksToModify }

/-- A receiver with the block size 16 and the block selection of the spec. -/
def selectingBB : BB :=
  { blockSize := 16, common := selectingCommon }

/-! ## The per-path mutex -/

/-- What an operation does on one path, in order: it takes or releases the mutex of
the path (`bb.blockLocks.GetLock(name)`), or issues a remote call. -/
inductive Event where
  | lock
  | unlock
  | call (c : Call)
deriving DecidableEq, Repr

/-- Events of `StageAndCommit(name, bol)`: `blobMtx.Lock()` comes first and the
deferred `blobMtx.Unlock()` runs when the function is left, on every path. -/
def StageAndCommitEvents (svc : Service) (bol : BlockOffsetList) : List Event :=
  Event.lock :: (StageAndCommit svc bol).2.1.map Event.call ++ [Event.unlock]

/-- Events of `Write(options)`: neither `Write` nor `stageAndCommitModifiedBlocks`
touches the mutex, the events are the remote calls. -/
def WriteEvents (bb : BB) (svc : Service) (offset : Int) (data : List Byte) : List Event :=
  (Write bb svc offset data).1.map Event.call

/-- The remote calls among `events` that are issued while the mutex is not held by
the operation; `held` tells whether it is held at the start. -/
def unlockedCalls : List Event → Bool → List Call
  | [], _ => []
  | Event.lock :: rest, _ => unlockedCalls rest true
  | Event.unlock :: rest, _ => unlockedCalls rest false
  | Event.call c :: rest, held =>
    if held then unlockedCalls rest held else c :: unlockedCalls rest held

/-- Whether the operation holds the mutex after `events`. -/
def lockHeld (events : List Event) (held : Bool) : Bool :=
  events.foldl
    (fun h e =>
      match e with
      | Event.lock => true
      | Event.unlock => false
      | Event.call _ => h)
    held

/-- Two operations on the same path run by the schedule `sched` (`false` lets the
first take its next event, `true` the second); `holder` is the operation that holds
the mutex.  The result is `none` when the schedule asks for an event that cannot
happen: the operation has ended, or it is at `Lock()` while the other one holds the
mutex. -/
def interleave : List Bool → List Event → List Event → Option Bool →
    Option (List (Bool × Event))
  | [], _, _, _ => some []
  | false :: _, [], _, _ => none
  | true :: _, _, [], _ => none
  | false :: sched, e :: t1, t2, holder =>
    match e with
    | Event.lock =>
      if holder = none then (interleave sched t1 t2 (some false)).map (fun r => (false, e) :: r)
      else none
    | Event.unlock => (interleave sched t1 t2 none).map (fun r => (false, e) :: r)
    | Event.call _ => (interleave sched t1 t2 holder).map (fun r => (false, e) :: r)
  | true :: sched, t1, e :: t2, holder =>
    match e with
    | Event.lock =>
      if holder = none then (interleave sched t1 t2 (some true)).map (fun r => (true, e) :: r)
      else none
    | Event.unlock => (interleave sched t1 t2 none).map (fun r => (true, e) :: r)
    | Event.call _ => (interleave sched t1 t2 holder).map (fun r => (true, e) :: r)

/-- A block file of two blocks of 16 bytes on which every call succeeds. -/
def twoBlockService : Service :=
  exampleService 32 [("blk0", 16), ("blk1", 16)]

/-! ## Facts about the number conversions -/

theorem float64_exact (n : Int) (h : n.natAbs < 2 ^ 53) : float64 n = n := by
  unfold float64
  exact if_pos h

theorem float64_ge (n : Int) (h : (2 : Int) ^ 53 ≤ n) : (2 : Int) ^ 53 ≤ float64 n := by
  have hn : 0 < n := lt_of_lt_of_le (by norm_num) h
  obtain ⟨a, rfl⟩ : ∃ a : Nat, n = (a : Int) := ⟨n.toNat, by omega⟩
  have ha : 2 ^ 53 ≤ a := by exact_mod_cast h
  have ha0 : a ≠ 0 := by omega
  have hlog : 53 ≤ Nat.log2 a := (Nat.le_log2 ha0).2 ha
  have hpow : 2 ^ Nat.log2 a ≤ a := Nat.log2_self_le ha0
  have hsplit : Nat.log2 a = 52 + (Nat.log2 a - 52) := by omega
  have he : 1 ≤ Nat.log2 a - 52 := by omega
  generalize Nat.log2 a - 52 = e at hsplit he
  rw [hsplit, pow_add] at hpow
  have hq : 2 ^ 52 ≤ a / 2 ^ e := by
    rw [Nat.le_div_iff_mul_le (by positivity)]
    exact hpow
  have h2e : 2 ≤ 2 ^ e := by
    calc 2 = 2 ^ 1 := by norm_num
      _ ≤ 2 ^ e := Nat.pow_le_pow_right (by norm_num) he
  have hsign : Int.sign (a : Int) = 1 := Int.sign_eq_one_of_pos hn
  have key : ∀ q1 : Nat, a / 2 ^ e ≤ q1 → (2 : Int) ^ 53 ≤ ((q1 * 2 ^ e : Nat) : Int) := by
    intro q1 hq1
    have : 2 ^ 52 * 2 ≤ q1 * 2 ^ e := Nat.mul_le_mul (le_trans hq hq1) h2e
    have h53 : (2 : Nat) ^ 53 = 2 ^ 52 * 2 := by norm_num
    exact_mod_cast (h53 ▸ this)
  unfold float64
  simp only [Int.natAbs_ofNat, not_lt.mpr ha, if_false, hsign, one_mul]
  have hE : Nat.log2 a - 52 = e := by omega
  rw [hE]
  apply key
  split_ifs <;> omega

theorem float64_two_pow_53 : float64 ((2 : Int) ^ 53) = (2 : Int) ^ 53 := by
  have h : ((2 : Int) ^ 53).natAbs = 2 ^ 53 := by norm_num
  unfold float64
  simp only [h, Nat.log2_two_pow]
  norm_num
  exact Int.sign_eq_one_of_pos (by norm_num)

theorem mathMin_eq (B r : Int) (hB0 : 0 < B) (hB : B ≤ 2 ^ 53) (hr : 0 < r) :
    mathMin B r = min B r := by
  have hfB : float64 B = B := by
    rcases lt_or_eq_of_le hB with h | h
    · exact float64_exact B (by omega)
    · rw [h]; exact float64_two_pow_53
  unfold mathMin
  rw [hfB]
  by_cases hlt : r < 2 ^ 53
  · rw [float64_exact r (by omega)]
  · have hge := float64_ge r (by omega)
    rw [min_eq_left (le_trans hB hge), min_eq_left (by omega)]

/-! ## Facts about the invariant -/

theorem Contiguous.le {s e : Int} {bl : List Block} (h : Contiguous s e bl) : s ≤ e := by
  induction bl generalizing s with
  | nil => exact le_of_eq h
  | cons b rest ih =>
    obtain ⟨h1, h2, h3⟩ := h
    have := ih h3
    omega

theorem Contiguous.append {s m e : Int} {l1 l2 : List Block}
    (h1 : Contiguous s m l1) (h2 : Contiguous m e l2) : Contiguous s e (l1 ++ l2) := by
  induction l1 generalizing s with
  | nil =>
    have : s = m := h1
    subst this
    exact h2
  | cons b rest ih =>
    obtain ⟨ha, hb, hc⟩ := h1
    exact ⟨ha, hb, ih hc⟩

theorem totalLength_append (l1 l2 : List Block) :
    totalLength (l1 ++ l2) = totalLength l1 + totalLength l2 := by
  simp [totalLength]

theorem Contiguous.totalLength {s e : Int} {bl : List Block} (h : Contiguous s e bl) :
    totalLength bl = e - s := by
  induction bl generalizing s with
  | nil =>
    have : s = e := h
    simp [BlockBlob.totalLength, this]
  | cons b rest ih =>
    obtain ⟨h1, _, h3⟩ := h
    have := ih h3
    simp only [BlockBlob.totalLength, List.map_cons, List.sum_cons] at this ⊢
    omega

theorem getAt_last (bl : List Block) :
    getAt bl ((bl.length : Int) - 1) = bl.getLast? := by
  cases bl with
  | nil => simp [getAt]
  | cons b rest =>
    have h1 : ¬ (((b :: rest).length : Int) - 1 < 0) := by
      simp only [List.length_cons]; omega
    have h2 : (((b :: rest).length : Int) - 1).toNat = (b :: rest).length - 1 := by
      simp only [List.length_cons]; omega
    rw [getAt, if_neg h1, h2, List.getLast?_eq_getElem?]

theorem Contiguous.getLast {s e : Int} {bl : List Block} {last : Block}
    (h : Contiguous s e bl) (hl : bl.getLast? = some last) : last.EndIndex = e := by
  induction bl generalizing s with
  | nil => simp at hl
  | cons b rest ih =>
    obtain ⟨_, _, h3⟩ := h
    cases rest with
    | nil =>
      simp only [List.getLast?_singleton, Option.some.injEq] at hl
      subst hl
      exact h3
    | cons c rest2 =>
      rw [List.getLast?_cons_cons] at hl
      exact ih h3 hl

theorem Contiguous.adjacent {s e : Int} {bl : List Block} (h : Contiguous s e bl) :
    ∀ (j : Nat) (b c : Block), bl[j]? = some b → bl[j + 1]? = some c →
      b.EndIndex = c.StartIndex := by
  induction bl generalizing s with
  | nil => intro j b c hb; simp at hb
  | cons x rest ih =>
    obtain ⟨_, _, h3⟩ := h
    intro j b c hb hc
    cases j with
    | zero =>
      simp only [List.getElem?_cons_zero, Option.some.injEq] at hb
      subst hb
      cases rest with
      | nil => simp at hc
      | cons y rest2 =>
        simp only [zero_add, List.getElem?_cons_succ, List.getElem?_cons_zero,
          Option.some.injEq] at hc
        subst hc
        exact h3.1.symm
    | succ j =>
      simp only [List.getElem?_cons_succ] at hb hc
      exact ih h3 j b c hb hc

theorem Contiguous.bounds {s e : Int} {bl : List Block} (h : Contiguous s e bl) :
    ∀ b ∈ bl, s ≤ b.StartIndex ∧ b.StartIndex ≤ b.EndIndex ∧ b.EndIndex ≤ e := by
  induction bl generalizing s with
  | nil => intro b hb; simp at hb
  | cons x rest ih =>
    obtain ⟨h1, h2, h3⟩ := h
    intro b hb
    rcases List.mem_cons.1 hb with rfl | hb
    · have := Contiguous.le h3
      omega
    · have := ih h3 b hb
      omega

/-! ## The loop of `createNewBlocks` -/

theorem createNewBlocksLoop_done (bb : BB) (idl B L : Int) (fuel : Nat) (i : Int)
    (bl : List Block) (buf : Int) (h : ¬ i < L) :
    createNewBlocksLoop bb idl B L fuel i bl buf = some (bl, buf) := by
  unfold createNewBlocksLoop
  simp [h]

theorem createNewBlocksLoop_spec (bb : BB) (idl B L : Int) (hB0 : 0 < B)
    (hB : B ≤ 2 ^ 53) (fuel : Nat) :
    ∀ (i : Int) (bl : List Block) (buf : Int), i < L → (L - i).toNat ≤ fuel →
      ∃ new : List Block,
        createNewBlocksLoop bb idl B L fuel i bl buf = some (bl ++ new, buf + (L - i)) ∧
        Contiguous i L new ∧ SizedBy B new ∧ new ≠ [] ∧
        (new.length : Int) = (L - i + B - 1) / B ∧
        ∀ b ∈ new, b.Truncated = true ∧ b.Dirty = true ∧ b.Data = [] := by
  induction fuel with
  | zero =>
    intro i bl buf hi hf
    omega
  | succ fuel ih =>
    intro i bl buf hi hf
    have hmin : mathMin B (L - i) = min B (L - i) := mathMin_eq B (L - i) hB0 hB (by omega)
    unfold createNewBlocksLoop
    simp only [hi, if_true, hmin]
    by_cases hnext : i + B < L
    · obtain ⟨new, hrun, hc, hs, hne, hlen, hfl⟩ :=
        ih (i + B) (bl ++ [createBlock bb bl.length idl i (min B (L - i))])
          (buf + min B (L - i)) hnext (by omega)
      have hminB : min B (L - i) = B := min_eq_left (by omega)
      refine ⟨createBlock bb bl.length idl i (min B (L - i)) :: new, ?_, ?_, ?_, ?_, ?_, ?_⟩
      · rw [hrun, hminB]
        simp only [List.append_assoc, List.singleton_append]
        congr 2
        ring
      · refine ⟨rfl, ?_, ?_⟩
        · simp only [createBlock, hminB]; omega
        · simpa only [createBlock, hminB] using hc
      · cases new with
        | nil => exact absurd rfl hne
        | cons c rest =>
          refine ⟨?_, hs⟩
          simp only [createBlock, hminB]; omega
      · exact List.cons_ne_nil _ _
      · rw [List.length_cons]
        push_cast
        rw [hlen]
        have : L - i + B - 1 = (L - (i + B) + B - 1) + B := by ring
        rw [this, Int.add_ediv_of_dvd_right (dvd_refl B), Int.ediv_self (by omega)]
      · intro b hb
        rcases List.mem_cons.1 hb with rfl | hb
        · simp [createBlock]
        · exact hfl b hb
    · have hminL : min B (L - i) = L - i := min_eq_right (by omega)
      refine ⟨[createBlock bb bl.length idl i (min B (L - i))], ?_, ?_, ?_, ?_, ?_, ?_⟩
      · rw [createNewBlocksLoop_done bb idl B L fuel (i + B) _ _ hnext, hminL]
      · refine ⟨rfl, ?_, ?_⟩
        · simp only [createBlock, hminL]; omega
        · show (createBlock bb bl.length idl i (min B (L - i))).EndIndex = L
          simp only [createBlock, hminL]; omega
      · show 1 ≤ _ ∧ _ ≤ B
        simp only [createBlock, hminL]
        constructor <;> omega
      · exact List.cons_ne_nil _ _
      · simp only [List.length_singleton, Nat.cast_one]
        have : L - i + B - 1 = (L - i - 1) + B := by ring
        rw [this, Int.add_ediv_of_dvd_right (dvd_refl B), Int.ediv_self (by omega),
          Int.ediv_eq_zero_of_lt (by omega) (by omega)]
        rfl
      · intro b hb
        rw [List.mem_singleton] at hb
        subst hb
        simp [createBlock]

theorem effectiveBlockSize_pos (bb : BB) (h0 : 0 ≤ bb.blockSize) :
    0 < effectiveBlockSize bb := by
  unfold effectiveBlockSize
  split_ifs with h <;> omega

theorem effectiveBlockSize_le (bb : BB) (h : bb.blockSize ≤ 2 ^ 53) :
    effectiveBlockSize bb ≤ 2 ^ 53 := by
  unfold effectiveBlockSize
  split_ifs <;> omega

/-- What `createNewBlocks` does on a non-empty list whose last block is `last`,
for a block size in the range where `float64` is exact. -/
theorem createNewBlocks_spec (bb : BB) (bol : BlockOffsetList) (offset length : Int)
    (last : Block) (hlast : bol.BlockList.getLast? = some last)
    (hB0 : 0 ≤ bb.blockSize) (hB : bb.blockSize ≤ 2 ^ 53) :
    (offset + length ≤ last.EndIndex → createNewBlocks bb bol offset length = some (bol, 0)) ∧
    (last.EndIndex < offset + length →
      ∃ new : List Block,
        createNewBlocks bb bol offset length =
          some ({ bol with BlockList := bol.BlockList ++ new },
                offset + length - last.EndIndex) ∧
        Contiguous last.EndIndex (offset + length) new ∧
        SizedBy (effectiveBlockSize bb) new ∧ new ≠ [] ∧
        (new.length : Int) =
          (offset + length - last.EndIndex + effectiveBlockSize bb - 1) / effectiveBlockSize bb ∧
        ∀ b ∈ new, b.Truncated = true ∧ b.Dirty = true ∧ b.Data = []) := by
  have hget : getAt bol.BlockList ((bol.BlockList.length : Int) - 1) = some last := by
    rw [getAt_last, hlast]
  constructor
  · intro hle
    unfold createNewBlocks
    simp only [hget]
    rw [createNewBlocksLoop_done _ _ _ _ _ _ _ _ (by omega)]
  · intro hlt
    obtain ⟨new, hrun, hc, hs, hne, hlen, hfl⟩ :=
      createNewBlocksLoop_spec bb bol.BlockIdLength (effectiveBlockSize bb) (offset + length)
        (effectiveBlockSize_pos bb hB0) (effectiveBlockSize_le bb hB)
        ((offset + length - last.EndIndex).toNat) last.EndIndex bol.BlockList 0 hlt le_rfl
    refine ⟨new, ?_, hc, hs, hne, hlen, hfl⟩
    unfold createNewBlocks
    simp only [hget]
    unfold effectiveBlockSize at hrun
    rw [hrun]
    simp

theorem SizedBy.index {B : Int} {bl : List Block} (h : SizedBy B bl) :
    ∀ (j : Nat) (b : Block), bl[j]? = some b →
      (j + 1 < bl.length → b.EndIndex - b.StartIndex = B) ∧
      (j + 1 = bl.length → 1 ≤ b.EndIndex - b.StartIndex ∧ b.EndIndex - b.StartIndex ≤ B) := by
  induction bl with
  | nil => intro j b hb; simp at hb
  | cons x rest ih =>
    intro j b hb
    cases rest with
    | nil =>
      cases j with
      | zero =>
        simp only [List.getElem?_cons_zero, Option.some.injEq] at hb
        subst hb
        exact ⟨fun hlt => by simp at hlt, fun _ => h⟩
      | succ j => simp at hb
    | cons y rest2 =>
      obtain ⟨h1, h2⟩ := h
      cases j with
      | zero =>
        simp only [List.getElem?_cons_zero, Option.some.injEq] at hb
        subst hb
        exact ⟨fun _ => h1, fun heq => by simp at heq⟩
      | succ j =>
        simp only [List.getElem?_cons_succ] at hb
        have := ih h2 j b hb
        simp only [List.length_cons] at this ⊢
        exact ⟨fun hlt => this.1 (by omega), fun heq => this.2 (by omega)⟩

theorem ceil_div_eq (n B : Int) (hB : 0 < B) :
    (n + B - 1) / B = ⌈(n : ℚ) / (B : ℚ)⌉ := by
  have h1 : (n + B - 1) / B * B ≤ n + B - 1 := Int.ediv_mul_le _ (by omega)
  have h2 : n + B - 1 < ((n + B - 1) / B + 1) * B := Int.lt_ediv_add_one_mul_self _ hB
  generalize (n + B - 1) / B = k at h1 h2
  have hBq : (0 : ℚ) < (B : ℚ) := by exact_mod_cast hB
  symm
  rw [Int.ceil_eq_iff]
  constructor
  · rw [lt_div_iff₀ hBq]
    have : (k - 1) * B < n := by linarith
    exact_mod_cast this
  · rw [div_le_iff₀ hBq]
    have : n ≤ k * B := by linarith
    exact_mod_cast this

/-! ## `createNewBlocks` on `int64` -/

theorem wrap64_eq (x : Int) (h0 : -2 ^ 63 ≤ x) (h1 : x < 2 ^ 63) : wrap64 x = x := by
  unfold wrap64
  omega

theorem createNewBlocksLoop_fuel (bb : BB) (idl B L : Int) (k : Nat) :
    ∀ (fuel : Nat) (i : Int) (bl : List Block) (buf : Int) (r : List Block × Int),
      createNewBlocksLoop bb idl B L fuel i bl buf = some r →
      createNewBlocksLoop bb idl B L (fuel + k) i bl buf = some r := by
  intro fuel
  induction fuel with
  | zero =>
    intro i bl buf r h
    unfold createNewBlocksLoop at h
    by_cases hi : i < L
    · simp [hi] at h
    · rw [createNewBlocksLoop_done bb idl B L _ i bl buf hi]
      simpa [hi] using h
  | succ fuel ih =>
    intro i bl buf r h
    by_cases hi : i < L
    · unfold createNewBlocksLoop at h
      simp only [hi, if_true] at h
      have hk : fuel + 1 + k = (fuel + k) + 1 := by omega
      rw [hk]
      unfold createNewBlocksLoop
      simp only [hi, if_true]
      exact ih _ _ _ _ h
    · rw [createNewBlocksLoop_done bb idl B L _ i bl buf hi] at h
      rw [createNewBlocksLoop_done bb idl B L _ i bl buf hi]
      exact h

theorem createNewBlocksLoopInt64_eq (bb : BB) (idl B L : Int) (hB0 : 0 < B)
    (hB : B ≤ 2 ^ 53) (hL : L + B ≤ 2 ^ 63) :
    ∀ (fuel : Nat) (i : Int) (bl : List Block) (buf : Int),
      -2 ^ 63 ≤ i → L - i < 2 ^ 63 → 0 ≤ buf → buf + (L - i) < 2 ^ 63 →
      createNewBlocksLoopInt64 bb idl B L fuel i bl buf =
        createNewBlocksLoop bb idl B L fuel i bl buf := by
  intro fuel
  induction fuel with
  | zero =>
    intro i bl buf _ _ _ _
    unfold createNewBlocksLoopInt64 createNewBlocksLoop
    rfl
  | succ fuel ih =>
    intro i bl buf hi0 hspan hbuf0 hbuf
    by_cases hi : i < L
    · have hw1 : wrap64 (L - i) = L - i := wrap64_eq _ (by omega) hspan
      have hmin : mathMin B (L - i) = min B (L - i) := mathMin_eq B (L - i) hB0 hB (by omega)
      have hminpos : 0 < min B (L - i) := lt_min hB0 (by omega)
      have hminle : min B (L - i) ≤ L - i := min_le_right _ _
      have hminB : min B (L - i) ≤ B := min_le_left _ _
      have hw2 : wrap64 (i + min B (L - i)) = i + min B (L - i) :=
        wrap64_eq _ (by omega) (by omega)
      have hw3 : wrap64 (i + B) = i + B := wrap64_eq _ (by omega) (by omega)
      have hw4 : wrap64 (buf + min B (L - i)) = buf + min B (L - i) :=
        wrap64_eq _ (by omega) (by omega)
      unfold createNewBlocksLoopInt64 createNewBlocksLoop
      simp only [hi, if_true, hw1, hmin, hw2, hw3, hw4]
      rw [ih (i + B) _ _ (by omega) (by omega) (by omega) (by omega)]
      rfl
    · unfold createNewBlocksLoopInt64 createNewBlocksLoop
      simp [hi]

/-- While no `int64` sum of `createNewBlocks` overflows, the function on `int64` is
the function with exact sums. -/
theorem createNewBlocksInt64_eq (bb : BB) (bol : BlockOffsetList) (offset length : Int)
    (last : Block) (hlast : bol.BlockList.getLast? = some last)
    (hB0 : 0 ≤ bb.blockSize) (hB : bb.blockSize ≤ 2 ^ 53)
    (hE : 0 ≤ last.EndIndex) (hlo : -2 ^ 63 ≤ offset + length)
    (hhi : offset + length + effectiveBlockSize bb ≤ 2 ^ 63) :
    createNewBlocksInt64 bb bol offset length = createNewBlocks bb bol offset length := by
  have hget : getAt bol.BlockList ((bol.BlockList.length : Int) - 1) = some last := by
    rw [getAt_last, hlast]
  have hBpos := effectiveBlockSize_pos bb hB0
  have hBle := effectiveBlockSize_le bb hB
  have hw : wrap64 (offset + length) = offset + length := wrap64_eq _ hlo (by omega)
  have h64 := createNewBlocksLoopInt64_eq bb bol.BlockIdLength (effectiveBlockSize bb)
    (offset + length) hBpos hBle hhi (2 ^ 64) last.EndIndex bol.BlockList 0 (by omega)
    (by omega) (le_refl _) (by omega)
  have hfuel : ∀ r, createNewBlocksLoop bb bol.BlockIdLength (effectiveBlockSize bb)
        (offset + length) ((offset + length - last.EndIndex).toNat) last.EndIndex
        bol.BlockList 0 = some r →
      createNewBlocksLoop bb bol.BlockIdLength (effectiveBlockSize bb) (offset + length)
        (2 ^ 64) last.EndIndex bol.BlockList 0 = some r := by
    intro r hr
    have hk : (2 : Nat) ^ 64 = (offset + length - last.EndIndex).toNat +
        (2 ^ 64 - (offset + length - last.EndIndex).toNat) := by omega
    rw [hk]
    exact createNewBlocksLoop_fuel bb _ _ _ _ _ _ _ _ _ hr
  have hsome : ∃ r, createNewBlocksLoop bb bol.BlockIdLength (effectiveBlockSize bb)
      (offset + length) ((offset + length - last.EndIndex).toNat) last.EndIndex
      bol.BlockList 0 = some r := by
    by_cases hlt : last.EndIndex < offset + length
    · obtain ⟨new, hrun, _⟩ :=
        createNewBlocksLoop_spec bb bol.BlockIdLength (effectiveBlockSize bb) (offset + length)
          hBpos hBle ((offset + length - last.EndIndex).toNat) last.EndIndex bol.BlockList 0
          hlt le_rfl
      exact ⟨_, hrun⟩
    · exact ⟨_, createNewBlocksLoop_done _ _ _ _ _ _ _ _ hlt⟩
  obtain ⟨r, hr⟩ := hsome
  unfold createNewBlocksInt64 createNewBlocks
  simp only [hget, hw]
  unfold effectiveBlockSize at h64 hr hfuel
  rw [h64, hfuel r hr, hr]

/-! ## Growing a block map: `createNewBlocks` -/

/-- C6: on a non-empty block list whose last block ends at `E`, `createNewBlocks`
returns exactly the total length of the blocks it appended, and that is
`offset+length-E` when `offset+length > E` and 0 otherwise.  Proved of the function on
`int64` where no sum of the code overflows (`E ≥ 0`, `offset+length ≥ -2^63` and
`offset+length` plus the block size at most `2^63`), for a block size between 0 and
`2^53`, where the `float64` conversions of the code are exact. -/
theorem createNewBlocks_returns_appended_length (bb : BB) (bol : BlockOffsetList)
    (offset length : Int) (last : Block) (hlast : bol.BlockList.getLast? = some last)
    (hB0 : 0 ≤ bb.blockSize) (hB : bb.blockSize ≤ 2 ^ 53)
    (hE : 0 ≤ last.EndIndex) (hlo : -2 ^ 63 ≤ offset + length)
    (hhi : offset + length + effectiveBlockSize bb ≤ 2 ^ 63) :
    ∃ new : List Block,
      createNewBlocksInt64 bb bol offset length =
        some ({ bol with BlockList := bol.BlockList ++ new }, totalLength new) ∧
      totalLength new =
        if last.EndIndex < offset + length then offset + length - last.EndIndex else 0 := by
  rw [createNewBlocksInt64_eq bb bol offset length last hlast hB0 hB hE hlo hhi]
  obtain ⟨hle, hgt⟩ := createNewBlocks_spec bb bol offset length last hlast hB0 hB
  by_cases h : last.EndIndex < offset + length
  · obtain ⟨new, hrun, hc, _⟩ := hgt h
    have ht : totalLength new = offset + length - last.EndIndex := Contiguous.totalLength hc
    exact ⟨new, by rw [hrun, ht], by rw [ht, if_pos h]⟩
  · refine ⟨[], ?_, ?_⟩
    · rw [hle (by omega)]
      simp [totalLength]
    · rw [if_neg h]
      rfl

theorem createNewBlocks_returns_appended_length_witness :
    threeBlocks.BlockList.getLast? = some (committedBlock "blk2" (32 * MiB) (48 * MiB)) ∧
    (0 : Int) ≤ (exampleBB 0).blockSize ∧ (exampleBB 0).blockSize ≤ 2 ^ 53 ∧
    0 ≤ (committedBlock "blk2" (32 * MiB) (48 * MiB)).EndIndex ∧
    -2 ^ 63 ≤ 48 * MiB + MiB ∧
    48 * MiB + MiB + effectiveBlockSize (exampleBB 0) ≤ 2 ^ 63 ∧
    ∃ new : List Block,
      createNewBlocksInt64 (exampleBB 0) threeBlocks (48 * MiB) MiB =
        some ({ threeBlocks with BlockList := threeBlocks.BlockList ++ new }, totalLength new) ∧
      totalLength new =
        if (committedBlock "blk2" (32 * MiB) (48 * MiB)).EndIndex < 48 * MiB + MiB
        then 48 * MiB + MiB - (committedBlock "blk2" (32 * MiB) (48 * MiB)).EndIndex else 0 :=
  ⟨by decide, by decide, by decide, by decide, by decide, by decide,
   createNewBlocks_returns_appended_length (exampleBB 0) threeBlocks (48 * MiB) MiB
     (committedBlock "blk2" (32 * MiB) (48 * MiB)) (by decide) (by decide) (by decide)
     (by decide) (by decide) (by decide)⟩

/-- C7: `createNewBlocks` only appends and keeps the block map contiguous: on a
non-empty contiguous list covering `[0, E)` with `offset+length > E` the
resulting list is the old list followed by new blocks; the first new block
starts at `E`, each new block starts where the one before ends, the last ends
at `offset+length`, and the whole list is contiguous and covers
`[0, offset+length)`.  Proved of the function on `int64` where no sum of the code
overflows (`offset+length` plus the block size at most `2^63`), for a block size
between 0 and `2^53`. -/
theorem createNewBlocks_appends_contiguous (bb : BB) (bol : BlockOffsetList)
    (offset length E : Int) (hne : bol.BlockList ≠ [])
    (hc : Contiguous 0 E bol.BlockList) (hgt : E < offset + length)
    (hB0 : 0 ≤ bb.blockSize) (hB : bb.blockSize ≤ 2 ^ 53)
    (hhi : offset + length + effectiveBlockSize bb ≤ 2 ^ 63) :
    ∃ (new : List Block) (r : Int),
      createNewBlocksInt64 bb bol offset length =
        some ({ bol with BlockList := bol.BlockList ++ new }, r) ∧
      (∃ first, new.head? = some first ∧ first.StartIndex = E) ∧
      (∀ (j : Nat) (b c : Block), new[j]? = some b → new[j + 1]? = some c →
        b.EndIndex = c.StartIndex) ∧
      (∃ last, new.getLast? = some last ∧ last.EndIndex = offset + length) ∧
      Contiguous E (offset + length) new ∧
      Contiguous 0 (offset + length) (bol.BlockList ++ new) := by
  obtain ⟨last, hlast⟩ : ∃ last, bol.BlockList.getLast? = some last := by
    cases h : bol.BlockList.getLast? with
    | none => exact absurd (List.getLast?_eq_none_iff.1 h) hne
    | some last => exact ⟨last, rfl⟩
  have hE : last.EndIndex = E := Contiguous.getLast hc hlast
  have hE0 : 0 ≤ E := hc.le
  rw [createNewBlocksInt64_eq bb bol offset length last hlast hB0 hB (by omega) (by omega) hhi]
  obtain ⟨new, hrun, hcn, _, hnn, _, _⟩ :=
    (createNewBlocks_spec bb bol offset length last hlast hB0 hB).2 (by omega)
  rw [hE] at hcn
  refine ⟨new, _, hrun, ?_, Contiguous.adjacent hcn, ?_, hcn, Contiguous.append hc hcn⟩
  · cases new with
    | nil => exact absurd rfl hnn
    | cons x rest => exact ⟨x, rfl, hcn.1⟩
  · cases h : new.getLast? with
    | none => exact absurd (List.getLast?_eq_none_iff.1 h) hnn
    | some l => exact ⟨l, rfl, Contiguous.getLast hcn h⟩

theorem createNewBlocks_appends_contiguous_witness :
    threeBlocks.BlockList ≠ [] ∧ Contiguous 0 (48 * MiB) threeBlocks.BlockList ∧
    48 * MiB < 40 * MiB + 30 * MiB ∧
    (0 : Int) ≤ (exampleBB (16 * MiB)).blockSize ∧ (exampleBB (16 * MiB)).blockSize ≤ 2 ^ 53 ∧
    40 * MiB + 30 * MiB + effectiveBlockSize (exampleBB (16 * MiB)) ≤ 2 ^ 63 ∧
    ∃ (new : List Block) (r : Int),
      createNewBlocksInt64 (exampleBB (16 * MiB)) threeBlocks (40 * MiB) (30 * MiB) =
        some ({ threeBlocks with BlockList := threeBlocks.BlockList ++ new }, r) ∧
      (∃ first, new.head? = some first ∧ first.StartIndex = 48 * MiB) ∧
      (∀ (j : Nat) (b c : Block), new[j]? = some b → new[j + 1]? = some c →
        b.EndIndex = c.StartIndex) ∧
      (∃ last, new.getLast? = some last ∧ last.EndIndex = 40 * MiB + 30 * MiB) ∧
      Contiguous (48 * MiB) (40 * MiB + 30 * MiB) new ∧
      Contiguous 0 (40 * MiB + 30 * MiB) (threeBlocks.BlockList ++ new) :=
  ⟨by decide, by simp [Contiguous, threeBlocks, committedBlock, MiB], by decide, by decide,
   by decide, by decide,
   createNewBlocks_appends_contiguous (exampleBB (16 * MiB)) threeBlocks (40 * MiB) (30 * MiB)
     (48 * MiB) (by decide) (by simp [Contiguous, threeBlocks, committedBlock, MiB])
     (by decide) (by decide) (by decide) (by decide)⟩

/-- C8: with `B` the configured block size, or 16 MiB when that is 0, a call of
`createNewBlocks` that has to add `n = offset+length-E > 0` bytes beyond the end
`E` of the last block appends exactly `ceil(n / B)` blocks; every appended block
but the last has length exactly `B` and the last has length in `[1, B]`.  Proved of
the function on `int64` where no sum of the code overflows (`E ≥ 0` and
`offset+length+B` at most `2^63`), for a block size between 0 and `2^53`. -/
theorem createNewBlocks_block_count (bb : BB) (bol : BlockOffsetList)
    (offset length : Int) (last : Block) (hlast : bol.BlockList.getLast? = some last)
    (hgt : 0 < offset + length - last.EndIndex)
    (hB0 : 0 ≤ bb.blockSize) (hB : bb.blockSize ≤ 2 ^ 53)
    (hE : 0 ≤ last.EndIndex) (hhi : offset + length + effectiveBlockSize bb ≤ 2 ^ 63) :
    ∃ (new : List Block) (r : Int),
      createNewBlocksInt64 bb bol offset length =
        some ({ bol with BlockList := bol.BlockList ++ new }, r) ∧
      (new.length : Int) =
        ⌈((offset + length - last.EndIndex : Int) : ℚ) / ((effectiveBlockSize bb : Int) : ℚ)⌉ ∧
      ∀ (j : Nat) (b : Block), new[j]? = some b →
        (j + 1 < new.length → b.EndIndex - b.StartIndex = effectiveBlockSize bb) ∧
        (j + 1 = new.length →
          1 ≤ b.EndIndex - b.StartIndex ∧ b.EndIndex - b.StartIndex ≤ effectiveBlockSize bb) := by
  rw [createNewBlocksInt64_eq bb bol offset length last hlast hB0 hB hE (by omega) hhi]
  obtain ⟨new, hrun, _, hs, _, hlen, _⟩ :=
    (createNewBlocks_spec bb bol offset length last hlast hB0 hB).2 (by omega)
  refine ⟨new, _, hrun, ?_, SizedBy.index hs⟩
  rw [hlen, ceil_div_eq _ _ (effectiveBlockSize_pos bb hB0)]

theorem createNewBlocks_block_count_witness :
    threeBlocks.BlockList.getLast? = some (committedBlock "blk2" (32 * MiB) (48 * MiB)) ∧
    0 < 48 * MiB + MiB - (committedBlock "blk2" (32 * MiB) (48 * MiB)).EndIndex ∧
    (0 : Int) ≤ (exampleBB (16 * MiB)).blockSize ∧ (exampleBB (16 * MiB)).blockSize ≤ 2 ^ 53 ∧
    0 ≤ (committedBlock "blk2" (32 * MiB) (48 * MiB)).EndIndex ∧
    48 * MiB + MiB + effectiveBlockSize (exampleBB (16 * MiB)) ≤ 2 ^ 63 ∧
    ∃ (new : List Block) (r : Int),
      createNewBlocksInt64 (exampleBB (16 * MiB)) threeBlocks (48 * MiB) MiB =
        some ({ threeBlocks with BlockList := threeBlocks.BlockList ++ new }, r) ∧
      (new.length : Int) =
        ⌈((48 * MiB + MiB - (committedBlock "blk2" (32 * MiB) (48 * MiB)).EndIndex : Int) : ℚ) /
          ((effectiveBlockSize (exampleBB (16 * MiB)) : Int) : ℚ)⌉ ∧
      ∀ (j : Nat) (b : Block), new[j]? = some b →
        (j + 1 < new.length →
          b.EndIndex - b.StartIndex = effectiveBlockSize (exampleBB (16 * MiB))) ∧
        (j + 1 = new.length →
          1 ≤ b.EndIndex - b.StartIndex ∧
          b.EndIndex - b.StartIndex ≤ effectiveBlockSize (exampleBB (16 * MiB))) :=
  ⟨by decide, by decide, by decide, by decide, by decide, by decide,
   createNewBlocks_block_count (exampleBB (16 * MiB)) threeBlocks (48 * MiB) MiB
     (committedBlock "blk2" (32 * MiB) (48 * MiB)) (by decide) (by decide) (by decide)
     (by decide) (by decide) (by decide)⟩

/-! ## Building the block map: `GetFileBlockOffsets` -/

theorem offsetsLoop_spec (cb : List (String × Int)) :
    ∀ (s : Int) (acc : List Block),
      ∃ new : List Block,
        offsetsLoop cb s acc = acc ++ new ∧
        new.map (fun b => (b.Id, b.EndIndex - b.StartIndex)) = cb ∧
        ((∀ p ∈ cb, 0 ≤ p.2) → Contiguous s (s + (cb.map Prod.snd).sum) new) ∧
        ∀ b ∈ new, b.Data = [] ∧ b.Truncated = false ∧ b.Dirty = false := by
  induction cb with
  | nil =>
    intro s acc
    exact ⟨[], by simp [offsetsLoop], rfl, fun _ => by simp [Contiguous], by simp⟩
  | cons p rest ih =>
    intro s acc
    obtain ⟨name, size⟩ := p
    obtain ⟨new, hrun, hmap, hc, hfl⟩ := ih (s + size)
      (acc ++ [{ Id := name, StartIndex := s, EndIndex := s + size, Data := [],
                 Truncated := false, Dirty := false }])
    refine ⟨{ Id := name, StartIndex := s, EndIndex := s + size, Data := [],
              Truncated := false, Dirty := false } :: new, ?_, ?_, ?_, ?_⟩
    · simp only [offsetsLoop]
      rw [hrun]
      simp
    · simp only [List.map_cons, hmap]
      congr 2
      ring
    · intro hpos
      have h0 : 0 ≤ size := hpos (name, size) (List.mem_cons_self _ _)
      have hrest := hc (fun q hq => hpos q (List.mem_cons_of_mem _ hq))
      refine ⟨rfl, by show s ≤ s + size; omega, ?_⟩
      simp only [List.map_cons, List.sum_cons]
      rw [← add_assoc]
      exact hrest
    · intro b hb
      rcases List.mem_cons.1 hb with rfl | hb
      · exact ⟨rfl, rfl, rfl⟩
      · exact hfl b hb

theorem Contiguous.disjoint {s e : Int} {bl : List Block} (h : Contiguous s e bl) :
    ∀ (i j : Nat) (b c : Block), i < j → bl[i]? = some b → bl[j]? = some c →
      b.EndIndex ≤ c.StartIndex := by
  induction bl generalizing s with
  | nil => intro i j b c _ hb; simp at hb
  | cons x rest ih =>
    obtain ⟨_, _, h3⟩ := h
    intro i j b c hij hb hc
    cases j with
    | zero => omega
    | succ j =>
      simp only [List.getElem?_cons_succ] at hc
      cases i with
      | zero =>
        simp only [List.getElem?_cons_zero, Option.some.injEq] at hb
        subst hb
        exact (Contiguous.bounds h3 c (List.getElem?_mem hc)).1
      | succ i =>
        simp only [List.getElem?_cons_succ] at hb
        exact ih h3 i j b c (by omega) hb hc

/-- C5: for every committed block list `cb` the service returns (pairs of id and
size, sizes not negative) `GetFileBlockOffsets` succeeds with blocks in the same
order, with the same ids, each block ending at its start plus its size; the
first block starts at 0, each block starts where the one before ends, two
different blocks do not overlap, and the blocks tile `[0, sum of the sizes)`. -/
theorem GetFileBlockOffsets_contiguous (bb : BB) (cb : List (String × Int))
    (hsize : ∀ p ∈ cb, 0 ≤ p.2) :
    ∃ bol : BlockOffsetList,
      GetFileBlockOffsets bb (.ok cb) = .ok bol ∧
      bol.BlockList.map (fun b => (b.Id, b.EndIndex - b.StartIndex)) = cb ∧
      (∀ first, bol.BlockList.head? = some first → first.StartIndex = 0) ∧
      (∀ (j : Nat) (b c : Block), bol.BlockList[j]? = some b → bol.BlockList[j + 1]? = some c →
        c.StartIndex = b.EndIndex) ∧
      (∀ (i j : Nat) (b c : Block), i < j → bol.BlockList[i]? = some b →
        bol.BlockList[j]? = some c → b.EndIndex ≤ c.StartIndex) ∧
      (∀ last, bol.BlockList.getLast? = some last → last.EndIndex = (cb.map Prod.snd).sum) ∧
      Contiguous 0 ((cb.map Prod.snd).sum) bol.BlockList := by
  obtain ⟨new, hrun, hmap, hc, _⟩ := offsetsLoop_spec cb 0 []
  have hcont : Contiguous 0 ((cb.map Prod.snd).sum) new := by
    simpa using hc hsize
  simp only [List.nil_append] at hrun
  have hfacts : (∀ first, new.head? = some first → first.StartIndex = 0) ∧
      (∀ (j : Nat) (b c : Block), new[j]? = some b → new[j + 1]? = some c →
        c.StartIndex = b.EndIndex) ∧
      (∀ (i j : Nat) (b c : Block), i < j → new[i]? = some b →
        new[j]? = some c → b.EndIndex ≤ c.StartIndex) ∧
      (∀ last, new.getLast? = some last → last.EndIndex = (cb.map Prod.snd).sum) ∧
      Contiguous 0 ((cb.map Prod.snd).sum) new := by
    refine ⟨?_, fun j b c hb hc' => (Contiguous.adjacent hcont j b c hb hc').symm,
      Contiguous.disjoint hcont, fun last hl => Contiguous.getLast hcont hl, hcont⟩
    intro first hf
    cases new with
    | nil => simp at hf
    | cons x rest =>
      simp only [List.head?_cons, Option.some.injEq] at hf
      subst hf
      exact hcont.1
  cases cb with
  | nil =>
    have hnil : new = [] := by simpa using hmap
    subst hnil
    exact ⟨{ BlockList := [], SmallFile := true, BlockIdLength := 0 }, rfl, rfl, hfacts⟩
  | cons p rest =>
    cases new with
    | nil => simp at hmap
    | cons x xs =>
      refine ⟨{ BlockList := x :: xs, SmallFile := false,
                BlockIdLength := bb.common.GetIdLength x.Id }, ?_, hmap, hfacts⟩
      simp only [GetFileBlockOffsets, List.length_cons, Nat.add_one_ne_zero, if_false, hrun]

theorem GetFileBlockOffsets_contiguous_witness :
    (∀ p ∈ [("blk0", 16 * MiB), ("blk1", 16 * MiB), ("blk2", 16 * MiB)], (0 : Int) ≤ p.2) ∧
    ∃ bol : BlockOffsetList,
      GetFileBlockOffsets (exampleBB 0)
        (.ok [("blk0", 16 * MiB), ("blk1", 16 * MiB), ("blk2", 16 * MiB)]) = .ok bol ∧
      bol.BlockList.map (fun b => (b.Id, b.EndIndex - b.StartIndex)) =
        [("blk0", 16 * MiB), ("blk1", 16 * MiB), ("blk2", 16 * MiB)] ∧
      (∀ first, bol.BlockList.head? = some first → first.StartIndex = 0) ∧
      (∀ (j : Nat) (b c : Block), bol.BlockList[j]? = some b → bol.BlockList[j + 1]? = some c →
        c.StartIndex = b.EndIndex) ∧
      (∀ (i j : Nat) (b c : Block), i < j → bol.BlockList[i]? = some b →
        bol.BlockList[j]? = some c → b.EndIndex ≤ c.StartIndex) ∧
      (∀ last, bol.BlockList.getLast? = some last →
        last.EndIndex =
          (([("blk0", 16 * MiB), ("blk1", 16 * MiB), ("blk2", 16 * MiB)] :
            List (String × Int)).map Prod.snd).sum) ∧
      Contiguous 0
        ((([("blk0", 16 * MiB), ("blk1", 16 * MiB), ("blk2", 16 * MiB)] :
            List (String × Int)).map Prod.snd).sum) bol.BlockList :=
  ⟨by decide,
   GetFileBlockOffsets_contiguous (exampleBB 0)
     [("blk0", 16 * MiB), ("blk1", 16 * MiB), ("blk2", 16 * MiB)] (by decide)⟩

/-! ## Shrinking a block map: `removeBlocks` -/

theorem getAt_eq_some {α : Type} {l : List α} {i : Int} {a : α} (h : getAt l i = some a) :
    0 ≤ i ∧ l[i.toNat]? = some a := by
  unfold getAt at h
  split_ifs at h with hneg
  exact ⟨by omega, h⟩

theorem getAt_natCast {α : Type} (l : List α) (k : Nat) : getAt l (k : Int) = l[k]? := by
  unfold getAt
  rw [if_neg (by omega)]
  rfl

theorem Contiguous.split {s e : Int} {bl : List Block} (h : Contiguous s e bl) :
    ∀ (k : Nat) (b : Block), bl[k]? = some b →
      Contiguous s b.StartIndex (bl.take k) ∧ Contiguous b.StartIndex e (bl.drop k) := by
  induction bl generalizing s with
  | nil => intro k b hb; simp at hb
  | cons x rest ih =>
    intro k b hb
    cases k with
    | zero =>
      simp only [List.getElem?_cons_zero, Option.some.injEq] at hb
      subst hb
      exact ⟨h.1.symm, ⟨rfl, h.2.1, h.2.2⟩⟩
    | succ k =>
      simp only [List.getElem?_cons_succ] at hb
      obtain ⟨h1, h2, h3⟩ := h
      obtain ⟨ha, hb2⟩ := ih h3 k b hb
      exact ⟨⟨h1, h2, ha⟩, hb2⟩

theorem take_set_succ {α : Type} (l : List α) (k : Nat) (x : α) (hk : k < l.length) :
    (l.set k x).take (k + 1) = l.take k ++ [x] := by
  induction l generalizing k with
  | nil => simp at hk
  | cons y rest ih =>
    cases k with
    | zero => simp
    | succ k =>
      simp only [List.length_cons, Nat.add_lt_add_iff_right] at hk
      simp [ih k hk]

theorem take_succ_of_getElem? {α : Type} (l : List α) (k : Nat) (x : α) (hk : l[k]? = some x) :
    l.take (k + 1) = l.take k ++ [x] := by
  rw [List.take_succ, hk]
  rfl

theorem getLast?_take {α : Type} (l : List α) (k : Nat) (hk : k ≤ l.length) :
    (l.take (k + 1 - 1)).getLast? = if k = 0 then none else l[k - 1]? := by
  cases k with
  | zero => simp
  | succ k =>
    simp only [Nat.add_sub_cancel, Nat.add_one_ne_zero, if_false]
    rw [List.getLast?_eq_getElem?, List.length_take, Nat.min_eq_left hk, List.getElem?_take]
    simp

theorem goCopy_length (dst src : List Byte) : (goCopy dst src).length = dst.length := by
  unfold goCopy
  rw [List.length_append, List.length_take, List.length_drop]
  omega

theorem goCopy_of_length_eq (dst src : List Byte) (h : src.length = dst.length) :
    goCopy dst src = src := by
  unfold goCopy
  rw [← h, List.take_length, List.drop_eq_nil_of_le (by omega), List.append_nil]

theorem ReadInBuffer_length (svc : Service) (offset len : Int) (data : List Byte) :
    (ReadInBuffer svc offset len data).1.length = data.length := by
  unfold ReadInBuffer
  split
  · exact goCopy_length _ _
  · rfl

theorem removeBlocks_clip (bb : BB) (svc : Service) (bol : BlockOffsetList) (size idx : Int)
    (blk : Block) (hidx : (bb.common.BinarySearch bol.BlockList size).2 = idx)
    (hget : getAt bol.BlockList idx = some blk)
    (hlo : blk.StartIndex < size) (hhi : size < blk.EndIndex) :
    removeBlocks bb svc bol size =
      some ({ bol with
              BlockList := bol.BlockList.take idx.toNat ++
                [{ blk with
                   EndIndex := size
                   Data := (ReadInBuffer svc blk.StartIndex (size - blk.StartIndex)
                     (List.replicate (size - blk.StartIndex).toNat 0)).1
                   Dirty := true }] },
            [Call.download blk.StartIndex (size - blk.StartIndex)]) := by
  obtain ⟨h0, hk⟩ := getAt_eq_some hget
  have hlen : idx.toNat < bol.BlockList.length := by
    by_contra hcon
    rw [List.getElem?_eq_none (by omega)] at hk
    cases hk
  have hmk : makeBytes (size - blk.StartIndex) =
      some (List.replicate (size - blk.StartIndex).toNat 0) := by
    unfold makeBytes
    rw [if_neg (by omega)]
  have htoNat : (idx + 1).toNat = idx.toNat + 1 := by omega
  unfold removeBlocks
  simp only [hidx, hget, if_neg (ne_of_lt hlo), gt_iff_lt, hhi, if_true, hmk, htoNat,
    take_set_succ _ _ _ hlen]

theorem removeBlocks_boundary (bb : BB) (svc : Service) (bol : BlockOffsetList)
    (size idx : Int) (blk prev : Block)
    (hidx : (bb.common.BinarySearch bol.BlockList size).2 = idx)
    (hget : getAt bol.BlockList idx = some blk) (hstart : blk.StartIndex = size)
    (hprev : getAt bol.BlockList (idx - 1) = some prev) (hend : prev.EndIndex ≤ size) :
    removeBlocks bb svc bol size =
      some ({ bol with BlockList := bol.BlockList.take idx.toNat }, []) := by
  have h0 := (getAt_eq_some hprev).1
  have htoNat : (idx - 1 + 1).toNat = idx.toNat := by omega
  unfold removeBlocks
  simp only [hidx, hget, hstart, if_true, hprev, gt_iff_lt, not_lt.mpr hend, if_false, htoNat]

/-- C10: when `size` falls strictly inside the block the search returns
(`StartIndex < size < EndIndex`), `removeBlocks` changes exactly that block: the
blocks before it are kept as they are, the block keeps its id, its `StartIndex`
and its truncated flag, its `EndIndex` becomes `size`, it is marked dirty and
its data buffer has `size - StartIndex` bytes, the bytes of the range read of
`[StartIndex, size)` when that read succeeds; it is the last block of the result. -/
theorem removeBlocks_clips_inner_block (bb : BB) (svc : Service) (bol : BlockOffsetList)
    (size : Int) (k : Nat) (blk : Block)
    (hsearch : (bb.common.BinarySearch bol.BlockList size).2 = (k : Int))
    (hk : bol.BlockList[k]? = some blk)
    (hlo : blk.StartIndex < size) (hhi : size < blk.EndIndex) :
    ∃ data : List Byte,
      removeBlocks bb svc bol size =
        some ({ bol with
                BlockList := bol.BlockList.take k ++
                  [{ blk with EndIndex := size, Data := data, Dirty := true }] },
              [Call.download blk.StartIndex (size - blk.StartIndex)]) ∧
      (data.length : Int) = size - blk.StartIndex ∧
      ∀ bytes : List Byte,
        svc.download blk.StartIndex (size - blk.StartIndex) = .ok bytes →
        (bytes.length : Int) = size - blk.StartIndex → data = bytes := by
  have hget : getAt bol.BlockList (k : Int) = some blk := by rw [getAt_natCast, hk]
  refine ⟨(ReadInBuffer svc blk.StartIndex (size - blk.StartIndex)
      (List.replicate (size - blk.StartIndex).toNat 0)).1, ?_, ?_, ?_⟩
  · have := removeBlocks_clip bb svc bol size k blk hsearch hget hlo hhi
    rw [Int.toNat_ofNat] at this
    exact this
  · rw [ReadInBuffer_length, List.length_replicate]
    omega
  · intro bytes hdl hlen
    unfold ReadInBuffer
    rw [hdl]
    apply goCopy_of_length_eq
    rw [List.length_replicate]
    omega

theorem removeBlocks_clips_inner_block_witness :
    ((exampleBB 0).common.BinarySearch threeBlocks.BlockList (20 * MiB)).2 = ((1 : Nat) : Int) ∧
    threeBlocks.BlockList[1]? = some (committedBlock "blk1" (16 * MiB) (32 * MiB)) ∧
    (committedBlock "blk1" (16 * MiB) (32 * MiB)).StartIndex < 20 * MiB ∧
    20 * MiB < (committedBlock "blk1" (16 * MiB) (32 * MiB)).EndIndex ∧
    ∃ data : List Byte,
      removeBlocks (exampleBB 0) (exampleService (48 * MiB) []) threeBlocks (20 * MiB) =
        some ({ threeBlocks with
                BlockList := threeBlocks.BlockList.take 1 ++
                  [{ committedBlock "blk1" (16 * MiB) (32 * MiB) with
                     EndIndex := 20 * MiB, Data := data, Dirty := true }] },
              [Call.download (committedBlock "blk1" (16 * MiB) (32 * MiB)).StartIndex
                (20 * MiB - (committedBlock "blk1" (16 * MiB) (32 * MiB)).StartIndex)]) ∧
      (data.length : Int) = 20 * MiB - (committedBlock "blk1" (16 * MiB) (32 * MiB)).StartIndex ∧
      ∀ bytes : List Byte,
        (exampleService (48 * MiB) []).download
            (committedBlock "blk1" (16 * MiB) (32 * MiB)).StartIndex
            (20 * MiB - (committedBlock "blk1" (16 * MiB) (32 * MiB)).StartIndex) = .ok bytes →
        (bytes.length : Int) =
          20 * MiB - (committedBlock "blk1" (16 * MiB) (32 * MiB)).StartIndex → data = bytes :=
  ⟨by decide, by decide, by decide, by decide,
   removeBlocks_clips_inner_block (exampleBB 0) (exampleService (48 * MiB) []) threeBlocks
     (20 * MiB) 1 (committedBlock "blk1" (16 * MiB) (32 * MiB)) (by decide) (by decide)
     (by decide) (by decide)⟩

theorem Contiguous.head_last {s e : Int} {bl : List Block} (h : Contiguous s e bl)
    (hlt : s < e) :
    (∀ first, bl.head? = some first → first.StartIndex = s) ∧
    ∃ last, bl.getLast? = some last ∧ last.EndIndex = e := by
  constructor
  · intro first hf
    cases bl with
    | nil => simp at hf
    | cons x rest =>
      simp only [List.head?_cons, Option.some.injEq] at hf
      subst hf
      exact h.1
  · cases hl : bl.getLast? with
    | none =>
      rw [List.getLast?_eq_none_iff] at hl
      subst hl
      have : s = e := h
      omega
    | some last => exact ⟨last, rfl, Contiguous.getLast h hl⟩

/-- C9: on a contiguous block list covering `[0, T)` and a size with
`0 < size < T`, with the binary search returning a block that contains the
offset `size`, `removeBlocks` is defined (no index is out of range) and leaves a
block list that is contiguous, starts at 0 and whose last block ends exactly at
`size`; the blocks kept are the leading blocks of the list (same ids, same
order), and no non-empty block that started at or beyond `size` is kept. -/
theorem removeBlocks_keeps_cover (bb : BB) (svc : Service) (bol : BlockOffsetList)
    (size T : Int) (hc : Contiguous 0 T bol.BlockList) (h0 : 0 < size) (_hT : size < T)
    (hsearch : ∃ b, getAt bol.BlockList (bb.common.BinarySearch bol.BlockList size).2 = some b ∧
      b.StartIndex ≤ size ∧ size < b.EndIndex) :
    ∃ (res : BlockOffsetList) (calls : List Call),
      removeBlocks bb svc bol size = some (res, calls) ∧
      Contiguous 0 size res.BlockList ∧
      (∀ first, res.BlockList.head? = some first → first.StartIndex = 0) ∧
      (∃ last, res.BlockList.getLast? = some last ∧ last.EndIndex = size) ∧
      res.BlockList.map Block.Id = (bol.BlockList.take res.BlockList.length).map Block.Id ∧
      ∀ (j : Nat) (c : Block), bol.BlockList[j]? = some c → c.StartIndex < c.EndIndex →
        size ≤ c.StartIndex → res.BlockList.length ≤ j := by
  obtain ⟨b, hget, hlo, hhi⟩ := hsearch
  obtain ⟨hidx0, hk⟩ := getAt_eq_some hget
  generalize hidx : (bb.common.BinarySearch bol.BlockList size).2 = idx at hget hidx0 hk
  obtain ⟨k, rfl⟩ : ∃ k : Nat, idx = (k : Int) := ⟨idx.toNat, by omega⟩
  rw [Int.toNat_ofNat] at hk
  have hklen : k < bol.BlockList.length := by
    by_contra hcon
    rw [List.getElem?_eq_none (by omega)] at hk
    cases hk
  obtain ⟨hc1, hc2⟩ := Contiguous.split hc k b hk
  have hbefore : ∀ (j : Nat) (c : Block), j < k → bol.BlockList[j]? = some c →
      c.EndIndex ≤ b.StartIndex := by
    intro j c hj hjc
    have hmem : c ∈ bol.BlockList.take k :=
      List.getElem?_mem ((List.getElem?_take_of_lt hj).trans hjc)
    exact (Contiguous.bounds hc1 c hmem).2.2
  rcases eq_or_lt_of_le hlo with heq | hlt
  · -- size is the start of block k: block k and all later blocks go
    have hk1 : 1 ≤ k := by
      by_contra hcon
      have hk0 : k = 0 := by omega
      subst hk0
      have : (0 : Int) = b.StartIndex := hc1
      omega
    have hcs : Contiguous 0 size (bol.BlockList.take k) := heq ▸ hc1
    obtain ⟨hhead, last, hl, hle⟩ := Contiguous.head_last hcs h0
    have hlast : bol.BlockList[k - 1]? = some last := by
      have := getLast?_take bol.BlockList k (by omega)
      rw [Nat.add_sub_cancel, if_neg (by omega), hl] at this
      exact this.symm
    have hprev : getAt bol.BlockList ((k : Int) - 1) = some last := by
      have : ((k : Int) - 1) = ((k - 1 : Nat) : Int) := by omega
      rw [this, getAt_natCast, hlast]
    have hrun := removeBlocks_boundary bb svc bol size k b last hidx hget heq hprev (by omega)
    rw [Int.toNat_ofNat] at hrun
    refine ⟨_, _, hrun, hcs, hhead, ⟨last, hl, hle⟩, ?_, ?_⟩
    · simp only [List.length_take, Nat.min_eq_left (le_of_lt hklen)]
    · intro j c hjc hne hge
      simp only [List.length_take, Nat.min_eq_left (le_of_lt hklen)]
      by_contra hcon
      have := hbefore j c (by omega) hjc
      omega
  · -- size is strictly inside block k: it is clipped, all later blocks go
    have hrun := removeBlocks_clip bb svc bol size k b hidx hget hlt hhi
    rw [Int.toNat_ofNat] at hrun
    have hcs : Contiguous 0 size (bol.BlockList.take k ++
        [{ b with
           EndIndex := size
           Data := (ReadInBuffer svc b.StartIndex (size - b.StartIndex)
             (List.replicate (size - b.StartIndex).toNat 0)).1
           Dirty := true }]) :=
      Contiguous.append hc1 ⟨rfl, le_of_lt hlt, rfl⟩
    obtain ⟨hhead, hlast⟩ := Contiguous.head_last hcs h0
    refine ⟨_, _, hrun, hcs, hhead, hlast, ?_, ?_⟩
    · simp only [List.length_append, List.length_take, Nat.min_eq_left (le_of_lt hklen),
        List.length_singleton, take_succ_of_getElem? _ _ _ hk, List.map_append, List.map_cons,
        List.map_nil]
    · intro j c hjc hne hge
      simp only [List.length_append, List.length_take, Nat.min_eq_left (le_of_lt hklen),
        List.length_singleton]
      by_contra hcon
      rcases Nat.lt_or_eq_of_le (show j ≤ k by omega) with hj | hj
      · have := hbefore j c hj hjc
        omega
      · subst hj
        rw [hk] at hjc
        cases hjc
        omega

theorem removeBlocks_keeps_cover_witness :
    Contiguous 0 (48 * MiB) threeBlocks.BlockList ∧ 0 < 20 * MiB ∧ 20 * MiB < 48 * MiB ∧
    (∃ b, getAt threeBlocks.BlockList
        ((exampleBB 0).common.BinarySearch threeBlocks.BlockList (20 * MiB)).2 = some b ∧
      b.StartIndex ≤ 20 * MiB ∧ 20 * MiB < b.EndIndex) ∧
    ∃ (res : BlockOffsetList) (calls : List Call),
      removeBlocks (exampleBB 0) (exampleService (48 * MiB) []) threeBlocks (20 * MiB) =
        some (res, calls) ∧
      Contiguous 0 (20 * MiB) res.BlockList ∧
      (∀ first, res.BlockList.head? = some first → first.StartIndex = 0) ∧
      (∃ last, res.BlockList.getLast? = some last ∧ last.EndIndex = 20 * MiB) ∧
      res.BlockList.map Block.Id =
        (threeBlocks.BlockList.take res.BlockList.length).map Block.Id ∧
      ∀ (j : Nat) (c : Block), threeBlocks.BlockList[j]? = some c →
        c.StartIndex < c.EndIndex → 20 * MiB ≤ c.StartIndex → res.BlockList.length ≤ j :=
  ⟨by simp [Contiguous, threeBlocks, committedBlock, MiB], by decide, by decide,
   ⟨committedBlock "blk1" (16 * MiB) (32 * MiB), by decide, by decide, by decide⟩,
   removeBlocks_keeps_cover (exampleBB 0) (exampleService (48 * MiB) []) threeBlocks
     (20 * MiB) (48 * MiB) (by simp [Contiguous, threeBlocks, committedBlock, MiB])
     (by decide) (by decide)
     ⟨committedBlock "blk1" (16 * MiB) (32 * MiB), by decide, by decide, by decide⟩⟩

/-! ## Small-file write -/

theorem copyAt_fits (buf : List Byte) (offset : Int) (data : List Byte) (h0 : 0 ≤ offset)
    (hfit : offset + (data.length : Int) ≤ (buf.length : Int)) :
    copyAt buf offset data =
      some (buf.take offset.toNat ++ data ++ buf.drop (offset.toNat + data.length)) := by
  unfold copyAt goCopy
  rw [if_pos ⟨h0, by omega⟩]
  have h1 : data.length ≤ (buf.drop offset.toNat).length := by
    rw [List.length_drop]; omega
  rw [List.take_of_length_le h1, List.drop_drop, List.append_assoc, Nat.add_comm]

theorem splice_length (old data : List Byte) (o : Nat) (hfit : o + data.length ≤ old.length) :
    (old.take o ++ data ++ old.drop (o + data.length)).length = old.length := by
  simp only [List.length_append, List.length_take, List.length_drop]
  omega

theorem splice_inside (old data : List Byte) (o : Nat) (hfit : o ≤ old.length) (tail : List Byte) :
    ∀ j, j < data.length → (old.take o ++ data ++ tail)[o + j]? = data[j]? := by
  intro j hj
  have hlen : (old.take o).length = o := by rw [List.length_take]; omega
  rw [List.append_assoc, List.getElem?_append_right (by omega), hlen,
    List.getElem?_append_left (by omega)]
  congr 1
  omega

theorem splice_outside (old data : List Byte) (o : Nat) (hfit : o + data.length ≤ old.length) :
    ∀ i, (i < o ∨ o + data.length ≤ i) →
      (old.take o ++ data ++ old.drop (o + data.length))[i]? = old[i]? := by
  intro i hi
  have hlen : (old.take o).length = o := by rw [List.length_take]; omega
  rcases hi with hi | hi
  · rw [List.append_assoc, List.getElem?_append_left (by omega), List.getElem?_take_of_lt hi]
  · rw [List.getElem?_append_right (by simp only [List.length_append, hlen]; omega),
      List.getElem?_drop]
    congr 1
    simp only [List.length_append, hlen]
    omega

theorem smallFileBuffer_overwrite (old : List Byte) (offset : Int) (data : List Byte)
    (h0 : 0 ≤ offset) (hfit : offset + (data.length : Int) ≤ (old.length : Int)) :
    smallFileBuffer old offset data =
      some (old.take offset.toNat ++ data ++ old.drop (offset.toNat + data.length)) := by
  unfold smallFileBuffer
  simp only [ge_iff_le, hfit, if_true]
  exact copyAt_fits old offset data h0 hfit

theorem smallFileBuffer_extend (old : List Byte) (offset : Int) (data : List Byte)
    (h0 : 0 ≤ offset) (hne : old ≠ [])
    (hext : (old.length : Int) < offset + (data.length : Int)) :
    smallFileBuffer old offset data =
      some ((old ++ List.replicate (offset.toNat + data.length - old.length) 0).take offset.toNat
        ++ data) := by
  have hpos : old.length > 0 := List.length_pos.2 hne
  have hmk : makeBytes (offset + (data.length : Int)) =
      some (List.replicate (offset.toNat + data.length) 0) := by
    unfold makeBytes
    rw [if_neg (by omega)]
    congr 2
    omega
  unfold smallFileBuffer
  simp only [ge_iff_le, not_le.mpr hext, if_false, hpos, if_true, hmk]
  by_cases hz : offset = 0
  · subst hz
    simp only [ne_eq, not_true_eq_false, if_false]
    rw [copyAt_fits _ _ _ (le_refl 0) (by simp)]
    simp
  · simp only [ne_eq, hz, not_false_eq_true, if_true]
    have hcopy : goCopy (List.replicate (offset.toNat + data.length) 0) old =
        old ++ List.replicate (offset.toNat + data.length - old.length) 0 := by
      unfold goCopy
      rw [List.length_replicate, List.take_of_length_le (by omega), List.drop_replicate]
    rw [hcopy, copyAt_fits _ _ _ h0 (by
      simp only [List.length_append, List.length_replicate]; omega)]
    rw [List.drop_eq_nil_of_le (by
      simp only [List.length_append, List.length_replicate]; omega), List.append_nil]

theorem extend_length (old data : List Byte) (o : Nat) (hext : old.length < o + data.length) :
    ((old ++ List.replicate (o + data.length - old.length) 0).take o ++ data).length =
      o + data.length := by
  simp only [List.length_append, List.length_take, List.length_replicate]
  omega

theorem extend_data (old data : List Byte) (o : Nat) (hext : old.length < o + data.length) :
    ∀ j, j < data.length →
      ((old ++ List.replicate (o + data.length - old.length) 0).take o ++ data)[o + j]? =
        data[j]? := by
  intro j hj
  have hlen : ((old ++ List.replicate (o + data.length - old.length) 0).take o).length = o := by
    simp only [List.length_take, List.length_append, List.length_replicate]; omega
  rw [List.getElem?_append_right (by omega), hlen]
  congr 1
  omega

theorem extend_old (old data : List Byte) (o : Nat) :
    ∀ i, i < min old.length o →
      ((old ++ List.replicate (o + data.length - old.length) 0).take o ++ data)[i]? =
        old[i]? := by
  intro i hi
  have hi1 : i < old.length := by omega
  have hi2 : i < o := by omega
  rw [List.getElem?_append_left (by
    simp only [List.length_take, List.length_append, List.length_replicate]; omega),
    List.getElem?_take_of_lt hi2, List.getElem?_append_left hi1]

theorem extend_zero (old data : List Byte) (o : Nat) :
    ∀ i, old.length ≤ i → i < o →
      ((old ++ List.replicate (o + data.length - old.length) 0).take o ++ data)[i]? =
        some 0 := by
  intro i hi1 hi2
  rw [List.getElem?_append_left (by
    simp only [List.length_take, List.length_append, List.length_replicate]; omega),
    List.getElem?_take_of_lt hi2, List.getElem?_append_right hi1,
    List.getElem?_replicate_of_lt (by omega)]

theorem Write_small (bb : BB) (svc : Service) (offset : Int) (data old buf : List Byte)
    (c : List Call) (e : Option Error) (hsmall : svc.getBlockList = .ok [])
    (hread : ReadBuffer svc 0 0 = (c, some (old, e)))
    (hbuf : smallFileBuffer old offset data = some buf) :
    Write bb svc offset data =
      ([Call.getBlockList] ++ c ++ [Call.upload buf], Outcome.returned (svc.upload buf)) := by
  unfold Write
  simp only [hsmall, GetFileBlockOffsets, List.length_nil, if_true, hread, hbuf, WriteFromBuffer]

/-- C3: small-file overwrite in place.  When the existing content `old` (the
buffer `ReadBuffer` returns) has at least `offset+len(data)` bytes and
`offset ≥ 0`, `Write` uploads one buffer with the whole-blob PUT; it has the
length of `old`, equals `data` on `[offset, offset+len(data))` and equals `old`
at every other position. -/
theorem Write_small_overwrite_in_place (bb : BB) (svc : Service) (offset : Int)
    (data old : List Byte) (c : List Call) (e : Option Error)
    (hsmall : svc.getBlockList = .ok [])
    (hread : ReadBuffer svc 0 0 = (c, some (old, e)))
    (h0 : 0 ≤ offset) (hfit : offset + (data.length : Int) ≤ (old.length : Int)) :
    ∃ buf : List Byte,
      Write bb svc offset data =
        ([Call.getBlockList] ++ c ++ [Call.upload buf], Outcome.returned (svc.upload buf)) ∧
      buf.length = old.length ∧
      (∀ j, j < data.length → buf[offset.toNat + j]? = data[j]?) ∧
      (∀ i, (i < offset.toNat ∨ offset.toNat + data.length ≤ i) → buf[i]? = old[i]?) := by
  have hfitN : offset.toNat + data.length ≤ old.length := by omega
  exact ⟨_, Write_small bb svc offset data old _ c e hsmall hread
      (smallFileBuffer_overwrite old offset data h0 hfit),
    splice_length old data _ hfitN, splice_inside old data _ (by omega) _,
    splice_outside old data _ hfitN⟩

theorem Write_small_overwrite_in_place_witness :
    (smallFileService helloWorld).getBlockList = .ok [] ∧
    ReadBuffer (smallFileService helloWorld) 0 0 =
      ([Call.getAttr, Call.download 0 0], some (helloWorld, none)) ∧
    (0 : Int) ≤ 5 ∧ (5 : Int) + (([88, 89, 90] : List Byte).length : Int) ≤ (helloWorld.length : Int) ∧
    smallFileBuffer helloWorld 5 [88, 89, 90] =
      some [72, 101, 108, 108, 111, 88, 89, 90, 108, 100] ∧
    ∃ buf : List Byte,
      Write (exampleBB 0) (smallFileService helloWorld) 5 [88, 89, 90] =
        ([Call.getBlockList] ++ [Call.getAttr, Call.download 0 0] ++ [Call.upload buf],
         Outcome.returned ((smallFileService helloWorld).upload buf)) ∧
      buf.length = helloWorld.length ∧
      (∀ j, j < ([88, 89, 90] : List Byte).length →
        buf[(5 : Int).toNat + j]? = ([88, 89, 90] : List Byte)[j]?) ∧
      (∀ i, (i < (5 : Int).toNat ∨ (5 : Int).toNat + ([88, 89, 90] : List Byte).length ≤ i) →
        buf[i]? = helloWorld[i]?) :=
  ⟨rfl, by decide, by decide, by decide, by decide,
   Write_small_overwrite_in_place (exampleBB 0) (smallFileService helloWorld) 5 [88, 89, 90]
     helloWorld [Call.getAttr, Call.download 0 0] none rfl (by decide) (by decide)
     (by decide)⟩

/-- C4: small-file extend.  When the existing content `old` is not empty and has
fewer than `offset+len(data)` bytes and `offset ≥ 0`, `Write` uploads one buffer
of exactly `offset+len(data)` bytes; it equals `data` on
`[offset, offset+len(data))`, equals `old` below `min(len(old), offset)` and is
zero on `[len(old), offset)`. -/
theorem Write_small_extend (bb : BB) (svc : Service) (offset : Int)
    (data old : List Byte) (c : List Call) (e : Option Error)
    (hsmall : svc.getBlockList = .ok [])
    (hread : ReadBuffer svc 0 0 = (c, some (old, e)))
    (h0 : 0 ≤ offset) (hne : old ≠ [])
    (hext : (old.length : Int) < offset + (data.length : Int)) :
    ∃ buf : List Byte,
      Write bb svc offset data =
        ([Call.getBlockList] ++ c ++ [Call.upload buf], Outcome.returned (svc.upload buf)) ∧
      (buf.length : Int) = offset + (data.length : Int) ∧
      (∀ j, j < data.length → buf[offset.toNat + j]? = data[j]?) ∧
      (∀ i, i < min old.length offset.toNat → buf[i]? = old[i]?) ∧
      (∀ i, old.length ≤ i → i < offset.toNat → buf[i]? = some 0) := by
  have hextN : old.length < offset.toNat + data.length := by omega
  refine ⟨_, Write_small bb svc offset data old _ c e hsmall hread
      (smallFileBuffer_extend old offset data h0 hne hext), ?_,
    extend_data old data _ hextN, extend_old old data _, extend_zero old data _⟩
  rw [extend_length old data _ hextN]
  push_cast
  omega

theorem Write_small_extend_witness :
    (smallFileService abcde).getBlockList = .ok [] ∧
    ReadBuffer (smallFileService abcde) 0 0 =
      ([Call.getAttr, Call.download 0 0], some (abcde, none)) ∧
    (0 : Int) ≤ 7 ∧ abcde ≠ [] ∧
    (abcde.length : Int) < (7 : Int) + (([49, 50, 51, 52, 53] : List Byte).length : Int) ∧
    smallFileBuffer abcde 7 [49, 50, 51, 52, 53] =
      some [65, 66, 67, 68, 69, 0, 0, 49, 50, 51, 52, 53] ∧
    ∃ buf : List Byte,
      Write (exampleBB 0) (smallFileService abcde) 7 [49, 50, 51, 52, 53] =
        ([Call.getBlockList] ++ [Call.getAttr, Call.download 0 0] ++ [Call.upload buf],
         Outcome.returned ((smallFileService abcde).upload buf)) ∧
      (buf.length : Int) = (7 : Int) + (([49, 50, 51, 52, 53] : List Byte).length : Int) ∧
      (∀ j, j < ([49, 50, 51, 52, 53] : List Byte).length →
        buf[(7 : Int).toNat + j]? = ([49, 50, 51, 52, 53] : List Byte)[j]?) ∧
      (∀ i, i < min abcde.length (7 : Int).toNat → buf[i]? = abcde[i]?) ∧
      (∀ i, abcde.length ≤ i → i < (7 : Int).toNat → buf[i]? = some 0) :=
  ⟨rfl, by decide, by decide, by decide, by decide, by decide,
   Write_small_extend (exampleBB 0) (smallFileService abcde) 7 [49, 50, 51, 52, 53]
     abcde [Call.getAttr, Call.download 0 0] none rfl (by decide) (by decide)
     (by decide) (by decide)⟩

/-- C2, at the input where it fails: on an empty small file `Write` at offset 5
uploads the 3 bytes of `data` alone, a buffer shorter than `offset+len(data) = 8`
whose bytes `[5, 8)` are not `data`: the offset is dropped. -/
theorem Write_empty_small_file_drops_offset :
    Write (exampleBB 0) (smallFileService []) 5 [1, 2, 3] =
      ([Call.getBlockList, Call.getAttr, Call.download 0 0, Call.upload [1, 2, 3]],
       Outcome.returned none) ∧
    smallFileBuffer [] 5 [1, 2, 3] = some [1, 2, 3] ∧
    ¬ ((5 : Int) + (([1, 2, 3] : List Byte).length : Int) ≤ (([1, 2, 3] : List Byte).length : Int)) := by
  decide

/-! ## Truncate -/

/-- C1, at the input where it fails: a file of two committed blocks of 16 bytes
(size 32) truncated to 16, a block boundary, with every remote call succeeding.
`removeBlocks` drops the second block and marks nothing dirty, so
`StageAndCommit` stages nothing and commits nothing: `TruncateFile` returns
success after `GetAttr` and `GetBlockList` alone and the blob keeps its 32 bytes. -/
theorem TruncateFile_block_boundary_no_commit :
    TruncateFile (exampleBB 0) (exampleService 32 [("blk0", 16), ("blk1", 16)]) 16 =
      ([Call.getAttr, Call.getBlockList], Outcome.returned none) := by
  decide

/-- The same file truncated to 20, the middle of the second block: the clipped
block is read, staged and the two ids are committed. -/
theorem TruncateFile_mid_block_commits :
    TruncateFile (exampleBB 0) (exampleService 32 [("blk0", 16), ("blk1", 16)]) 20 =
      ([Call.getAttr, Call.getBlockList, Call.download 16 4,
        Call.stage "blk1" [65, 65, 65, 65], Call.commit ["blk0", "blk1"]],
       Outcome.returned none) := by
  decide

/-- The same file grown to 40: one new block of 8 zero bytes is staged and the
three ids are committed. -/
theorem TruncateFile_grow_commits :
    TruncateFile (exampleBB 0) (exampleService 32 [("blk0", 16), ("blk1", 16)]) 40 =
      ([Call.getAttr, Call.getBlockList, Call.stage "cccc" [0, 0, 0, 0, 0, 0, 0, 0],
        Call.commit ["blk0", "blk1", "cccc"]],
       Outcome.returned none) := by
  decide

/-! ## Staging and commit: `StageAndCommit` -/

theorem stageLoop_calls_mono (svc : Service) (rest : List Block) :
    ∀ (done : List Block) (ids : List String) (staged : Bool) (calls : List Call) (c : Call),
      c ∈ calls → c ∈ (stageLoop svc rest done ids staged calls).calls := by
  induction rest with
  | nil => intro done ids staged calls c hc; exact hc
  | cons blk rest ih =>
    intro done ids staged calls c hc
    unfold stageLoop
    simp only
    split
    · exact hc
    · split
      · split
        · exact List.mem_append_left _ hc
        · exact ih _ _ _ _ c (List.mem_append_left _ hc)
      · exact ih _ _ _ _ c hc

theorem stageLoop_calls_stage (svc : Service) (rest : List Block) :
    ∀ (done : List Block) (ids : List String) (staged : Bool) (calls : List Call) (c : Call),
      c ∈ (stageLoop svc rest done ids staged calls).calls →
        c ∈ calls ∨ ∃ id d, c = Call.stage id d := by
  induction rest with
  | nil => intro done ids staged calls c hc; exact Or.inl hc
  | cons blk rest ih =>
    intro done ids staged calls c hc
    unfold stageLoop at hc
    simp only at hc
    split at hc
    · exact Or.inl hc
    · split at hc
      · split at hc
        · rcases List.mem_append.1 hc with h | h
          · exact Or.inl h
          · exact Or.inr ⟨_, _, List.mem_singleton.1 h⟩
        · rcases ih _ _ _ _ c hc with h | h
          · rcases List.mem_append.1 h with h | h
            · exact Or.inl h
            · exact Or.inr ⟨_, _, List.mem_singleton.1 h⟩
          · exact Or.inr h
      · exact ih _ _ _ _ c hc

theorem stageLoop_step_clean (svc : Service) (blk : Block) (rest done : List Block)
    (ids : List String) (staged : Bool) (calls : List Call)
    (hwf : blk.Truncated = true → blk.StartIndex ≤ blk.EndIndex) (hd : blk.Dirty = false) :
    stageLoop svc (blk :: rest) done ids staged calls =
      stageLoop svc rest (done ++ [clearFlags blk]) (ids ++ [blk.Id]) staged calls := by
  obtain ⟨id, s, e, data, tr, dirty⟩ := blk
  simp only at hwf hd
  subst hd
  cases tr
  · simp [stageLoop, clearFlags]
  · have h : ¬ (e - s < 0) := by have := hwf rfl; omega
    simp [stageLoop, clearFlags, makeBytes, h]

theorem stageLoop_step_ok (svc : Service) (blk : Block) (rest done : List Block)
    (ids : List String) (staged : Bool) (calls : List Call)
    (hwf : blk.Truncated = true → blk.StartIndex ≤ blk.EndIndex) (hd : blk.Dirty = true)
    (hok : svc.stageBlock blk.Id (stageData blk) = none) :
    stageLoop svc (blk :: rest) done ids staged calls =
      stageLoop svc rest (done ++ [clearFlags blk]) (ids ++ [blk.Id]) true
        (calls ++ [Call.stage blk.Id (stageData blk)]) := by
  obtain ⟨id, s, e, data, tr, dirty⟩ := blk
  simp only at hwf hd
  subst hd
  cases tr
  · have hok2 : svc.stageBlock id data = none := by simpa [stageData] using hok
    simp [stageLoop, clearFlags, stageData, hok2]
  · have h : ¬ (e - s < 0) := by have := hwf rfl; omega
    have hok2 : svc.stageBlock id (List.replicate (e - s).toNat 0) = none := by
      simpa [stageData] using hok
    simp [stageLoop, clearFlags, makeBytes, h, stageData, hok2]

theorem stageLoop_step_fail (svc : Service) (blk : Block) (rest done : List Block)
    (ids : List String) (staged : Bool) (calls : List Call) (err : Error)
    (hwf : blk.Truncated = true → blk.StartIndex ≤ blk.EndIndex) (hd : blk.Dirty = true)
    (hfail : svc.stageBlock blk.Id (stageData blk) = some err) :
    stageLoop svc (blk :: rest) done ids staged calls =
      { blocks := done ++ { blk with Truncated := false } :: rest
        blockIDList := ids ++ [blk.Id]
        staged := staged
        calls := calls ++ [Call.stage blk.Id (stageData blk)]
        stop := some (Outcome.returned (some err)) } := by
  obtain ⟨id, s, e, data, tr, dirty⟩ := blk
  simp only at hwf hd
  subst hd
  cases tr
  · have hfail2 : svc.stageBlock id data = some err := by simpa [stageData] using hfail
    simp [stageLoop, stageData, hfail2]
  · have h : ¬ (e - s < 0) := by have := hwf rfl; omega
    have hfail2 : svc.stageBlock id (List.replicate (e - s).toNat 0) = some err := by
      simpa [stageData] using hfail
    simp [stageLoop, makeBytes, h, stageData, hfail2]

theorem stageLoop_step_panic (svc : Service) (blk : Block) (rest done : List Block)
    (ids : List String) (staged : Bool) (calls : List Call)
    (ht : blk.Truncated = true) (hneg : blk.EndIndex < blk.StartIndex) :
    (stageLoop svc (blk :: rest) done ids staged calls).stop = some Outcome.panicked := by
  have h : blk.EndIndex - blk.StartIndex < 0 := by omega
  simp [stageLoop, ht, makeBytes, h]

theorem stageCalls_append (l1 l2 : List Block) :
    stageCalls (l1 ++ l2) = stageCalls l1 ++ stageCalls l2 := by
  simp [stageCalls]

theorem stageCalls_cons_dirty (b : Block) (rest : List Block) (hd : b.Dirty = true) :
    stageCalls (b :: rest) = Call.stage b.Id (stageData b) :: stageCalls rest := by
  simp [stageCalls, hd]

theorem stageCalls_cons_clean (b : Block) (rest : List Block) (hd : b.Dirty = false) :
    stageCalls (b :: rest) = stageCalls rest := by
  simp [stageCalls, hd]

theorem stageLoop_through (svc : Service) (pre : List Block) :
    ∀ (rest done : List Block) (ids : List String) (staged : Bool) (calls : List Call),
      (∀ b ∈ pre, b.Truncated = true → b.StartIndex ≤ b.EndIndex) →
      (∀ b ∈ pre, b.Dirty = true → svc.stageBlock b.Id (stageData b) = none) →
      stageLoop svc (pre ++ rest) done ids staged calls =
        stageLoop svc rest (done ++ pre.map clearFlags) (ids ++ pre.map Block.Id)
          (staged || pre.any (fun b => b.Dirty)) (calls ++ stageCalls pre) := by
  induction pre with
  | nil => intro rest done ids staged calls _ _; simp [stageCalls]
  | cons b pre ih =>
    intro rest done ids staged calls hwf hok
    have hwfb := hwf b (List.mem_cons_self _ _)
    have hwfr : ∀ x ∈ pre, x.Truncated = true → x.StartIndex ≤ x.EndIndex :=
      fun x hx => hwf x (List.mem_cons_of_mem _ hx)
    have hokr : ∀ x ∈ pre, x.Dirty = true → svc.stageBlock x.Id (stageData x) = none :=
      fun x hx => hok x (List.mem_cons_of_mem _ hx)
    rw [List.cons_append]
    cases hd : b.Dirty with
    | false =>
      rw [stageLoop_step_clean svc b _ done ids staged calls hwfb hd, ih _ _ _ _ _ hwfr hokr,
        stageCalls_cons_clean b pre hd]
      simp [hd]
    | true =>
      rw [stageLoop_step_ok svc b _ done ids staged calls hwfb hd
          (hok b (List.mem_cons_self _ _) hd), ih _ _ _ _ _ hwfr hokr,
        stageCalls_cons_dirty b pre hd]
      simp [hd]

theorem stageLoop_all_ok (svc : Service) (bl done : List Block)
    (ids : List String) (staged : Bool) (calls : List Call)
    (hwf : ∀ b ∈ bl, b.Truncated = true → b.StartIndex ≤ b.EndIndex)
    (hok : ∀ b ∈ bl, b.Dirty = true → svc.stageBlock b.Id (stageData b) = none) :
    stageLoop svc bl done ids staged calls =
      { blocks := done ++ bl.map clearFlags
        blockIDList := ids ++ bl.map Block.Id
        staged := staged || bl.any (fun b => b.Dirty)
        calls := calls ++ stageCalls bl
        stop := none } := by
  have := stageLoop_through svc bl [] done ids staged calls hwf hok
  rw [List.append_nil] at this
  rw [this]
  rfl

theorem stageLoop_first_fail (svc : Service) (pre post done : List Block) (b : Block)
    (ids : List String) (staged : Bool) (calls : List Call) (err : Error)
    (hwf : ∀ x ∈ pre, x.Truncated = true → x.StartIndex ≤ x.EndIndex)
    (hok : ∀ x ∈ pre, x.Dirty = true → svc.stageBlock x.Id (stageData x) = none)
    (hwfb : b.Truncated = true → b.StartIndex ≤ b.EndIndex) (hd : b.Dirty = true)
    (hfail : svc.stageBlock b.Id (stageData b) = some err) :
    stageLoop svc (pre ++ b :: post) done ids staged calls =
      { blocks := done ++ pre.map clearFlags ++ { b with Truncated := false } :: post
        blockIDList := ids ++ pre.map Block.Id ++ [b.Id]
        staged := staged || pre.any (fun x => x.Dirty)
        calls := calls ++ stageCalls pre ++ [Call.stage b.Id (stageData b)]
        stop := some (Outcome.returned (some err)) } := by
  rw [stageLoop_through svc pre _ done ids staged calls hwf hok,
    stageLoop_step_fail svc b post _ _ _ _ err hwfb hd hfail]

theorem stageLoop_stop_none (svc : Service) (bl : List Block) :
    ∀ (done : List Block) (ids : List String) (staged : Bool) (calls : List Call),
      (stageLoop svc bl done ids staged calls).stop = none →
      (∀ b ∈ bl, b.Truncated = true → b.StartIndex ≤ b.EndIndex) ∧
      (∀ b ∈ bl, b.Dirty = true → svc.stageBlock b.Id (stageData b) = none) := by
  induction bl with
  | nil => intro done ids staged calls _; simp
  | cons b rest ih =>
    intro done ids staged calls hstop
    by_cases hwfb : b.Truncated = true → b.StartIndex ≤ b.EndIndex
    · cases hd : b.Dirty with
      | false =>
        rw [stageLoop_step_clean svc b rest done ids staged calls hwfb hd] at hstop
        obtain ⟨h1, h2⟩ := ih _ _ _ _ hstop
        refine ⟨?_, ?_⟩
        · intro x hx
          rcases List.mem_cons.1 hx with rfl | hx
          · exact hwfb
          · exact h1 x hx
        · intro x hx hxd
          rcases List.mem_cons.1 hx with rfl | hx
          · rw [hd] at hxd; cases hxd
          · exact h2 x hx hxd
      | true =>
        cases hs : svc.stageBlock b.Id (stageData b) with
        | some err =>
          rw [stageLoop_step_fail svc b rest done ids staged calls err hwfb hd hs] at hstop
          cases hstop
        | none =>
          rw [stageLoop_step_ok svc b rest done ids staged calls hwfb hd hs] at hstop
          obtain ⟨h1, h2⟩ := ih _ _ _ _ hstop
          refine ⟨?_, ?_⟩
          · intro x hx
            rcases List.mem_cons.1 hx with rfl | hx
            · exact hwfb
            · exact h1 x hx
          · intro x hx hxd
            rcases List.mem_cons.1 hx with rfl | hx
            · exact hs
            · exact h2 x hx hxd
    · have ht : b.Truncated = true := by
        by_contra hcon
        exact hwfb (fun h => absurd h hcon)
      have hneg : b.EndIndex < b.StartIndex := by
        by_contra hcon
        exact hwfb (fun _ => by omega)
      rw [stageLoop_step_panic svc b rest done ids staged calls ht hneg] at hstop
      cases hstop

theorem first_failure (svc : Service) (bl : List Block) :
    (∀ b ∈ bl, b.Dirty = true → svc.stageBlock b.Id (stageData b) = none) ∨
    ∃ (pre post : List Block) (b : Block) (err : Error),
      bl = pre ++ b :: post ∧
      (∀ x ∈ pre, x.Dirty = true → svc.stageBlock x.Id (stageData x) = none) ∧
      b.Dirty = true ∧ svc.stageBlock b.Id (stageData b) = some err := by
  induction bl with
  | nil => exact Or.inl (by simp)
  | cons b rest ih =>
    by_cases hb : b.Dirty = true → svc.stageBlock b.Id (stageData b) = none
    · rcases ih with hall | ⟨pre, post, x, err, hsplit, hpre, hxd, hxf⟩
      · left
        intro y hy
        rcases List.mem_cons.1 hy with rfl | hy
        · exact hb
        · exact hall y hy
      · right
        refine ⟨b :: pre, post, x, err, by rw [hsplit]; rfl, ?_, hxd, hxf⟩
        intro y hy
        rcases List.mem_cons.1 hy with rfl | hy
        · exact hb
        · exact hpre y hy
    · right
      have hd : b.Dirty = true := by
        by_contra hcon
        exact hb (fun h => absurd h hcon)
      cases hs : svc.stageBlock b.Id (stageData b) with
      | none => exact absurd (fun _ => hs) hb
      | some err => exact ⟨[], rest, b, err, rfl, by simp, hd, hs⟩

theorem stageLoop_stop_ne_success (svc : Service) (bl : List Block) :
    ∀ (done : List Block) (ids : List String) (staged : Bool) (calls : List Call),
      (stageLoop svc bl done ids staged calls).stop ≠ some (Outcome.returned none) := by
  induction bl with
  | nil => intro done ids staged calls h; simp [stageLoop] at h
  | cons b rest ih =>
    intro done ids staged calls
    by_cases hwfb : b.Truncated = true → b.StartIndex ≤ b.EndIndex
    · cases hd : b.Dirty with
      | false =>
        rw [stageLoop_step_clean svc b rest done ids staged calls hwfb hd]
        exact ih _ _ _ _
      | true =>
        cases hs : svc.stageBlock b.Id (stageData b) with
        | some err =>
          rw [stageLoop_step_fail svc b rest done ids staged calls err hwfb hd hs]
          simp
        | none =>
          rw [stageLoop_step_ok svc b rest done ids staged calls hwfb hd hs]
          exact ih _ _ _ _
    · have ht : b.Truncated = true := by
        by_contra hcon
        exact hwfb (fun h => absurd h hcon)
      have hneg : b.EndIndex < b.StartIndex := by
        by_contra hcon
        exact hwfb (fun _ => by omega)
      rw [stageLoop_step_panic svc b rest done ids staged calls ht hneg]
      simp

theorem StageAndCommit_all_ok (svc : Service) (bol : BlockOffsetList)
    (hwf : ∀ b ∈ bol.BlockList, b.Truncated = true → b.StartIndex ≤ b.EndIndex)
    (hok : ∀ b ∈ bol.BlockList, b.Dirty = true → svc.stageBlock b.Id (stageData b) = none) :
    StageAndCommit svc bol =
      ({ bol with BlockList := bol.BlockList.map clearFlags },
       if bol.BlockList.any (fun b => b.Dirty) then
         stageCalls bol.BlockList ++ [Call.commit (bol.BlockList.map Block.Id)]
       else stageCalls bol.BlockList,
       if bol.BlockList.any (fun b => b.Dirty) then
         Outcome.returned (svc.commitBlockList (bol.BlockList.map Block.Id))
       else Outcome.returned none) := by
  unfold StageAndCommit
  rw [stageLoop_all_ok svc bol.BlockList [] [] false [] hwf hok]
  simp only [List.nil_append, Bool.false_or]
  cases hany : bol.BlockList.any (fun b => b.Dirty) with
  | false => simp
  | true =>
    cases hc : svc.commitBlockList (bol.BlockList.map Block.Id) <;> simp [hc]

theorem StageAndCommit_first_fail (svc : Service) (bol : BlockOffsetList)
    (pre post : List Block) (b : Block) (err : Error)
    (hsplit : bol.BlockList = pre ++ b :: post)
    (hwf : ∀ x ∈ pre, x.Truncated = true → x.StartIndex ≤ x.EndIndex)
    (hok : ∀ x ∈ pre, x.Dirty = true → svc.stageBlock x.Id (stageData x) = none)
    (hwfb : b.Truncated = true → b.StartIndex ≤ b.EndIndex) (hd : b.Dirty = true)
    (hfail : svc.stageBlock b.Id (stageData b) = some err) :
    StageAndCommit svc bol =
      ({ bol with BlockList := pre.map clearFlags ++ { b with Truncated := false } :: post },
       stageCalls pre ++ [Call.stage b.Id (stageData b)],
       Outcome.returned (some err)) := by
  unfold StageAndCommit
  rw [hsplit, stageLoop_first_fail svc pre post [] b [] false [] err hwf hok hwfb hd hfail]
  simp

theorem stageCalls_no_commit (bl : List Block) (ids : List String) :
    Call.commit ids ∉ stageCalls bl := by
  simp [stageCalls]

theorem StageAndCommit_commit_mem (svc : Service) (bol : BlockOffsetList) (ids : List String)
    (h : Call.commit ids ∈ (StageAndCommit svc bol).2.1) :
    ids = bol.BlockList.map Block.Id ∧
    (stageLoop svc bol.BlockList [] [] false []).stop = none := by
  have hstage := stageLoop_calls_stage svc bol.BlockList [] [] false [] (Call.commit ids)
  have hnot : Call.commit ids ∉ (stageLoop svc bol.BlockList [] [] false []).calls := by
    intro hmem
    rcases hstage hmem with h1 | ⟨_, _, h2⟩
    · simp at h1
    · cases h2
  unfold StageAndCommit at h
  simp only at h
  cases hstop : (stageLoop svc bol.BlockList [] [] false []).stop with
  | some o =>
    rw [hstop] at h
    exact absurd h hnot
  | none =>
    rw [hstop] at h
    obtain ⟨hwf, hok⟩ := stageLoop_stop_none svc bol.BlockList [] [] false [] hstop
    have hall := stageLoop_all_ok svc bol.BlockList [] [] false [] hwf hok
    refine ⟨?_, rfl⟩
    simp only at h
    split at h
    · split at h <;>
      · rcases List.mem_append.1 h with h1 | h1
        · exact absurd h1 hnot
        · rw [List.mem_singleton] at h1
          cases h1
          rw [hall]
          simp
    · exact absurd h hnot

theorem stageModifiedLoop_spec (svc : Service) (data : List Byte) (rest : List Block) :
    ∀ (off : Int) (ids : List String) (calls : List Call),
      (∀ c ∈ (stageModifiedLoop svc data rest off ids calls).2.1,
        c ∈ calls ∨ ∃ id d, c = Call.stage id d) ∧
      ((stageModifiedLoop svc data rest off ids calls).2.2 = none →
        (stageModifiedLoop svc data rest off ids calls).1 = ids ++ rest.map Block.Id) := by
  induction rest with
  | nil =>
    intro off ids calls
    exact ⟨fun c hc => Or.inl hc, fun _ => by simp [stageModifiedLoop]⟩
  | cons blk rest ih =>
    intro off ids calls
    unfold stageModifiedLoop
    simp only
    split
    · split
      · exact ⟨fun c hc => Or.inl hc, fun h => by simp at h⟩
      · split
        · refine ⟨?_, by simp⟩
          intro c hc
          rcases List.mem_append.1 hc with h | h
          · exact Or.inl h
          · exact Or.inr ⟨_, _, List.mem_singleton.1 h⟩
        · obtain ⟨h1, h2⟩ := ih ((blk.EndIndex - blk.StartIndex) + off) (ids ++ [blk.Id])
            (calls ++ [Call.stage blk.Id ‹List Byte›])
          refine ⟨?_, ?_⟩
          · intro c hc
            rcases h1 c hc with h | h
            · rcases List.mem_append.1 h with h | h
              · exact Or.inl h
              · exact Or.inr ⟨_, _, List.mem_singleton.1 h⟩
            · exact Or.inr h
          · intro hstop
            rw [h2 hstop]
            simp
    · obtain ⟨h1, h2⟩ := ih off (ids ++ [blk.Id]) calls
      refine ⟨h1, ?_⟩
      intro hstop
      rw [h2 hstop]
      simp

theorem stageAndCommitModifiedBlocks_commit_mem (svc : Service) (data : List Byte)
    (bol : BlockOffsetList) (ids : List String)
    (h : Call.commit ids ∈ (stageAndCommitModifiedBlocks svc data bol).1) :
    ids = bol.BlockList.map Block.Id := by
  obtain ⟨h1, h2⟩ := stageModifiedLoop_spec svc data bol.BlockList 0 [] []
  have hnot : Call.commit ids ∉ (stageModifiedLoop svc data bol.BlockList 0 [] []).2.1 := by
    intro hmem
    rcases h1 _ hmem with h | ⟨_, _, h⟩
    · simp at h
    · cases h
  unfold stageAndCommitModifiedBlocks at h
  rcases hr : stageModifiedLoop svc data bol.BlockList 0 [] [] with ⟨idl, calls, stop⟩
  rw [hr] at h hnot h2
  cases stop with
  | some o => exact absurd h hnot
  | none =>
    simp only at h
    rcases List.mem_append.1 h with h | h
    · exact absurd h hnot
    · rw [List.mem_singleton] at h
      cases h
      simpa using h2 rfl

/-- C11: if `StageAndCommit` returns without error, every block of the list has
its dirty flag and its truncated flag cleared; the list afterwards is the list
before with the two flags of every block cleared, nothing else changed. -/
theorem StageAndCommit_clears_flags (svc : Service) (bol : BlockOffsetList)
    (h : (StageAndCommit svc bol).2.2 = Outcome.returned none) :
    (StageAndCommit svc bol).1.BlockList = bol.BlockList.map clearFlags ∧
    ∀ b ∈ (StageAndCommit svc bol).1.BlockList, b.Dirty = false ∧ b.Truncated = false := by
  have hstop : (stageLoop svc bol.BlockList [] [] false []).stop = none := by
    cases hs : (stageLoop svc bol.BlockList [] [] false []).stop with
    | none => rfl
    | some o =>
      unfold StageAndCommit at h
      simp only [hs] at h
      rw [h] at hs
      exact absurd hs (stageLoop_stop_ne_success svc bol.BlockList [] [] false [])
  obtain ⟨hwf, hok⟩ := stageLoop_stop_none svc bol.BlockList [] [] false [] hstop
  have hall := StageAndCommit_all_ok svc bol hwf hok
  have hlist : (StageAndCommit svc bol).1.BlockList = bol.BlockList.map clearFlags := by
    rw [hall]
  refine ⟨hlist, ?_⟩
  rw [hlist]
  intro b hb
  obtain ⟨x, _, rfl⟩ := List.mem_map.1 hb
  exact ⟨rfl, rfl⟩

theorem StageAndCommit_clears_flags_witness :
    (StageAndCommit (exampleService 28 []) mixedBlocks).2.2 = Outcome.returned none ∧
    (StageAndCommit (exampleService 28 []) mixedBlocks).1.BlockList =
      mixedBlocks.BlockList.map clearFlags ∧
    ∀ b ∈ (StageAndCommit (exampleService 28 []) mixedBlocks).1.BlockList,
      b.Dirty = false ∧ b.Truncated = false :=
  ⟨by decide, StageAndCommit_clears_flags (exampleService 28 []) mixedBlocks (by decide)⟩

/-- C12: whenever `StageAndCommit` or `stageAndCommitModifiedBlocks` issues a
commit, the id list it sends is the list of the ids of all blocks of the block
map, in the order of the map, staged in this call or not. -/
theorem commit_sends_all_ids (svc : Service) (bol : BlockOffsetList) (data : List Byte)
    (ids : List String)
    (h : Call.commit ids ∈ (StageAndCommit svc bol).2.1 ∨
         Call.commit ids ∈ (stageAndCommitModifiedBlocks svc data bol).1) :
    ids = bol.BlockList.map Block.Id := by
  rcases h with h | h
  · exact (StageAndCommit_commit_mem svc bol ids h).1
  · exact stageAndCommitModifiedBlocks_commit_mem svc data bol ids h

theorem commit_sends_all_ids_witness :
    (Call.commit ["blk0", "blk1", "blk2"] ∈
        (StageAndCommit (exampleService 28 []) mixedBlocks).2.1 ∨
      Call.commit ["blk0", "blk1", "blk2"] ∈
        (stageAndCommitModifiedBlocks (exampleService 28 []) (List.replicate 12 66)
          mixedBlocks).1) ∧
    ["blk0", "blk1", "blk2"] = mixedBlocks.BlockList.map Block.Id :=
  ⟨by decide,
   commit_sends_all_ids (exampleService 28 []) mixedBlocks (List.replicate 12 66)
     ["blk0", "blk1", "blk2"] (by decide)⟩

theorem filter_isCommit_stageCalls (bl : List Block) :
    (stageCalls bl).filter Call.isCommit = [] := by
  rw [List.filter_eq_nil_iff]
  intro c hc
  simp only [stageCalls, List.mem_map] at hc
  obtain ⟨b, _, rfl⟩ := hc
  simp [Call.isCommit]

theorem mem_stageCalls {bl : List Block} {c : Call} (hc : c ∈ stageCalls bl) :
    ∃ b ∈ bl, b.Dirty = true ∧ c = Call.stage b.Id (stageData b) := by
  simp only [stageCalls, List.mem_map, List.mem_filter] at hc
  obtain ⟨b, ⟨hb, hd⟩, rfl⟩ := hc
  exact ⟨b, hb, hd, rfl⟩

theorem stageCalls_eq_nil {bl : List Block} (h : ∀ b ∈ bl, b.Dirty = false) :
    stageCalls bl = [] := by
  simp only [stageCalls, List.map_eq_nil_iff, List.filter_eq_nil_iff]
  intro b hb
  simp [h b hb]

/-- C13: on a block map whose truncated blocks have no negative length,
`StageAndCommit` issues at most one commit; it issues one if and only if some
block was dirty and every stage call it made succeeded; when the stage call of
a dirty block fails (those before it having succeeded) the calls made are the
stage calls up to that one and nothing else, no later block is staged, nothing
is committed, and that error is returned; when no block is dirty it makes no
call at all and returns success. -/
theorem StageAndCommit_commit_policy (svc : Service) (bol : BlockOffsetList)
    (hwf : ∀ b ∈ bol.BlockList, b.Truncated = true → b.StartIndex ≤ b.EndIndex) :
    ((StageAndCommit svc bol).2.1.filter Call.isCommit).length ≤ 1 ∧
    ((∃ ids, Call.commit ids ∈ (StageAndCommit svc bol).2.1) ↔
      ((∃ b ∈ bol.BlockList, b.Dirty = true) ∧
        ∀ id d, Call.stage id d ∈ (StageAndCommit svc bol).2.1 → svc.stageBlock id d = none)) ∧
    (∀ (pre post : List Block) (b : Block) (err : Error),
      bol.BlockList = pre ++ b :: post →
      (∀ x ∈ pre, x.Dirty = true → svc.stageBlock x.Id (stageData x) = none) →
      b.Dirty = true → svc.stageBlock b.Id (stageData b) = some err →
      (StageAndCommit svc bol).2.1 = stageCalls pre ++ [Call.stage b.Id (stageData b)] ∧
      (StageAndCommit svc bol).2.2 = Outcome.returned (some err)) ∧
    ((∀ b ∈ bol.BlockList, b.Dirty = false) →
      (StageAndCommit svc bol).2.1 = [] ∧ (StageAndCommit svc bol).2.2 = Outcome.returned none) := by
  have hfailcase : ∀ (pre post : List Block) (b : Block) (err : Error),
      bol.BlockList = pre ++ b :: post →
      (∀ x ∈ pre, x.Dirty = true → svc.stageBlock x.Id (stageData x) = none) →
      b.Dirty = true → svc.stageBlock b.Id (stageData b) = some err →
      StageAndCommit svc bol =
        ({ bol with BlockList := pre.map clearFlags ++ { b with Truncated := false } :: post },
         stageCalls pre ++ [Call.stage b.Id (stageData b)], Outcome.returned (some err)) := by
    intro pre post b err hsplit hok hd hfail
    have hwfp : ∀ x ∈ pre, x.Truncated = true → x.StartIndex ≤ x.EndIndex :=
      fun x hx => hwf x (by rw [hsplit]; exact List.mem_append_left _ hx)
    have hwfb : b.Truncated = true → b.StartIndex ≤ b.EndIndex :=
      hwf b (by rw [hsplit]; simp)
    exact StageAndCommit_first_fail svc bol pre post b err hsplit hwfp hok hwfb hd hfail
  have hclause3 : ∀ (pre post : List Block) (b : Block) (err : Error),
      bol.BlockList = pre ++ b :: post →
      (∀ x ∈ pre, x.Dirty = true → svc.stageBlock x.Id (stageData x) = none) →
      b.Dirty = true → svc.stageBlock b.Id (stageData b) = some err →
      (StageAndCommit svc bol).2.1 = stageCalls pre ++ [Call.stage b.Id (stageData b)] ∧
      (StageAndCommit svc bol).2.2 = Outcome.returned (some err) := by
    intro pre post b err hsplit hok hd hfail
    rw [hfailcase pre post b err hsplit hok hd hfail]
    exact ⟨rfl, rfl⟩
  rcases first_failure svc bol.BlockList with hok | ⟨pre, post, b, err, hsplit, hok, hd, hfail⟩
  · have hrun := StageAndCommit_all_ok svc bol hwf hok
    cases hany : bol.BlockList.any (fun b => b.Dirty) with
    | true =>
      rw [hany] at hrun
      simp only [if_true] at hrun
      have hex : ∃ b ∈ bol.BlockList, b.Dirty = true := by
        simpa [List.any_eq_true] using hany
      rw [hrun]
      refine ⟨?_, ?_, hrun ▸ hclause3, ?_⟩
      · simp [List.filter_append, filter_isCommit_stageCalls, Call.isCommit]
      · constructor
        · intro _
          refine ⟨hex, ?_⟩
          intro id d hmem
          rcases List.mem_append.1 hmem with h | h
          · obtain ⟨x, hx, hxd, heq⟩ := mem_stageCalls h
            cases heq
            exact hok x hx hxd
          · simp at h
        · intro _
          exact ⟨_, List.mem_append_right _ (List.mem_singleton.2 rfl)⟩
      · intro hclean
        obtain ⟨x, hx, hxd⟩ := hex
        rw [hclean x hx] at hxd
        cases hxd
    | false =>
      rw [hany] at hrun
      simp only [Bool.false_eq_true, if_false] at hrun
      have hclean : ∀ b ∈ bol.BlockList, b.Dirty = false := by
        intro x hx
        by_contra hcon
        have : bol.BlockList.any (fun b => b.Dirty) = true :=
          List.any_eq_true.2 ⟨x, hx, by simpa using hcon⟩
        rw [hany] at this
        cases this
      rw [hrun, stageCalls_eq_nil hclean]
      refine ⟨by simp, ?_, ?_, fun _ => ⟨rfl, rfl⟩⟩
      · constructor
        · rintro ⟨ids, h⟩
          simp at h
        · rintro ⟨⟨x, hx, hxd⟩, _⟩
          rw [hclean x hx] at hxd
          cases hxd
      · intro pre2 post2 b2 err2 hs2 hok2 hd2 hf2
        have := hclean b2 (by rw [hs2]; simp)
        rw [this] at hd2
        cases hd2
  · have hrun := hfailcase pre post b err hsplit hok hd hfail
    refine ⟨?_, ?_, hclause3, ?_⟩
    · rw [hrun]
      simp [List.filter_append, filter_isCommit_stageCalls, Call.isCommit]
    · rw [hrun]
      constructor
      · rintro ⟨ids, h⟩
        rcases List.mem_append.1 h with h | h
        · exact absurd h (stageCalls_no_commit pre ids)
        · simp at h
      · rintro ⟨_, hall⟩
        have := hall b.Id (stageData b) (List.mem_append_right _ (List.mem_singleton.2 rfl))
        rw [hfail] at this
        cases this
    · intro hclean
      have := hclean b (by rw [hsplit]; simp)
      rw [this] at hd
      cases hd

theorem StageAndCommit_commit_policy_witness :
    (∀ b ∈ mixedBlocks.BlockList, b.Truncated = true → b.StartIndex ≤ b.EndIndex) ∧
    ((StageAndCommit (stageFailingService "blk2") mixedBlocks).2.1.filter Call.isCommit).length
      ≤ 1 ∧
    ((∃ ids, Call.commit ids ∈ (StageAndCommit (stageFailingService "blk2") mixedBlocks).2.1) ↔
      ((∃ b ∈ mixedBlocks.BlockList, b.Dirty = true) ∧
        ∀ id d, Call.stage id d ∈ (StageAndCommit (stageFailingService "blk2") mixedBlocks).2.1 →
          (stageFailingService "blk2").stageBlock id d = none)) ∧
    StageAndCommit (stageFailingService "blk2") mixedBlocks =
      ({ mixedBlocks with
         BlockList :=
           [committedBlock "blk0" 0 16,
            { Id := "blk1", StartIndex := 16, EndIndex := 20, Data := [65, 65, 65, 65],
              Truncated := false, Dirty := false },
            { Id := "blk2", StartIndex := 20, EndIndex := 28, Data := [],
              Truncated := false, Dirty := true }] },
       [Call.stage "blk1" [65, 65, 65, 65], Call.stage "blk2" [0, 0, 0, 0, 0, 0, 0, 0]],
       Outcome.returned (some (Error.other 7))) :=
  ⟨by decide,
   (StageAndCommit_commit_policy (stageFailingService "blk2") mixedBlocks (by decide)).1,
   (StageAndCommit_commit_policy (stageFailingService "blk2") mixedBlocks (by decide)).2.1,
   by decide⟩

theorem StageAndCommit_calls_superset (svc : Service) (bol : BlockOffsetList) (c : Call)
    (h : c ∈ (stageLoop svc bol.BlockList [] [] false []).calls) :
    c ∈ (StageAndCommit svc bol).2.1 := by
  unfold StageAndCommit
  simp only
  split
  · exact h
  · split
    · split <;> exact List.mem_append_left _ h
    · exact h

/-- C14: every block `createNewBlocks` appends carries the truncated and the dirty
flag and no data buffer; and a following `StageAndCommit` on the grown map, once
the stage calls of the blocks before such a block have succeeded, stages under
the id of that block a buffer of exactly `EndIndex - StartIndex` bytes, all of
them zero (block size between 0 and `2^53`, pre-existing truncated blocks of
non-negative length). -/
theorem createNewBlocks_blocks_staged_as_zeros (bb : BB) (svc : Service)
    (bol : BlockOffsetList) (offset length : Int) (last : Block)
    (hlast : bol.BlockList.getLast? = some last) (hgt : last.EndIndex < offset + length)
    (hB0 : 0 ≤ bb.blockSize) (hB : bb.blockSize ≤ 2 ^ 53) :
    ∃ (new : List Block) (r : Int),
      createNewBlocks bb bol offset length =
        some ({ bol with BlockList := bol.BlockList ++ new }, r) ∧
      new ≠ [] ∧
      (∀ b ∈ new, b.Truncated = true ∧ b.Dirty = true ∧ b.Data = []) ∧
      ∀ (n1 n2 : List Block) (b : Block), new = n1 ++ b :: n2 →
        (∀ x ∈ bol.BlockList, x.Truncated = true → x.StartIndex ≤ x.EndIndex) →
        (∀ x ∈ bol.BlockList ++ n1, x.Dirty = true →
          svc.stageBlock x.Id (stageData x) = none) →
        ∃ zeros : List Byte,
          Call.stage b.Id zeros ∈
            (StageAndCommit svc { bol with BlockList := bol.BlockList ++ new }).2.1 ∧
          (zeros.length : Int) = b.EndIndex - b.StartIndex ∧
          ∀ z ∈ zeros, z = 0 := by
  obtain ⟨new, hrun, hc, _, hne, _, hfl⟩ :=
    (createNewBlocks_spec bb bol offset length last hlast hB0 hB).2 hgt
  refine ⟨new, _, hrun, hne, hfl, ?_⟩
  intro n1 n2 b hsplit hwfold hok
  have hbmem : b ∈ new := by rw [hsplit]; simp
  obtain ⟨hbt, hbd, _⟩ := hfl b hbmem
  have hble : b.StartIndex ≤ b.EndIndex := (Contiguous.bounds hc b hbmem).2.1
  have hdata : stageData b = List.replicate (b.EndIndex - b.StartIndex).toNat 0 := by
    simp [stageData, hbt]
  refine ⟨stageData b, ?_, ?_, ?_⟩
  · have hwfpre : ∀ x ∈ bol.BlockList ++ n1, x.Truncated = true → x.StartIndex ≤ x.EndIndex := by
      intro x hx _
      rcases List.mem_append.1 hx with h | h
      · exact hwfold x h ‹_›
      · exact (Contiguous.bounds hc x (by rw [hsplit]; exact List.mem_append_left _ h)).2.1
    have hlist : bol.BlockList ++ new = (bol.BlockList ++ n1) ++ b :: n2 := by
      rw [hsplit, List.append_assoc]
    apply StageAndCommit_calls_superset
    show Call.stage b.Id (stageData b) ∈
      (stageLoop svc (bol.BlockList ++ new) [] [] false []).calls
    rw [hlist, stageLoop_through svc (bol.BlockList ++ n1) (b :: n2) [] [] false [] hwfpre hok]
    cases hs : svc.stageBlock b.Id (stageData b) with
    | some err =>
      rw [stageLoop_step_fail svc b n2 _ _ _ _ err (fun _ => hble) hbd hs]
      exact List.mem_append_right _ (List.mem_singleton.2 rfl)
    | none =>
      rw [stageLoop_step_ok svc b n2 _ _ _ _ (fun _ => hble) hbd hs]
      apply stageLoop_calls_mono
      exact List.mem_append_right _ (List.mem_singleton.2 rfl)
  · rw [hdata, List.length_replicate]
    omega
  · intro z hz
    rw [hdata] at hz
    exact (List.mem_replicate.1 hz).2

theorem createNewBlocks_blocks_staged_as_zeros_witness :
    threeBlocks.BlockList.getLast? = some (committedBlock "blk2" (32 * MiB) (48 * MiB)) ∧
    (committedBlock "blk2" (32 * MiB) (48 * MiB)).EndIndex < 48 * MiB + MiB ∧
    (0 : Int) ≤ (exampleBB 0).blockSize ∧ (exampleBB 0).blockSize ≤ 2 ^ 53 ∧
    ∃ (new : List Block) (r : Int),
      createNewBlocks (exampleBB 0) threeBlocks (48 * MiB) MiB =
        some ({ threeBlocks with BlockList := threeBlocks.BlockList ++ new }, r) ∧
      new ≠ [] ∧
      (∀ b ∈ new, b.Truncated = true ∧ b.Dirty = true ∧ b.Data = []) ∧
      ∀ (n1 n2 : List Block) (b : Block), new = n1 ++ b :: n2 →
        (∀ x ∈ threeBlocks.BlockList, x.Truncated = true → x.StartIndex ≤ x.EndIndex) →
        (∀ x ∈ threeBlocks.BlockList ++ n1, x.Dirty = true →
          (exampleService (48 * MiB) []).stageBlock x.Id (stageData x) = none) →
        ∃ zeros : List Byte,
          Call.stage b.Id zeros ∈
            (StageAndCommit (exampleService (48 * MiB) [])
              { threeBlocks with BlockList := threeBlocks.BlockList ++ new }).2.1 ∧
          (zeros.length : Int) = b.EndIndex - b.StartIndex ∧
          ∀ z ∈ zeros, z = 0 :=
  ⟨by decide, by decide, by decide, by decide,
   createNewBlocks_blocks_staged_as_zeros (exampleBB 0) (exampleService (48 * MiB) [])
     threeBlocks (48 * MiB) MiB (committedBlock "blk2" (32 * MiB) (48 * MiB))
     (by decide) (by decide) (by decide) (by decide)⟩

/-! ## Truncate: the whole-blob cases and the conversion of a small file -/

/-- C15: when `GetAttr` succeeds and the requested size is 0 or the current size
is 0, `TruncateFile` makes, after `GetAttr`, exactly one call, a whole-blob
upload of `size` zero bytes; it fetches no block list, stages and commits
nothing, and returns what the upload returned (`size` not negative). -/
theorem TruncateFile_zero_uploads_whole_blob (bb : BB) (svc : Service) (size attrSize : Int)
    (hattr : svc.getAttr = .ok attrSize) (hz : size = 0 ∨ attrSize = 0) (h0 : 0 ≤ size) :
    TruncateFile bb svc size =
      ([Call.getAttr, Call.upload (List.replicate size.toNat 0)],
       Outcome.returned (svc.upload (List.replicate size.toNat 0))) ∧
    ((List.replicate size.toNat (0 : Byte)).length : Int) = size ∧
    ∀ z ∈ List.replicate size.toNat (0 : Byte), z = 0 := by
  refine ⟨?_, ?_, fun z hz => (List.mem_replicate.1 hz).2⟩
  · have hmk : makeBytes size = some (List.replicate size.toNat 0) := by
      unfold makeBytes
      rw [if_neg (by omega)]
    unfold TruncateFile
    simp only [hattr, hz, if_true, hmk, WriteFromBuffer, List.singleton_append]
  · rw [List.length_replicate]
    omega

theorem TruncateFile_zero_uploads_whole_blob_witness :
    (exampleService 32 [("blk0", 16), ("blk1", 16)]).getAttr = .ok 32 ∧
    ((0 : Int) = 0 ∨ (32 : Int) = 0) ∧ (0 : Int) ≤ 0 ∧
    TruncateFile (exampleBB 0) (exampleService 32 [("blk0", 16), ("blk1", 16)]) 0 =
      ([Call.getAttr, Call.upload (List.replicate (0 : Int).toNat 0)],
       Outcome.returned ((exampleService 32 [("blk0", 16), ("blk1", 16)]).upload
         (List.replicate (0 : Int).toNat 0))) ∧
    ((List.replicate (0 : Int).toNat (0 : Byte)).length : Int) = 0 ∧
    ∀ z ∈ List.replicate (0 : Int).toNat (0 : Byte), z = 0 :=
  ⟨rfl, by decide, by decide,
   TruncateFile_zero_uploads_whole_blob (exampleBB 0)
     (exampleService 32 [("blk0", 16), ("blk1", 16)]) 0 32 rfl (by decide) (by decide)⟩

theorem ReadBuffer_whole (svc : Service) (S : Int) (bytes : List Byte)
    (hattr : svc.getAttr = .ok S) (hS : 0 ≤ S) (hdl : svc.download 0 0 = .ok bytes) :
    ReadBuffer svc 0 0 =
      ([Call.getAttr, Call.download 0 0],
       some (goCopy (List.replicate S.toNat 0) bytes, none)) := by
  have hmk : makeBytes S = some (List.replicate S.toNat 0) := by
    unfold makeBytes
    rw [if_neg (by omega)]
  unfold ReadBuffer
  simp only [if_true, hattr, hmk, hdl]

theorem truncateSmallFile_grow (bb : BB) (svc : Service) (bol : BlockOffsetList)
    (size S : Int) (calls rc : List Call) (data : List Byte) (grown : BlockOffsetList) (r : Int)
    (hread : ReadBuffer svc 0 0 = (rc, some (data, none))) (hgt : S < size)
    (hgrow : createNewBlocks bb (smallFileToBlocks bb bol data S) S (size - S) =
      some (grown, r)) :
    truncateSmallFile bb svc bol size S calls =
      (calls ++ rc ++ (StageAndCommit svc grown).2.1, (StageAndCommit svc grown).2.2) := by
  have hlast : getAt (smallFileToBlocks bb bol data S).BlockList
      (((smallFileToBlocks bb bol data S).BlockList.length : Int) - 1) =
      some { StartIndex := 0, EndIndex := S, Data := data,
             Id := bb.common.EncodeToString bb.common.NewUUID,
             Truncated := false, Dirty := true } := by
    rw [getAt_last]
    simp [smallFileToBlocks]
  unfold smallFileToBlocks at hlast hgrow
  unfold truncateSmallFile
  simp only [hread, gt_iff_lt, hgt, if_true, hlast, hgrow]

theorem sum_stageData_length (bl : List Block)
    (h : ∀ b ∈ bl, b.Truncated = true ∧ b.StartIndex ≤ b.EndIndex) :
    (bl.map (fun b => ((stageData b).length : Int))).sum = totalLength bl := by
  induction bl with
  | nil => rfl
  | cons b rest ih =>
    have hb := h b (List.mem_cons_self _ _)
    have hrest := ih (fun x hx => h x (List.mem_cons_of_mem _ hx))
    simp only [List.map_cons, List.sum_cons, totalLength] at hrest ⊢
    rw [hrest]
    simp only [stageData, hb.1, if_true, List.length_replicate]
    have := hb.2
    omega

/-- C16: for a small file of current size `S > 0` and a new size above `S`, with
the reads and the stage calls succeeding, `TruncateFile` builds a block map whose
first block is `[0, S)`, dirty, not truncated and holds the bytes read, followed
by the new truncated blocks of `createNewBlocks`; the map has the small-file flag
cleared, is contiguous and covers `[0, size)`; every block is staged (the first
with the existing bytes, the new ones with zeros), all ids are committed, and
the lengths of the staged buffers sum to `size` (block size between 0 and
`2^53`). -/
theorem TruncateFile_small_file_grow (bb : BB) (svc : Service) (size S : Int)
    (bytes : List Byte)
    (hattr : svc.getAttr = .ok S) (hbl : svc.getBlockList = .ok [])
    (hdl : svc.download 0 0 = .ok bytes) (hS : 0 < S) (hgt : S < size)
    (hB0 : 0 ≤ bb.blockSize) (hB : bb.blockSize ≤ 2 ^ 53)
    (hstage : ∀ id d, svc.stageBlock id d = none) :
    ∃ (first : Block) (new : List Block) (r : Int),
      first.StartIndex = 0 ∧ first.EndIndex = S ∧ first.Dirty = true ∧
      first.Truncated = false ∧
      first.Data = goCopy (List.replicate S.toNat 0) bytes ∧
      (first.Data.length : Int) = S ∧
      ((bytes.length : Int) = S → first.Data = bytes) ∧
      createNewBlocks bb (smallFileToBlocks bb smallFileMap first.Data S) S (size - S) =
        some ({ BlockList := first :: new, SmallFile := false,
                BlockIdLength := bb.common.GetIdLength first.Id }, r) ∧
      new ≠ [] ∧
      (∀ b ∈ new, b.Truncated = true ∧ b.Dirty = true ∧ b.Data = []) ∧
      Contiguous 0 size (first :: new) ∧
      TruncateFile bb svc size =
        ([Call.getAttr, Call.getBlockList, Call.getAttr, Call.download 0 0] ++
           stageCalls (first :: new) ++ [Call.commit ((first :: new).map Block.Id)],
         Outcome.returned (svc.commitBlockList ((first :: new).map Block.Id))) ∧
      stageCalls (first :: new) =
        (first :: new).map (fun b => Call.stage b.Id (stageData b)) ∧
      stageData first = first.Data ∧
      (∀ b ∈ new, stageData b = List.replicate (b.EndIndex - b.StartIndex).toNat 0) ∧
      ((first :: new).map (fun b => ((stageData b).length : Int))).sum = size := by
  have hread := ReadBuffer_whole svc S bytes hattr (le_of_lt hS) hdl
  have hlen : ((goCopy (List.replicate S.toNat 0) bytes).length : Int) = S := by
    rw [goCopy_length, List.length_replicate]
    omega
  have hlast : (smallFileToBlocks bb smallFileMap
      (goCopy (List.replicate S.toNat 0) bytes) S).BlockList.getLast? =
      some { StartIndex := 0, EndIndex := S, Data := goCopy (List.replicate S.toNat 0) bytes,
             Id := bb.common.EncodeToString bb.common.NewUUID,
             Truncated := false, Dirty := true } := by
    simp [smallFileToBlocks, smallFileMap]
  obtain ⟨new, hrun, hc, _, hne, _, hfl⟩ :=
    (createNewBlocks_spec bb _ S (size - S) _ hlast hB0 hB).2 (by show S < S + (size - S); omega)
  have hcS : Contiguous S size new := by
    have : S + (size - S) = size := by ring
    rw [this] at hc
    exact hc
  have hwfnew : ∀ b ∈ new, b.Truncated = true ∧ b.StartIndex ≤ b.EndIndex :=
    fun b hb => ⟨(hfl b hb).1, (Contiguous.bounds hcS b hb).2.1⟩
  refine ⟨{ StartIndex := 0, EndIndex := S, Data := goCopy (List.replicate S.toNat 0) bytes,
            Id := bb.common.EncodeToString bb.common.NewUUID,
            Truncated := false, Dirty := true }, new, S + (size - S) - S, rfl, rfl, rfl, rfl, rfl,
    hlen, ?_, ?_,
    hne, hfl, ⟨rfl, le_of_lt hS, hcS⟩, ?_, ?_, ?_, ?_, ?_⟩
  · intro hb
    exact goCopy_of_length_eq _ _ (by rw [List.length_replicate]; omega)
  · rw [hrun]
    simp [smallFileToBlocks, smallFileMap]
  · have hgrow := truncateSmallFile_grow bb svc smallFileMap size S
      [Call.getAttr, Call.getBlockList] _ _ _ _ hread hgt hrun
    have hnz : ¬ (size = 0 ∨ S = 0) := by omega
    have htr : TruncateFile bb svc size =
        truncateSmallFile bb svc smallFileMap size S [Call.getAttr, Call.getBlockList] := by
      unfold TruncateFile
      simp [hattr, hnz, hbl, GetFileBlockOffsets, smallFileMap]
    rw [htr, hgrow]
    have hall := StageAndCommit_all_ok svc
      { smallFileToBlocks bb smallFileMap (goCopy (List.replicate S.toNat 0) bytes) S with
        BlockList := (smallFileToBlocks bb smallFileMap
          (goCopy (List.replicate S.toNat 0) bytes) S).BlockList ++ new }
      (by
        intro b hb ht
        simp only [smallFileToBlocks, smallFileMap, List.nil_append, List.singleton_append,
          List.mem_cons] at hb
        rcases hb with rfl | hb
        · exact le_of_lt hS
        · exact (hwfnew b hb).2)
      (fun b _ _ => hstage _ _)
    rw [hall]
    simp [smallFileToBlocks, smallFileMap]
  · simp only [stageCalls, List.filter_cons, if_true]
    congr 2
    rw [List.filter_eq_self]
    intro b hb
    exact (hfl b hb).2.1
  · simp [stageData]
  · intro b hb
    simp [stageData, (hfl b hb).1]
  · rw [List.map_cons, List.sum_cons, sum_stageData_length new hwfnew,
      Contiguous.totalLength hcS]
    simp only [stageData, Bool.false_eq_true, if_false]
    omega

theorem TruncateFile_small_file_grow_witness :
    (smallFileService abcde).getAttr = .ok 5 ∧ (smallFileService abcde).getBlockList = .ok [] ∧
    (smallFileService abcde).download 0 0 = .ok abcde ∧ (0 : Int) < 5 ∧ (5 : Int) < 12 ∧
    (0 : Int) ≤ (exampleBB 0).blockSize ∧ (exampleBB 0).blockSize ≤ 2 ^ 53 ∧
    (∀ id d, (smallFileService abcde).stageBlock id d = none) ∧
    ∃ (first : Block) (new : List Block) (r : Int),
      first.StartIndex = 0 ∧ first.EndIndex = 5 ∧ first.Dirty = true ∧
      first.Truncated = false ∧
      first.Data = goCopy (List.replicate (5 : Int).toNat 0) abcde ∧
      (first.Data.length : Int) = 5 ∧
      ((abcde.length : Int) = 5 → first.Data = abcde) ∧
      createNewBlocks (exampleBB 0) (smallFileToBlocks (exampleBB 0) smallFileMap first.Data 5) 5 (12 - 5) =
        some ({ BlockList := first :: new, SmallFile := false,
                BlockIdLength := (exampleBB 0).common.GetIdLength first.Id }, r) ∧
      new ≠ [] ∧
      (∀ b ∈ new, b.Truncated = true ∧ b.Dirty = true ∧ b.Data = []) ∧
      Contiguous 0 12 (first :: new) ∧
      TruncateFile (exampleBB 0) (smallFileService abcde) 12 =
        ([Call.getAttr, Call.getBlockList, Call.getAttr, Call.download 0 0] ++
           stageCalls (first :: new) ++ [Call.commit ((first :: new).map Block.Id)],
         Outcome.returned ((smallFileService abcde).commitBlockList ((first :: new).map Block.Id))) ∧
      stageCalls (first :: new) =
        (first :: new).map (fun b => Call.stage b.Id (stageData b)) ∧
      stageData first = first.Data ∧
      (∀ b ∈ new, stageData b = List.replicate (b.EndIndex - b.StartIndex).toNat 0) ∧
      ((first :: new).map (fun b => ((stageData b).length : Int))).sum = 12 :=
  ⟨rfl, rfl, rfl, by decide, by decide, by decide, by decide, fun _ _ => rfl,
   TruncateFile_small_file_grow (exampleBB 0) (smallFileService abcde) 12 5 abcde rfl rfl rfl
     (by decide) (by decide) (by decide) (by decide) (fun _ _ => rfl)⟩

/-! ## Block size selection -/

theorem ldiff_seven (m : Nat) : Nat.ldiff m 7 = m / 8 * 8 := by
  apply Nat.eq_of_testBit_eq
  intro i
  have h7 : (7 : Nat) = 2 ^ 3 - 1 := by norm_num
  have h8 : m / 8 * 8 = (m >>> 3) <<< 3 := by
    rw [Nat.shiftLeft_eq, Nat.shiftRight_eq_div_pow]
  rw [Nat.testBit_ldiff, h7, Nat.testBit_two_pow_sub_one, h8, Nat.testBit_shiftLeft,
    Nat.testBit_shiftRight]
  by_cases hi : i < 3
  · simp [hi]
  · have : 3 + (i - 3) = i := by omega
    simp [hi, this]
    omega

theorem land_neg_eight (x : Int) (hx : 0 ≤ x) : Int.land x (-8) = x / 8 * 8 := by
  obtain ⟨m, rfl⟩ : ∃ m : Nat, x = (m : Int) := ⟨x.toNat, by omega⟩
  have h : Int.land (m : Int) (-8) = ((Nat.ldiff m 7 : Nat) : Int) := rfl
  rw [h, ldiff_seven]
  push_cast
  rfl

theorem roundHalfEven_ge (y : ℚ) : y - 1 / 2 ≤ (roundHalfEven y : ℚ) := by
  have hf : (⌊y⌋ : ℚ) ≤ y := Int.floor_le y
  have hlt : y < (⌊y⌋ : ℚ) + 1 := Int.lt_floor_add_one y
  unfold roundHalfEven
  simp only
  split_ifs with h1 h2 h3
  · linarith
  · push_cast; linarith
  · have : y - ⌊y⌋ = 1 / 2 := le_antisymm (not_lt.1 h2) (not_lt.1 h1)
    linarith
  · push_cast; linarith

theorem roundHalfEven_le (y : ℚ) (K : Int) (h : y ≤ (K : ℚ)) : roundHalfEven y ≤ K := by
  have hfK : ⌊y⌋ ≤ K := Int.floor_le_iff.2 (by linarith [Int.lt_floor_add_one y, h])
  have hf : (⌊y⌋ : ℚ) ≤ y := Int.floor_le y
  rcases eq_or_lt_of_le hfK with heq | hlt
  · -- the floor is K, so y = K
    have hy : y = (K : ℚ) := le_antisymm h (by rw [← heq]; exact hf)
    unfold roundHalfEven
    simp only
    have hd : y - (⌊y⌋ : ℚ) = 0 := by rw [heq, hy]; ring
    rw [hd, if_pos (by norm_num), heq]
  · unfold roundHalfEven
    simp only
    split_ifs <;> omega

theorem ceilDiv64_exact (a b : Int) (ha : 0 < a) (ha53 : a < 2 ^ 53) (hb : 0 < b)
    (hb53 : b < 2 ^ 53) : ceilDiv64 a b = ⌈(a : ℚ) / (b : ℚ)⌉ := by
  have hfa : float64 a = a := float64_exact a (by omega)
  have hfb : float64 b = b := float64_exact b (by omega)
  unfold ceilDiv64
  rw [hfa, hfb]
  have haq : (0 : ℚ) < (a : ℚ) := by exact_mod_cast ha
  have hbq : (0 : ℚ) < (b : ℚ) := by exact_mod_cast hb
  have hb1 : (1 : ℚ) ≤ (b : ℚ) := by exact_mod_cast hb
  have ha53q : (a : ℚ) < 2 ^ 53 := by exact_mod_cast ha53
  set x : ℚ := (a : ℚ) / (b : ℚ) with hx
  have hx0 : 0 < x := div_pos haq hbq
  have hxa : x ≤ (a : ℚ) := div_le_self (le_of_lt haq) hb1
  have hx53 : x < (2 : ℚ) ^ (53 : ℤ) := by
    have : ((2 : ℚ) ^ (53 : ℤ)) = 2 ^ 53 := by norm_cast
    rw [this]
    linarith
  -- the exponent
  have hlog : Int.log 2 x < 53 := by
    have := (Int.lt_zpow_iff_log_lt (R := ℚ) (b := 2) (by norm_num) hx0 (x := 53)).1
      (by exact_mod_cast hx53)
    exact this
  have hpow : ((2 : ℕ) : ℚ) ^ Int.log 2 x ≤ x := Int.zpow_log_le_self (by norm_num) hx0
  have habs : |x| = x := abs_of_pos hx0
  generalize hL : Int.log 2 x = L at hlog hpow
  obtain ⟨n, hn⟩ : ∃ n : Nat, (52 : Int) - L = n := ⟨(52 - L).toNat, by omega⟩
  have he : L - 52 = -(n : Int) := by omega
  have hp : (2 : ℚ) ^ (L - 52) = 1 / (2 : ℚ) ^ n := by
    rw [he, zpow_neg, zpow_natCast, one_div]
  have hpn : (0 : ℚ) < (2 : ℚ) ^ n := by positivity
  have hpowL : (2 : ℚ) ^ L = 2 ^ (52 : ℕ) / (2 : ℚ) ^ n := by
    have : L = (52 : Int) + -(n : Int) := by omega
    rw [this, zpow_add₀ (by norm_num), zpow_neg, zpow_natCast]
    norm_cast
  have hunf : roundDouble x =
      (roundHalfEven (x * (2 : ℚ) ^ n) : ℚ) / (2 : ℚ) ^ n := by
    unfold roundDouble
    simp only [if_neg (ne_of_gt hx0), habs, hL, if_neg (not_lt.2 (le_of_lt hx0)), hp, one_mul]
    field_simp
  rw [hunf]
  set k : Int := ⌈x⌉ with hk
  have hk1 : ((k : ℚ) - 1) < x := by
    have := Int.ceil_lt_add_one x
    rw [← hk] at this
    linarith
  have hk2 : x ≤ (k : ℚ) := Int.le_ceil x
  rw [Int.ceil_eq_iff]
  constructor
  · -- lower bound: the rounding error is below 1 / b
    have hr := roundHalfEven_ge (x * (2 : ℚ) ^ n)
    rw [lt_div_iff₀ hpn]
    -- x ≥ k - 1 + 1 / b
    have hint : (k - 1) * b + 1 ≤ a := by
      have : ((k : ℚ) - 1) * b < a := by
        have := (lt_div_iff₀ hbq).1 hk1
        exact this
      have : (k - 1) * b < a := by exact_mod_cast this
      omega
    have hxb : (k : ℚ) - 1 + 1 / b ≤ x := by
      rw [hx, le_div_iff₀ hbq]
      have : (((k - 1) * b + 1 : Int) : ℚ) ≤ (a : ℚ) := by exact_mod_cast hint
      push_cast at this
      field_simp
      linarith
    -- 2 ^ 52 / 2 ^ n ≤ x, hence 1 / 2 < (1 / b) * 2 ^ n
    have hcast : ((2 : ℕ) : ℚ) = 2 := by norm_num
    rw [hcast, hpowL] at hpow
    have h52 : (2 : ℚ) ^ (52 : ℕ) ≤ x * (2 : ℚ) ^ n := (div_le_iff₀ hpn).1 hpow
    have hxlt : x * b < 2 ^ 53 := by
      have : x * b = a := by rw [hx]; field_simp
      rw [this]; exact ha53q
    have hhalf : (1 : ℚ) / 2 < 1 / b * (2 : ℚ) ^ n := by
      rw [one_div_mul_eq_div, lt_div_iff₀ hbq]
      have h53 : (2 : ℚ) ^ 53 = 2 * 2 ^ (52 : ℕ) := by norm_num
      nlinarith
    nlinarith
  · -- upper bound: k * 2 ^ n is an integer above x * 2 ^ n
    rw [div_le_iff₀ hpn]
    have hle : x * (2 : ℚ) ^ n ≤ ((k * 2 ^ n : Int) : ℚ) := by
      push_cast
      exact mul_le_mul_of_nonneg_right hk2 (le_of_lt hpn)
    have := roundHalfEven_le _ _ hle
    have : (roundHalfEven (x * (2 : ℚ) ^ n) : ℚ) ≤ ((k * 2 ^ n : Int) : ℚ) := by
      exact_mod_cast this
    push_cast at this
    exact this


theorem calculateBlockSize_multi (az : Azblob) (fileSize : Int)
    (hN : 0 < az.BlockBlobMaxBlocks) (h8 : 8 ∣ az.BlockBlobMaxStageBlockBytes)
    (hmax : MaxBlocksSize az < 2 ^ 53) (hlim : 0 ≤ az.BlockBlobMaxUploadBlobBytes)
    (hlo : az.BlockBlobMaxUploadBlobBytes < fileSize) (hhi : fileSize ≤ MaxBlocksSize az) :
    ceilDiv64 fileSize az.BlockBlobMaxBlocks =
      (fileSize + az.BlockBlobMaxBlocks - 1) / az.BlockBlobMaxBlocks ∧
    0 < (fileSize + az.BlockBlobMaxBlocks - 1) / az.BlockBlobMaxBlocks ∧
    (fileSize + az.BlockBlobMaxBlocks - 1) / az.BlockBlobMaxBlocks ≤
      az.BlockBlobMaxStageBlockBytes ∧
    calculateBlockSize az fileSize =
      .ok (if (fileSize + az.BlockBlobMaxBlocks - 1) / az.BlockBlobMaxBlocks <
              az.BlobDefaultDownloadBlockSize then az.BlobDefaultDownloadBlockSize
           else if (fileSize + az.BlockBlobMaxBlocks - 1) / az.BlockBlobMaxBlocks / 8 * 8 ≠ 0 then
             ((fileSize + az.BlockBlobMaxBlocks - 1) / az.BlockBlobMaxBlocks + 7) / 8 * 8
           else (fileSize + az.BlockBlobMaxBlocks - 1) / az.BlockBlobMaxBlocks) := by
  obtain ⟨maxBytes, N, limit, D⟩ := az
  simp only [MaxBlocksSize] at *
  have hf0 : 0 < fileSize := by omega
  have hmb : 0 < maxBytes := by
    by_contra hcon
    have : maxBytes * N ≤ 0 := Int.mul_nonpos_of_nonpos_of_nonneg (by omega) (by omega)
    omega
  have hN53 : N < 2 ^ 53 := by
    have : 1 * N ≤ maxBytes * N := Int.mul_le_mul_of_nonneg_right (by omega) (by omega)
    omega
  have hceil : ceilDiv64 fileSize N = (fileSize + N - 1) / N := by
    rw [ceilDiv64_exact fileSize N hf0 (by omega) hN hN53, ceil_div_eq fileSize N hN]
  have hcpos : 0 < (fileSize + N - 1) / N := by
    have h1 : (1 : Int) ≤ (fileSize + N - 1) / N := Int.le_ediv_of_mul_le hN (by omega)
    omega
  have hcle : (fileSize + N - 1) / N ≤ maxBytes := by
    have : (fileSize + N - 1) / N < maxBytes + 1 :=
      Int.ediv_lt_of_lt_mul hN (by linarith)
    omega
  refine ⟨hceil, hcpos, hcle, ?_⟩
  generalize hc : (fileSize + N - 1) / N = c at hceil hcpos hcle ⊢
  have hland1 : Int.land c (-8) = c / 8 * 8 := land_neg_eight c (by omega)
  have hland2 : Int.land (c + 7) (-8) = (c + 7) / 8 * 8 := land_neg_eight (c + 7) (by omega)
  unfold calculateBlockSize
  simp only [MaxBlocksSize, gt_iff_lt, not_lt.2 hhi, if_false, not_le.2 hlo, hceil, hland1,
    hland2]
  by_cases hD : c < D
  · simp only [hD, if_true]
  · simp only [hD, if_false]
    by_cases hz : c / 8 * 8 ≠ 0
    · simp only [hz, ne_eq, not_false_eq_true, if_true]
      rw [if_neg (by omega)]
    · simp only [hz, if_false]
      rw [if_neg (by omega)]

/-- C17: with constants such that the block count is positive, the largest block
is a multiple of 8 and `MaxBlocksSize` is below `2^53`, `calculateBlockSize`
returns an error if and only if `fileSize > MaxBlocksSize`; for every other
`fileSize` it returns a block size, and the failure "block-size is too large" is
never the result. -/
theorem calculateBlockSize_error_iff (az : Azblob) (fileSize : Int)
    (hN : 0 < az.BlockBlobMaxBlocks) (h8 : 8 ∣ az.BlockBlobMaxStageBlockBytes)
    (hmax : MaxBlocksSize az < 2 ^ 53) (hlim : 0 ≤ az.BlockBlobMaxUploadBlobBytes) :
    ((∃ msg, calculateBlockSize az fileSize = .error msg) ↔ fileSize > MaxBlocksSize az) ∧
    (fileSize ≤ MaxBlocksSize az → ∃ bs, calculateBlockSize az fileSize = .ok bs) ∧
    calculateBlockSize az fileSize ≠
      .error "block-size is too large to upload to a block blob" := by
  by_cases hbig : fileSize > MaxBlocksSize az
  · have hrun : calculateBlockSize az fileSize =
        .error "buffer is too large to upload to a block blob" := by
      unfold calculateBlockSize
      rw [if_pos hbig]
    rw [hrun]
    refine ⟨Iff.intro (fun _ => hbig) (fun _ => ⟨_, rfl⟩), fun h => absurd h (not_le.2 hbig), ?_⟩
    intro h
    injection h with h
    revert h
    decide
  · have hok : ∃ bs, calculateBlockSize az fileSize = .ok bs := by
      by_cases hsmall : fileSize ≤ az.BlockBlobMaxUploadBlobBytes
      · refine ⟨az.BlockBlobMaxUploadBlobBytes, ?_⟩
        unfold calculateBlockSize
        rw [if_neg hbig, if_pos hsmall]
      · exact ⟨_, (calculateBlockSize_multi az fileSize hN h8 hmax hlim (not_le.1 hsmall)
          (not_lt.1 hbig)).2.2.2⟩
    obtain ⟨bs, hbs⟩ := hok
    rw [hbs]
    refine ⟨Iff.intro (fun h => by obtain ⟨_, h⟩ := h; cases h) (fun h => absurd h hbig),
      fun _ => ⟨bs, rfl⟩, ?_⟩
    intro h
    cases h

theorem calculateBlockSize_error_iff_witness :
    0 < specAzblob.BlockBlobMaxBlocks ∧ 8 ∣ specAzblob.BlockBlobMaxStageBlockBytes ∧
    MaxBlocksSize specAzblob < 2 ^ 53 ∧ 0 ≤ specAzblob.BlockBlobMaxUploadBlobBytes ∧
    ((∃ msg, calculateBlockSize specAzblob (300 * MiB) = .error msg) ↔
      300 * MiB > MaxBlocksSize specAzblob) ∧
    (300 * MiB ≤ MaxBlocksSize specAzblob →
      ∃ bs, calculateBlockSize specAzblob (300 * MiB) = .ok bs) ∧
    calculateBlockSize specAzblob (300 * MiB) ≠
      .error "block-size is too large to upload to a block blob" :=
  ⟨by decide, by decide, by decide, by decide,
   calculateBlockSize_error_iff specAzblob (300 * MiB) (by decide) (by decide) (by decide)
     (by decide)⟩

/-- C18: with a block count of at least 2, a single-upload limit of at least 16
bytes that is below `MaxBlocksSize`, and a default block size not above the
limit: for every `fileSize` up to the limit `calculateBlockSize` returns the
limit (at least `fileSize`: one block); for every `fileSize` above the limit and
up to `MaxBlocksSize` it returns a block size strictly below `fileSize` (several
blocks); in particular the limit itself gives the limit and the limit plus one
gives less. -/
theorem calculateBlockSize_single_upload_boundary (az : Azblob) (fileSize : Int)
    (hN2 : 2 ≤ az.BlockBlobMaxBlocks) (h8 : 8 ∣ az.BlockBlobMaxStageBlockBytes)
    (hmax : MaxBlocksSize az < 2 ^ 53) (hlim16 : 16 ≤ az.BlockBlobMaxUploadBlobBytes)
    (hD : az.BlobDefaultDownloadBlockSize ≤ az.BlockBlobMaxUploadBlobBytes)
    (hLM : az.BlockBlobMaxUploadBlobBytes < MaxBlocksSize az) :
    (fileSize ≤ az.BlockBlobMaxUploadBlobBytes →
      calculateBlockSize az fileSize = .ok az.BlockBlobMaxUploadBlobBytes) ∧
    (az.BlockBlobMaxUploadBlobBytes < fileSize → fileSize ≤ MaxBlocksSize az →
      ∃ bs, calculateBlockSize az fileSize = .ok bs ∧ bs < fileSize) ∧
    calculateBlockSize az az.BlockBlobMaxUploadBlobBytes = .ok az.BlockBlobMaxUploadBlobBytes ∧
    ∃ bs, calculateBlockSize az (az.BlockBlobMaxUploadBlobBytes + 1) = .ok bs ∧
      bs < az.BlockBlobMaxUploadBlobBytes + 1 := by
  have hone : ∀ f : Int, f ≤ az.BlockBlobMaxUploadBlobBytes →
      calculateBlockSize az f = .ok az.BlockBlobMaxUploadBlobBytes := by
    intro f hf
    unfold calculateBlockSize
    rw [if_neg (by omega), if_pos hf]
  have hmany : ∀ f : Int, az.BlockBlobMaxUploadBlobBytes < f → f ≤ MaxBlocksSize az →
      ∃ bs, calculateBlockSize az f = .ok bs ∧ bs < f := by
    intro f hlo hhi
    obtain ⟨_, hcpos, _, hrun⟩ :=
      calculateBlockSize_multi az f (by omega) h8 hmax (by omega) hlo hhi
    refine ⟨_, hrun, ?_⟩
    have hmul : (f + az.BlockBlobMaxBlocks - 1) / az.BlockBlobMaxBlocks *
        az.BlockBlobMaxBlocks ≤ f + az.BlockBlobMaxBlocks - 1 :=
      Int.ediv_mul_le _ (by omega)
    generalize (f + az.BlockBlobMaxBlocks - 1) / az.BlockBlobMaxBlocks = c at hcpos hmul ⊢
    have hc2 : (c - 1) * 2 ≤ f - 1 := by
      have : (c - 1) * 2 ≤ (c - 1) * az.BlockBlobMaxBlocks :=
        Int.mul_le_mul_of_nonneg_left hN2 (by omega)
      linarith
    split_ifs <;> omega
  exact ⟨hone fileSize, hmany fileSize, hone _ le_rfl, hmany _ (by omega) (by omega)⟩

theorem calculateBlockSize_single_upload_boundary_witness :
    2 ≤ specAzblob.BlockBlobMaxBlocks ∧ 8 ∣ specAzblob.BlockBlobMaxStageBlockBytes ∧
    MaxBlocksSize specAzblob < 2 ^ 53 ∧ 16 ≤ specAzblob.BlockBlobMaxUploadBlobBytes ∧
    specAzblob.BlobDefaultDownloadBlockSize ≤ specAzblob.BlockBlobMaxUploadBlobBytes ∧
    specAzblob.BlockBlobMaxUploadBlobBytes < MaxBlocksSize specAzblob ∧
    (300 * MiB ≤ specAzblob.BlockBlobMaxUploadBlobBytes →
      calculateBlockSize specAzblob (300 * MiB) = .ok specAzblob.BlockBlobMaxUploadBlobBytes) ∧
    (specAzblob.BlockBlobMaxUploadBlobBytes < 300 * MiB → 300 * MiB ≤ MaxBlocksSize specAzblob →
      ∃ bs, calculateBlockSize specAzblob (300 * MiB) = .ok bs ∧ bs < 300 * MiB) ∧
    calculateBlockSize specAzblob specAzblob.BlockBlobMaxUploadBlobBytes =
      .ok specAzblob.BlockBlobMaxUploadBlobBytes ∧
    ∃ bs, calculateBlockSize specAzblob (specAzblob.BlockBlobMaxUploadBlobBytes + 1) = .ok bs ∧
      bs < specAzblob.BlockBlobMaxUploadBlobBytes + 1 :=
  ⟨by decide, by decide, by decide, by decide, by decide, by decide,
   calculateBlockSize_single_upload_boundary specAzblob (300 * MiB) (by decide) (by decide)
     (by decide) (by decide) (by decide) (by decide)⟩

/-- With the constants as parameters: for every `fileSize` above the single-upload
limit and up to `MaxBlocksSize`, `calculateBlockSize` returns
`ceil(fileSize / max block count)` rounded up to the next multiple of 8, then clamped
to be at least `azblob.BlobDefaultDownloadBlockSize` and at most the largest block;
the value returned is a multiple of 8 (constants: positive block count, default and
largest block multiples of 8 with `0 < default ≤ largest`, `MaxBlocksSize`
below `2^53`). -/
theorem calculateBlockSize_multi_block_value (az : Azblob) (fileSize : Int)
    (hN : 0 < az.BlockBlobMaxBlocks) (h8 : 8 ∣ az.BlockBlobMaxStageBlockBytes)
    (hmax : MaxBlocksSize az < 2 ^ 53) (hlim : 0 ≤ az.BlockBlobMaxUploadBlobBytes)
    (hD8 : 8 ∣ az.BlobDefaultDownloadBlockSize) (hD0 : 0 < az.BlobDefaultDownloadBlockSize)
    (hDM : az.BlobDefaultDownloadBlockSize ≤ az.BlockBlobMaxStageBlockBytes)
    (hlo : az.BlockBlobMaxUploadBlobBytes < fileSize) (hhi : fileSize ≤ MaxBlocksSize az) :
    ∃ bs : Int,
      calculateBlockSize az fileSize = .ok bs ∧
      bs = min (max (8 * ⌈((⌈(fileSize : ℚ) / (az.BlockBlobMaxBlocks : ℚ)⌉ : Int) : ℚ) / 8⌉)
                  az.BlobDefaultDownloadBlockSize)
               az.BlockBlobMaxStageBlockBytes ∧
      8 ∣ bs := by
  obtain ⟨_, hcpos, hcle, hrun⟩ := calculateBlockSize_multi az fileSize hN h8 hmax hlim hlo hhi
  have hc := ceil_div_eq fileSize az.BlockBlobMaxBlocks hN
  rw [← hc]
  generalize (fileSize + az.BlockBlobMaxBlocks - 1) / az.BlockBlobMaxBlocks = c at hcpos hcle hrun ⊢
  have h8c : (c + 8 - 1) / 8 = ⌈(c : ℚ) / 8⌉ := by
    have := ceil_div_eq c 8 (by norm_num)
    simpa using this
  rw [← h8c]
  refine ⟨_, hrun, ?_, ?_⟩
  · simp only [min_def, max_def]
    split_ifs <;> omega
  · split_ifs <;> omega

theorem calculateBlockSize_multi_block_value_witness :
    0 < specAzblob.BlockBlobMaxBlocks ∧ 8 ∣ specAzblob.BlockBlobMaxStageBlockBytes ∧
    MaxBlocksSize specAzblob < 2 ^ 53 ∧ 0 ≤ specAzblob.BlockBlobMaxUploadBlobBytes ∧
    8 ∣ specAzblob.BlobDefaultDownloadBlockSize ∧ 0 < specAzblob.BlobDefaultDownloadBlockSize ∧
    specAzblob.BlobDefaultDownloadBlockSize ≤ specAzblob.BlockBlobMaxStageBlockBytes ∧
    specAzblob.BlockBlobMaxUploadBlobBytes < 16 * MiB * 50000 + 1 ∧
    16 * MiB * 50000 + 1 ≤ MaxBlocksSize specAzblob ∧
    ∃ bs : Int,
      calculateBlockSize specAzblob (16 * MiB * 50000 + 1) = .ok bs ∧
      bs = min (max (8 * ⌈((⌈((16 * MiB * 50000 + 1 : Int) : ℚ) /
                              (specAzblob.BlockBlobMaxBlocks : ℚ)⌉ : Int) : ℚ) / 8⌉)
                  specAzblob.BlobDefaultDownloadBlockSize)
               specAzblob.BlockBlobMaxStageBlockBytes ∧
      8 ∣ bs :=
  ⟨by decide, by decide, by decide, by decide, by decide, by decide, by decide, by decide,
   by decide,
   calculateBlockSize_multi_block_value specAzblob (16 * MiB * 50000 + 1) (by decide)
     (by decide) (by decide) (by decide) (by decide) (by decide) (by decide) (by decide)
     (by decide)⟩

/-- C19: with the constants of the `azblob` library, `calculateBlockSize` returns
4194304, the default download block size of 4 MiB, for the file size 256 MiB + 1, just
above the single-upload limit: the lower clamp is `azblob.BlobDefaultDownloadBlockSize`
and not the 16 MiB the comment in the code names, and the same holds up to
`4 MiB * 50000`, where the clamp stops to apply. -/
theorem calculateBlockSize_clamps_at_download_default :
    calculateBlockSize libAzblob (256 * MiB + 1) = .ok 4194304 ∧
    (4194304 : Int) = libAzblob.BlobDefaultDownloadBlockSize ∧
    (4194304 : Int) < 16 * MiB ∧
    calculateBlockSize libAzblob (4 * MiB * 50000 - 50000) = .ok 4194304 := by
  have h1 := (calculateBlockSize_multi libAzblob (256 * MiB + 1) (by decide) (by decide)
    (by decide) (by decide) (by decide) (by decide)).2.2.2
  have h2 := (calculateBlockSize_multi libAzblob (4 * MiB * 50000 - 50000) (by decide)
    (by decide) (by decide) (by decide) (by decide) (by decide)).2.2.2
  refine ⟨?_, by decide, by decide, ?_⟩
  · rw [h1]
    rfl
  · rw [h2]
    rfl

/-! ## Block ids -/

theorem base64Chars_length (raw : List Byte) :
    (base64Chars raw).length = 4 * ((raw.length + 2) / 3) := by
  induction raw using base64Chars.induct with
  | case1 => rfl
  | case2 a => simp [base64Chars]
  | case3 a b => simp [base64Chars]
  | case4 a b c rest ih =>
    simp only [base64Chars, List.length_cons, ih]
    omega

theorem base64Encode_length (raw : List Byte) :
    (base64Encode raw).length = 4 * ((raw.length + 2) / 3) := by
  unfold base64Encode
  rw [String.length_mk, base64Chars_length]

theorem createNewBlocksLoop_minted (bb : BB) (idl B L : Int) (fuel : Nat) :
    ∀ (i : Int) (bl : List Block) (buf : Int) (bl2 : List Block) (buf2 : Int),
      createNewBlocksLoop bb idl B L fuel i bl buf = some (bl2, buf2) →
      ∃ new : List Block, bl2 = bl ++ new ∧
        ∀ b ∈ new, ∃ k : Nat,
          b.Id = bb.common.EncodeToString (bb.common.NewUUIDWithLength k idl) := by
  induction fuel with
  | zero =>
    intro i bl buf bl2 buf2 h
    unfold createNewBlocksLoop at h
    split_ifs at h
    cases h
    exact ⟨[], by simp, by simp⟩
  | succ fuel ih =>
    intro i bl buf bl2 buf2 h
    unfold createNewBlocksLoop at h
    split_ifs at h
    · obtain ⟨new, hbl, hids⟩ := ih _ _ _ _ _ h
      refine ⟨createBlock bb bl.length idl i (mathMin B (L - i)) :: new, ?_, ?_⟩
      · rw [hbl]; simp
      · intro b hb
        rcases List.mem_cons.1 hb with rfl | hb
        · exact ⟨bl.length, rfl⟩
        · exact hids b hb
    · cases h
      exact ⟨[], by simp, by simp⟩

theorem createNewBlocks_minted (bb : BB) (bol res : BlockOffsetList) (offset length r : Int)
    (hrun : createNewBlocks bb bol offset length = some (res, r)) :
    ∃ new : List Block, res.BlockList = bol.BlockList ++ new ∧
      res.BlockIdLength = bol.BlockIdLength ∧ res.SmallFile = bol.SmallFile ∧
      ∀ b ∈ new, ∃ k : Nat,
        b.Id = bb.common.EncodeToString (bb.common.NewUUIDWithLength k bol.BlockIdLength) := by
  unfold createNewBlocks at hrun
  simp only at hrun
  split at hrun
  · cases hrun
  · split at hrun
    · cases hrun
    · rename_i bl2 buf2 hloop
      obtain ⟨new, hbl, hids⟩ := createNewBlocksLoop_minted bb _ _ _ _ _ _ _ _ _ hloop
      simp only [Option.some.injEq, Prod.mk.injEq] at hrun
      obtain ⟨hres, _⟩ := hrun
      subst hres
      exact ⟨new, hbl, rfl, rfl, hids⟩

/-- C20: with ids encoded by the standard base64 encoding and
`NewUUIDWithLength(n)` returning `n` bytes, every id `createBlock` and
`createNewBlocks` mint for a block map is the base64 encoding of exactly
`BlockIdLength` bytes; all minted ids have the same string length,
`4 * ceil(BlockIdLength / 3)`; that is the length of the first existing id
whenever that id encodes `BlockIdLength` bytes; and in the map `TruncateFile`
builds from a small file, whose first id encodes a 16-byte UUID and whose
`BlockIdLength` is the decoded length 16, every id has 24 characters. -/
theorem minted_ids_equal_length (bb : BB) (bol res : BlockOffsetList)
    (offset length r : Int)
    (hEnc : ∀ raw, bb.common.EncodeToString raw = base64Encode raw)
    (hUUID : ∀ (k : Nat) (n : Int), 0 ≤ n →
      ((bb.common.NewUUIDWithLength k n).length : Int) = n)
    (h0 : 0 ≤ bol.BlockIdLength)
    (hrun : createNewBlocks bb bol offset length = some (res, r)) :
    (∀ (k : Nat) (s sz : Int), ∃ raw : List Byte,
      (createBlock bb k bol.BlockIdLength s sz).Id = base64Encode raw ∧
      (raw.length : Int) = bol.BlockIdLength) ∧
    ∃ new : List Block, res.BlockList = bol.BlockList ++ new ∧
      (∀ b ∈ new, ∃ raw : List Byte,
        b.Id = base64Encode raw ∧ (raw.length : Int) = bol.BlockIdLength) ∧
      (∀ b ∈ new, b.Id.length = 4 * ((bol.BlockIdLength.toNat + 2) / 3)) ∧
      (∀ b ∈ new, ∀ c ∈ new, b.Id.length = c.Id.length) ∧
      (∀ (first : Block) (raw0 : List Byte), bol.BlockList.head? = some first →
        first.Id = base64Encode raw0 → (raw0.length : Int) = bol.BlockIdLength →
        ∀ b ∈ new, b.Id.length = first.Id.length) ∧
      (∀ (data : List Byte) (S : Int), bol = smallFileToBlocks bb smallFileMap data S →
        (bb.common.NewUUID.length : Int) = 16 →
        bb.common.GetIdLength (bb.common.EncodeToString bb.common.NewUUID) = 16 →
        ∀ b ∈ res.BlockList, b.Id.length = 24) := by
  obtain ⟨new, hres, _, _, hids⟩ := createNewBlocks_minted bb bol res offset length r hrun
  have hraw : ∀ b ∈ new, ∃ raw : List Byte,
      b.Id = base64Encode raw ∧ (raw.length : Int) = bol.BlockIdLength := by
    intro b hb
    obtain ⟨k, hk⟩ := hids b hb
    exact ⟨_, by rw [hk, hEnc], hUUID k _ h0⟩
  have hlen : ∀ b ∈ new, b.Id.length = 4 * ((bol.BlockIdLength.toNat + 2) / 3) := by
    intro b hb
    obtain ⟨raw, hid, hrl⟩ := hraw b hb
    rw [hid, base64Encode_length]
    have : raw.length = bol.BlockIdLength.toNat := by omega
    rw [this]
  refine ⟨fun k s sz => ⟨_, by simp only [createBlock]; rw [hEnc], hUUID k _ h0⟩,
    new, hres, hraw, hlen, ?_, ?_, ?_⟩
  · intro b hb c hc
    rw [hlen b hb, hlen c hc]
  · intro first raw0 _ hfid hrl b hb
    rw [hlen b hb, hfid, base64Encode_length]
    have : raw0.length = bol.BlockIdLength.toNat := by omega
    rw [this]
  · intro data S hbol hnew hget b hb
    have hidl : bol.BlockIdLength = 16 := by rw [hbol]; exact hget
    rw [hres] at hb
    rcases List.mem_append.1 hb with h | h
    · rw [hbol] at h
      simp only [smallFileToBlocks, smallFileMap, List.nil_append, List.mem_singleton] at h
      rw [h]
      simp only
      rw [hEnc, base64Encode_length]
      have : bb.common.NewUUID.length = 16 := by omega
      rw [this]
    · rw [hlen b h, hidl]
      rfl

theorem minted_ids_equal_length_witness :
    (∀ raw, specBB.common.EncodeToString raw = base64Encode raw) ∧
    (∀ (k : Nat) (n : Int), 0 ≤ n →
      ((specBB.common.NewUUIDWithLength k n).length : Int) = n) ∧
    0 ≤ convertedMap.BlockIdLength ∧
    createNewBlocks specBB convertedMap 5 7 = some (grownMap, 7) ∧
    (∀ (k : Nat) (s sz : Int), ∃ raw : List Byte,
      (createBlock specBB k convertedMap.BlockIdLength s sz).Id = base64Encode raw ∧
      (raw.length : Int) = convertedMap.BlockIdLength) ∧
    ∃ new : List Block, grownMap.BlockList = convertedMap.BlockList ++ new ∧
      (∀ b ∈ new, ∃ raw : List Byte,
        b.Id = base64Encode raw ∧ (raw.length : Int) = convertedMap.BlockIdLength) ∧
      (∀ b ∈ new, b.Id.length = 4 * ((convertedMap.BlockIdLength.toNat + 2) / 3)) ∧
      (∀ b ∈ new, ∀ c ∈ new, b.Id.length = c.Id.length) ∧
      (∀ (first : Block) (raw0 : List Byte), convertedMap.BlockList.head? = some first →
        first.Id = base64Encode raw0 → (raw0.length : Int) = convertedMap.BlockIdLength →
        ∀ b ∈ new, b.Id.length = first.Id.length) ∧
      (∀ (data : List Byte) (S : Int),
        convertedMap = smallFileToBlocks specBB smallFileMap data S →
        (specBB.common.NewUUID.length : Int) = 16 →
        specBB.common.GetIdLength (specBB.common.EncodeToString specBB.common.NewUUID) = 16 →
        ∀ b ∈ grownMap.BlockList, b.Id.length = 24) :=
  ⟨fun _ => rfl,
   fun k n hn => by
     show ((List.replicate n.toNat (UInt8.ofNat (97 + k))).length : Int) = n
     rw [List.length_replicate]
     omega,
   by decide, by decide,
   minted_ids_equal_length specBB convertedMap grownMap 5 7 7 (fun _ => rfl)
     (fun k n hn => by
       show ((List.replicate n.toNat (UInt8.ofNat (97 + k))).length : Int) = n
       rw [List.length_replicate]
       omega)
     (by decide) (by decide)⟩

theorem append_slash_eq_iff (s P : String) (h : P.data.getLast? = some '/') :
    s ++ "/" = P ↔ s = trimSlash P := by
  obtain ⟨pd⟩ := P
  obtain ⟨sd⟩ := s
  simp only at h
  obtain ⟨init, rfl⟩ : ∃ init, pd = init ++ ['/'] := by
    rcases List.eq_nil_or_concat pd with rfl | ⟨init, c, rfl⟩
    · simp at h
    · rw [List.concat_eq_append, List.getLast?_append] at h
      simp at h
      exact ⟨init, by rw [h]; simp⟩
  have htrim : trimSlash ⟨init ++ ['/']⟩ = ⟨init⟩ := by
    simp [trimSlash]
  rw [htrim]
  constructor
  · intro heq
    have : sd ++ ['/'] = init ++ ['/'] := by
      have := congrArg String.data heq
      simpa using this
    rw [List.append_left_inj] at this
    rw [this]
  · intro heq
    cases heq
    rfl

theorem listBlobItems_spec (ops : PathOps) (items : List BlobItem) :
    ∀ (blobList : List ObjAttr) (dirList : List String),
      listBlobItems ops items blobList dirList =
        (blobList ++ items.map (blobEntry ops),
         dirList ++ (items.filter (fun b => ops.metaIsDir b.Metadata)).map
           (fun b => b.Name ++ "/")) := by
  induction items with
  | nil => intro blobList dirList; simp [listBlobItems]
  | cons b rest ih =>
    intro blobList dirList
    unfold listBlobItems
    cases hd : ops.metaIsDir b.Metadata
    · simp [hd, ih, blobEntry]
    · simp [hd, ih, blobEntry]

theorem listBlobPrefixes_spec (ops : PathOps) (dirList : List String)
    (names : List String) :
    ∀ blobList : List ObjAttr,
      listBlobPrefixes ops dirList names blobList =
        blobList ++ (names.filter (fun n => !(dirList.contains n))).map (prefixEntry ops) := by
  induction names with
  | nil => intro blobList; simp [listBlobPrefixes]
  | cons n rest ih =>
    intro blobList
    unfold listBlobPrefixes
    cases hc : dirList.contains n
    · simp only [hc, Bool.not_false, if_true, ih, List.filter_cons, List.map_cons,
        List.append_assoc, List.singleton_append, Bool.not_eq_true, prefixEntry]
    · simp only [hc, Bool.not_true, ih, List.filter_cons]
      simp

theorem mem_markerNames_iff (ops : PathOps) (seg : Segment) (P : String)
    (h : P.data.getLast? = some '/') :
    ((seg.BlobItems.filter (fun b => ops.metaIsDir b.Metadata)).map
        (fun b => b.Name ++ "/")).contains P = hasMarker ops seg P := by
  rw [Bool.eq_iff_iff]
  simp only [List.contains_iff_exists_mem_beq, beq_iff_eq, exists_eq_right', List.mem_map,
    List.mem_filter, hasMarker, List.any_eq_true, Bool.and_eq_true, decide_eq_true_eq]
  constructor
  · rintro ⟨b, ⟨hb, hd⟩, heq⟩
    exact ⟨b, hb, hd, (append_slash_eq_iff b.Name P h).1 heq⟩
  · rintro ⟨b, hb, hd, heq⟩
    exact ⟨b, ⟨hb, hd⟩, (append_slash_eq_iff b.Name P h).2 heq⟩

/-- C21: a successful `List` returns one entry per blob of the segment, of size 4096
when the blob is a directory marker and of the blob's content length otherwise, then
one directory entry (size 4096, mode `os.ModeDir`) per common prefix that has no
marker blob in the segment, together with the segment's next marker and no error. -/
theorem List_entries_of_segment (ops : PathOps) (seg : Segment)
    (hslash : ∀ P ∈ seg.BlobPrefixes, P.data.getLast? = some '/') :
    ListEntries ops (.ok seg) =
      (seg.BlobItems.map (blobEntry ops) ++
         (seg.BlobPrefixes.filter (fun P => !(hasMarker ops seg P))).map (prefixEntry ops),
       seg.NextMarker, none) ∧
    (∀ b : BlobItem, (blobEntry ops b).Size =
        if ops.metaIsDir b.Metadata then 4096 else b.ContentLength) ∧
    (∀ P : String, (prefixEntry ops P).Size = 4096 ∧ (prefixEntry ops P).Mode = ModeDir ∧
        (prefixEntry ops P).IsDir = true ∧
        (prefixEntry ops P).Path = ops.split (trimSlash P)) := by
  refine ⟨?_, fun b => rfl, fun P => ⟨rfl, rfl, rfl, rfl⟩⟩
  simp only [ListEntries, listBlobItems_spec, listBlobPrefixes_spec, List.nil_append]
  congr 3
  apply List.filter_congr
  intro P hP
  rw [mem_markerNames_iff ops seg P (hslash P hP)]

/-- Witness of C21 on the example segment: the marked prefix gets no second entry. -/
theorem List_entries_of_segment_witness :
    (∀ P ∈ exampleSegment.BlobPrefixes, P.data.getLast? = some '/') ∧
    ListEntries examplePathOps (.ok exampleSegment) =
      (exampleSegment.BlobItems.map (blobEntry examplePathOps) ++
         (exampleSegment.BlobPrefixes.filter
            (fun P => !(hasMarker examplePathOps exampleSegment P))).map
           (prefixEntry examplePathOps),
       exampleSegment.NextMarker, none) :=
  ⟨by decide, (List_entries_of_segment examplePathOps exampleSegment (by decide)).1⟩

/-! ## Looking an entry up by listing: `getAttrUsingList` -/

theorem failRuns_append_single (calls : List ListCall) (c : ListCall) :
    failRuns (calls ++ [c]) =
      if c.failed then ((failRuns calls).1 + 1, max (failRuns calls).2 ((failRuns calls).1 + 1))
      else (0, (failRuns calls).2) := by
  simp [failRuns, List.foldl_append]

theorem getAttrUsingListLoop_done (ops : PathOps) (name : String)
    (answers : List (Except StoreError Segment)) (failCount : Nat) (marker : Option String)
    (calls : List ListCall) (h : ¬ failCount < maxFailCount) :
    getAttrUsingListLoop ops name answers failCount marker calls =
      (calls, some (.error Error.ENOENT)) := by
  cases answers <;> simp [getAttrUsingListLoop, h, getAttrAfterLoop]

theorem getAttrUsingListLoop_failRuns (ops : PathOps) (name : String) :
    ∀ (answers : List (Except StoreError Segment)) (failCount : Nat) (marker : Option String)
      (calls : List ListCall),
      (failRuns calls).1 ≤ failCount → failCount ≤ maxFailCount →
      (failRuns calls).2 ≤ maxFailCount →
      (failRuns (getAttrUsingListLoop ops name answers failCount marker calls).1).2
        ≤ maxFailCount := by
  intro answers
  induction answers with
  | nil =>
    intro failCount marker calls _ _ h2
    unfold getAttrUsingListLoop
    split <;> exact h2
  | cons resp rest ih =>
    intro failCount marker calls h1 hle h2
    by_cases hlt : failCount < maxFailCount
    · have hfail : (failRuns (calls ++ [{ marker := marker, failed := true }])).2
          ≤ maxFailCount := by
        rw [failRuns_append_single]
        simp only [if_true]
        exact max_le h2 (by omega)
      have hok : (failRuns (calls ++ [{ marker := marker, failed := false }])).2
          ≤ maxFailCount := by
        rw [failRuns_append_single]
        simpa using h2
      unfold getAttrUsingListLoop
      rw [if_pos hlt]
      cases resp with
      | error err =>
        cases err with
        | ErrFileNotFound => simpa [ListEntries] using hfail
        | InvalidPermission => simpa [ListEntries] using hfail
        | other code =>
          simp only [ListEntries]
          apply ih (failCount + 1) marker _ _ (by omega) hfail
          rw [failRuns_append_single]
          simp only [if_true]
          omega
      | ok seg =>
        simp only [ListEntries]
        split
        · exact hok
        · split
          · exact hok
          · apply ih 0 _ _ _ (Nat.zero_le _) hok
            rw [failRuns_append_single]
            simp
    · rw [getAttrUsingListLoop_done ops name _ _ _ _ hlt]
      exact h2

theorem getAttrUsingListLoop_error_kind (ops : PathOps) (name : String) :
    ∀ (answers : List (Except StoreError Segment)) (failCount : Nat) (marker : Option String)
      (calls : List ListCall) (e : Error),
      (getAttrUsingListLoop ops name answers failCount marker calls).2 = some (.error e) →
      e = Error.ENOENT ∨ e = Error.EPERM := by
  intro answers
  induction answers with
  | nil =>
    intro failCount marker calls e h
    unfold getAttrUsingListLoop at h
    split at h
    · simp at h
    · simp only [getAttrAfterLoop, Option.some.injEq, Except.error.injEq] at h
      exact Or.inl h.symm
  | cons resp rest ih =>
    intro failCount marker calls e h
    by_cases hlt : failCount < maxFailCount
    · unfold getAttrUsingListLoop at h
      rw [if_pos hlt] at h
      cases resp with
      | error err =>
        cases err with
        | ErrFileNotFound =>
          simp only [ListEntries, Option.some.injEq, Except.error.injEq] at h
          exact Or.inl h.symm
        | InvalidPermission =>
          simp only [ListEntries, Option.some.injEq, Except.error.injEq] at h
          exact Or.inr h.symm
        | other code =>
          simp only [ListEntries] at h
          exact ih _ _ _ e h
      | ok seg =>
        simp only [ListEntries] at h
        split at h
        · simp at h
        · split at h
          · simp only [getAttrAfterLoop, Option.some.injEq, Except.error.injEq] at h
            exact Or.inl h.symm
          · exact ih _ _ _ e h
    · rw [getAttrUsingListLoop_done ops name _ _ _ _ hlt] at h
      simp only [Option.some.injEq, Except.error.injEq] at h
      exact Or.inl h.symm

theorem getAttrUsingListLoop_fails (ops : PathOps) (name : String)
    (rest : List (Except StoreError Segment)) :
    ∀ (fails : List (Except StoreError Segment)) (failCount : Nat) (marker : Option String)
      (calls : List ListCall),
      failCount + fails.length = maxFailCount →
      (∀ r ∈ fails, ∃ code, r = .error (StoreError.other code)) →
      getAttrUsingListLoop ops name (fails ++ rest) failCount marker calls =
        (calls ++ fails.map (fun _ => { marker := marker, failed := true }),
         some (.error Error.ENOENT)) := by
  intro fails
  induction fails with
  | nil =>
    intro failCount marker calls hlen _
    simp only [List.length_nil, Nat.add_zero] at hlen
    rw [List.nil_append, getAttrUsingListLoop_done ops name _ _ _ _ (by omega)]
    simp
  | cons r fails ih =>
    intro failCount marker calls hlen hall
    obtain ⟨code, rfl⟩ := hall r (List.mem_cons_self _ _)
    simp only [List.length_cons] at hlen
    have hlt : failCount < maxFailCount := by omega
    rw [List.cons_append]
    unfold getAttrUsingListLoop
    rw [if_pos hlt]
    simp only [ListEntries]
    rw [ih (failCount + 1) marker _ (by omega)
      (fun r hr => hall r (List.mem_cons_of_mem _ hr))]
    simp

/-- One round of the loop of `getAttrUsingList` while fewer than `maxFailCount` list
calls have failed in a row, for each kind of answer. -/
theorem getAttrUsingListLoop_step (ops : PathOps) (name : String)
    (rest : List (Except StoreError Segment)) (failCount : Nat) (marker : Option String)
    (calls : List ListCall) (h : failCount < maxFailCount) :
    getAttrUsingListLoop ops name (.error StoreError.ErrFileNotFound :: rest) failCount
        marker calls =
      (calls ++ [{ marker := marker, failed := true }], some (.error Error.ENOENT)) ∧
    getAttrUsingListLoop ops name (.error StoreError.InvalidPermission :: rest) failCount
        marker calls =
      (calls ++ [{ marker := marker, failed := true }], some (.error Error.EPERM)) ∧
    (∀ code : Nat,
      getAttrUsingListLoop ops name (.error (StoreError.other code) :: rest) failCount
          marker calls =
        getAttrUsingListLoop ops name rest (failCount + 1) marker
          (calls ++ [{ marker := marker, failed := true }])) ∧
    (∀ (seg : Segment) (next : String),
      (ListEntries ops (.ok seg)).1.find? (fun blob => blob.Path = name) = none →
      seg.NextMarker = some next → next ≠ "" →
      getAttrUsingListLoop ops name (.ok seg :: rest) failCount marker calls =
        getAttrUsingListLoop ops name rest 0 (some next)
          (calls ++ [{ marker := marker, failed := false }])) := by
  refine ⟨?_, ?_, ?_, ?_⟩
  · unfold getAttrUsingListLoop
    simp [h, ListEntries]
  · unfold getAttrUsingListLoop
    simp [h, ListEntries]
  · intro code
    conv_lhs => unfold getAttrUsingListLoop
    simp [h, ListEntries]
  · intro seg next hfind hnext hne
    conv_lhs => unfold getAttrUsingListLoop
    simp only [ListEntries] at hfind
    simp only [h, if_true, ListEntries, hfind, hnext]
    rw [if_neg]
    simp [hne, maxFailCount]

/-! ## The retries of `getAttrUsingList`, from the first call on -/

theorem getAttrUsingListLoop_returned (ops : PathOps) (name : String)
    (rest : List (Except StoreError Segment)) :
    ∀ (pre : List (Except StoreError Segment)) (failCount : Nat) (marker : Option String)
      (calls out : List ListCall) (r : Except Error ObjAttr),
      getAttrUsingListLoop ops name pre failCount marker calls = (out, some r) →
      getAttrUsingListLoop ops name (pre ++ rest) failCount marker calls = (out, some r) := by
  intro pre
  induction pre with
  | nil =>
    intro failCount marker calls out r h
    by_cases hlt : failCount < maxFailCount
    · simp [getAttrUsingListLoop, hlt] at h
    · rw [getAttrUsingListLoop_done ops name _ _ _ _ hlt] at h
      rw [List.nil_append, getAttrUsingListLoop_done ops name _ _ _ _ hlt]
      exact h
  | cons resp pre ih =>
    intro failCount marker calls out r h
    by_cases hlt : failCount < maxFailCount
    · rw [List.cons_append]
      unfold getAttrUsingListLoop at h ⊢
      rw [if_pos hlt] at h ⊢
      cases resp with
      | error err =>
        cases err with
        | ErrFileNotFound => simpa [ListEntries] using h
        | InvalidPermission => simpa [ListEntries] using h
        | other code =>
          simp only [ListEntries] at h ⊢
          exact ih _ _ _ _ _ h
      | ok seg =>
        simp only [ListEntries] at h ⊢
        split
        · rename_i blob hfind
          rw [hfind] at h
          exact h
        · rename_i hfind
          rw [hfind] at h
          simp only at h
          split
          · rename_i hdone
            rw [if_pos hdone] at h
            exact h
          · rename_i hdone
            rw [if_neg hdone] at h
            exact ih _ _ _ _ _ h
    · rw [getAttrUsingListLoop_done ops name _ _ _ _ hlt] at h
      rw [getAttrUsingListLoop_done ops name _ _ _ _ hlt]
      exact h

theorem getAttrUsingListLoop_running (ops : PathOps) (name : String) :
    ∀ (pre : List (Except StoreError Segment)) (failCount : Nat) (marker : Option String)
      (calls : List ListCall),
      (getAttrUsingListLoop ops name pre failCount marker calls).2 = none →
      ∃ (failCount1 : Nat) (marker1 : Option String), failCount1 < maxFailCount ∧
        ∀ rest : List (Except StoreError Segment),
          getAttrUsingListLoop ops name (pre ++ rest) failCount marker calls =
            getAttrUsingListLoop ops name rest failCount1 marker1
              (getAttrUsingListLoop ops name pre failCount marker calls).1 := by
  intro pre
  induction pre with
  | nil =>
    intro failCount marker calls h
    by_cases hlt : failCount < maxFailCount
    · refine ⟨failCount, marker, hlt, fun rest => ?_⟩
      simp [getAttrUsingListLoop, hlt]
    · rw [getAttrUsingListLoop_done ops name _ _ _ _ hlt] at h
      simp at h
  | cons resp pre ih =>
    intro failCount marker calls h
    by_cases hlt : failCount < maxFailCount
    · have hunf : ∀ rest : List (Except StoreError Segment),
          getAttrUsingListLoop ops name (resp :: rest) failCount marker calls =
            match ListEntries ops resp with
            | (_, _, some err) =>
              match err with
              | StoreError.ErrFileNotFound =>
                (calls ++ [{ marker := marker, failed := true }], some (.error Error.ENOENT))
              | StoreError.InvalidPermission =>
                (calls ++ [{ marker := marker, failed := true }], some (.error Error.EPERM))
              | StoreError.other _ =>
                getAttrUsingListLoop ops name rest (failCount + 1) marker
                  (calls ++ [{ marker := marker, failed := true }])
            | (blobs, new_marker, none) =>
              match blobs.find? (fun blob => blob.Path = name) with
              | some blob =>
                (calls ++ [{ marker := marker, failed := false }], some (.ok blob))
              | none =>
                if new_marker = none ∨ new_marker = some "" ∨ 0 ≥ maxFailCount then
                  (calls ++ [{ marker := marker, failed := false }],
                    some (getAttrAfterLoop none))
                else
                  getAttrUsingListLoop ops name rest 0 new_marker
                    (calls ++ [{ marker := marker, failed := false }]) := by
        intro rest
        conv_lhs => unfold getAttrUsingListLoop
        rw [if_pos hlt]
      rw [hunf] at h
      cases resp with
      | error err =>
        cases err with
        | ErrFileNotFound => simp [ListEntries] at h
        | InvalidPermission => simp [ListEntries] at h
        | other code =>
          simp only [ListEntries] at h
          obtain ⟨f1, m1, hf1, hrest⟩ := ih _ _ _ h
          refine ⟨f1, m1, hf1, fun rest => ?_⟩
          rw [List.cons_append, hunf, hunf]
          simp only [ListEntries]
          exact hrest rest
      | ok seg =>
        simp only [ListEntries] at h
        split at h
        · simp at h
        · rename_i hfind
          split at h
          · simp at h
          · rename_i hdone
            obtain ⟨f1, m1, hf1, hrest⟩ := ih _ _ _ h
            refine ⟨f1, m1, hf1, fun rest => ?_⟩
            rw [List.cons_append, hunf, hunf]
            simp only [ListEntries, hfind, if_neg hdone]
            exact hrest rest
    · rw [getAttrUsingListLoop_done ops name _ _ _ _ hlt] at h
      simp at h

theorem getAttrUsingListLoop_nil_calls (ops : PathOps) (name : String) (failCount : Nat)
    (marker : Option String) (calls : List ListCall) :
    (getAttrUsingListLoop ops name [] failCount marker calls).1 = calls := by
  unfold getAttrUsingListLoop
  split <;> rfl

theorem getAttrUsingListLoop_one_call (ops : PathOps) (name : String)
    (answer : Except StoreError Segment) (failCount : Nat) (marker : Option String)
    (calls : List ListCall) (h : failCount < maxFailCount) :
    ∃ failed : Bool,
      (getAttrUsingListLoop ops name [answer] failCount marker calls).1 =
        calls ++ [{ marker := marker, failed := failed }] := by
  unfold getAttrUsingListLoop
  rw [if_pos h]
  cases answer with
  | error err =>
    cases err with
    | ErrFileNotFound => exact ⟨true, by simp [ListEntries]⟩
    | InvalidPermission => exact ⟨true, by simp [ListEntries]⟩
    | other code =>
      refine ⟨true, ?_⟩
      simp only [ListEntries]
      exact getAttrUsingListLoop_nil_calls ops name _ _ _
  | ok seg =>
    refine ⟨false, ?_⟩
    simp only [ListEntries]
    split
    · rfl
    · split
      · rfl
      · exact getAttrUsingListLoop_nil_calls ops name _ _ _

theorem getAttrUsingListLoop_fails_go_on (ops : PathOps) (name : String)
    (rest : List (Except StoreError Segment)) :
    ∀ (fails : List (Except StoreError Segment)) (failCount : Nat) (marker : Option String)
      (calls : List ListCall),
      failCount + fails.length ≤ maxFailCount →
      (∀ r ∈ fails, ∃ code, r = .error (StoreError.other code)) →
      getAttrUsingListLoop ops name (fails ++ rest) failCount marker calls =
        getAttrUsingListLoop ops name rest (failCount + fails.length) marker
          (calls ++ fails.map (fun _ => { marker := marker, failed := true })) := by
  intro fails
  induction fails with
  | nil => intro failCount marker calls _ _; simp
  | cons r fails ih =>
    intro failCount marker calls hlen hall
    obtain ⟨code, rfl⟩ := hall r (List.mem_cons_self _ _)
    simp only [List.length_cons] at hlen
    have hlt : failCount < maxFailCount := by omega
    rw [List.cons_append,
      ((getAttrUsingListLoop_step ops name (fails ++ rest) failCount marker calls hlt).2.2.1
        code),
      ih (failCount + 1) marker _ (by omega) (fun r hr => hall r (List.mem_cons_of_mem _ hr))]
    simp only [List.length_cons, List.map_cons, List.append_assoc, List.singleton_append]
    congr 1
    omega

theorem getAttrUsingListLoop_ok_goes_on (ops : PathOps) (name : String) (seg : Segment)
    (failCount : Nat) (marker : Option String) (calls : List ListCall)
    (h : failCount < maxFailCount)
    (hrun : (getAttrUsingListLoop ops name [.ok seg] failCount marker calls).2 = none) :
    ∀ rest : List (Except StoreError Segment),
      getAttrUsingListLoop ops name (.ok seg :: rest) failCount marker calls =
        getAttrUsingListLoop ops name rest 0 seg.NextMarker
          (calls ++ [{ marker := marker, failed := false }]) := by
  intro rest
  unfold getAttrUsingListLoop at hrun
  rw [if_pos h] at hrun
  simp only [ListEntries] at hrun
  conv_lhs => unfold getAttrUsingListLoop
  rw [if_pos h]
  simp only [ListEntries]
  split at hrun
  · simp at hrun
  · rename_i hfind
    split at hrun
    · simp at hrun
    · rename_i hdone
      simp only [hfind, if_neg hdone]

theorem getAttrUsingListLoop_nil_running (ops : PathOps) (name : String) (failCount : Nat)
    (marker : Option String) (calls : List ListCall) (h : failCount < maxFailCount) :
    getAttrUsingListLoop ops name [] failCount marker calls = (calls, none) := by
  unfold getAttrUsingListLoop
  rw [if_pos h]

/-- C22: let `getAttrUsingList` still be running after the answers `pre` to its list
calls.  If the next list call fails with not-found the function returns ENOENT after
that one call, whatever answers would follow, and with permission denied it returns
EPERM.  After any other failure that leaves it running, the next list call is made on
the same marker as the failed one.  After a successful call that leaves it running the
failure count starts again: up to 19 further failures in a row leave it running, all
retried on the marker the successful call returned, and the twentieth ends it.  On
every sequence of answers at most `maxFailCount` = 20 list calls in a row fail. -/
theorem getAttrUsingList_retry_policy (ops : PathOps) (name : String)
    (pre rest : List (Except StoreError Segment))
    (hrun : (getAttrUsingList ops name pre).2 = none) :
    (∃ marker : Option String,
      getAttrUsingList ops name (pre ++ .error StoreError.ErrFileNotFound :: rest) =
        ((getAttrUsingList ops name pre).1 ++ [{ marker := marker, failed := true }],
         some (.error Error.ENOENT))) ∧
    (∃ marker : Option String,
      getAttrUsingList ops name (pre ++ .error StoreError.InvalidPermission :: rest) =
        ((getAttrUsingList ops name pre).1 ++ [{ marker := marker, failed := true }],
         some (.error Error.EPERM))) ∧
    (∀ (code : Nat) (answer : Except StoreError Segment),
      (getAttrUsingList ops name (pre ++ [.error (StoreError.other code)])).2 = none →
      ∃ (marker : Option String) (failed : Bool),
        (getAttrUsingList ops name (pre ++ [.error (StoreError.other code), answer])).1 =
          (getAttrUsingList ops name pre).1 ++
            [{ marker := marker, failed := true }, { marker := marker, failed := failed }]) ∧
    (∀ (seg : Segment) (fails : List (Except StoreError Segment)),
      (getAttrUsingList ops name (pre ++ [.ok seg])).2 = none →
      (∀ r ∈ fails, ∃ code, r = .error (StoreError.other code)) →
      (fails.length < maxFailCount →
        getAttrUsingList ops name (pre ++ .ok seg :: fails) =
          ((getAttrUsingList ops name (pre ++ [.ok seg])).1 ++
             fails.map (fun _ => { marker := seg.NextMarker, failed := true }),
           none)) ∧
      (fails.length = maxFailCount →
        getAttrUsingList ops name (pre ++ .ok seg :: (fails ++ rest)) =
          ((getAttrUsingList ops name (pre ++ [.ok seg])).1 ++
             fails.map (fun _ => { marker := seg.NextMarker, failed := true }),
           some (.error Error.ENOENT)))) ∧
    (∀ answers : List (Except StoreError Segment),
      maxFailRun (getAttrUsingList ops name answers).1 ≤ maxFailCount) ∧
    maxFailCount = 20 := by
  unfold getAttrUsingList at hrun ⊢
  obtain ⟨f1, m1, hf1, hsplit⟩ := getAttrUsingListLoop_running ops name pre 0 none [] hrun
  refine ⟨⟨m1, ?_⟩, ⟨m1, ?_⟩, ?_, ?_, ?_, rfl⟩
  · rw [hsplit, (getAttrUsingListLoop_step ops name rest f1 m1 _ hf1).1]
  · rw [hsplit, (getAttrUsingListLoop_step ops name rest f1 m1 _ hf1).2.1]
  · intro code answer hrun2
    rw [hsplit, (getAttrUsingListLoop_step ops name [] f1 m1 _ hf1).2.2.1 code] at hrun2
    have hf2 : f1 + 1 < maxFailCount := by
      by_contra hge
      rw [getAttrUsingListLoop_done ops name _ _ _ _ hge] at hrun2
      simp at hrun2
    obtain ⟨failed, hcall⟩ := getAttrUsingListLoop_one_call ops name answer (f1 + 1) m1
      ((getAttrUsingListLoop ops name pre 0 none []).1 ++ [{ marker := m1, failed := true }])
      hf2
    refine ⟨m1, failed, ?_⟩
    rw [hsplit, (getAttrUsingListLoop_step ops name [answer] f1 m1 _ hf1).2.2.1 code, hcall]
    simp
  · intro seg fails hrun2 hall
    rw [hsplit] at hrun2
    have hgo := getAttrUsingListLoop_ok_goes_on ops name seg f1 m1 _ hf1 hrun2
    have hcalls : (getAttrUsingListLoop ops name (pre ++ [.ok seg]) 0 none []).1 =
        (getAttrUsingListLoop ops name pre 0 none []).1 ++
          [{ marker := m1, failed := false }] := by
      rw [hsplit, hgo []]
      exact getAttrUsingListLoop_nil_calls ops name _ _ _
    constructor
    · intro hlen
      have := getAttrUsingListLoop_fails_go_on ops name [] fails 0 seg.NextMarker
        ((getAttrUsingListLoop ops name pre 0 none []).1 ++ [{ marker := m1, failed := false }])
        (by omega) hall
      rw [List.append_nil] at this
      rw [hsplit, hgo, this, hcalls,
        getAttrUsingListLoop_nil_running ops name _ _ _ (by omega)]
    · intro hlen
      rw [hsplit, hgo, hcalls]
      exact getAttrUsingListLoop_fails ops name rest fails 0 seg.NextMarker _ (by omega) hall
  · intro answers
    exact getAttrUsingListLoop_failRuns ops name answers 0 none [] (Nat.le_refl _)
      (Nat.zero_le _) (Nat.zero_le _)

/-- Witness of C22: after a failure, a successful call that goes on at the marker `m1`
and another failure, the function is still running and a not-found answer ends it. -/
theorem getAttrUsingList_retry_policy_witness :
    (getAttrUsingList examplePathOps "a/none"
      [.error (StoreError.other 5), .ok { exampleSegment with NextMarker := some "m1" },
       .error (StoreError.other 6)]).2 = none ∧
    ∃ marker : Option String,
      getAttrUsingList examplePathOps "a/none"
          ([.error (StoreError.other 5), .ok { exampleSegment with NextMarker := some "m1" },
            .error (StoreError.other 6)] ++
           .error StoreError.ErrFileNotFound :: [.ok exampleSegment]) =
        ((getAttrUsingList examplePathOps "a/none"
            [.error (StoreError.other 5), .ok { exampleSegment with NextMarker := some "m1" },
             .error (StoreError.other 6)]).1 ++ [{ marker := marker, failed := true }],
         some (.error Error.ENOENT)) :=
  ⟨rfl,
   (getAttrUsingList_retry_policy examplePathOps "a/none"
      [.error (StoreError.other 5), .ok { exampleSegment with NextMarker := some "m1" },
       .error (StoreError.other 6)]
      [.ok exampleSegment] rfl).1⟩

/-- C27: twenty list failures in a row that are neither not-found nor permission
denied end `getAttrUsingList` with ENOENT after exactly those twenty calls, whatever
answers would follow, and every error the function returns is ENOENT or EPERM: the
error of a failed list call is never returned. -/
theorem getAttrUsingList_error_is_ENOENT_or_EPERM (ops : PathOps) (name : String)
    (fails rest : List (Except StoreError Segment))
    (hlen : fails.length = maxFailCount)
    (hall : ∀ r ∈ fails, ∃ code, r = .error (StoreError.other code)) :
    getAttrUsingList ops name (fails ++ rest) =
      (fails.map (fun _ => { marker := none, failed := true }),
       some (.error Error.ENOENT)) ∧
    (∀ (answers : List (Except StoreError Segment)) (e : Error),
      (getAttrUsingList ops name answers).2 = some (.error e) →
      e = Error.ENOENT ∨ e = Error.EPERM) := by
  constructor
  · unfold getAttrUsingList
    rw [getAttrUsingListLoop_fails ops name rest fails 0 none [] (by omega) hall]
    simp
  · intro answers e he
    exact getAttrUsingListLoop_error_kind ops name answers 0 none [] e he

/-- Witness of C27: twenty times the same failure with code 5. -/
theorem getAttrUsingList_error_is_ENOENT_or_EPERM_witness :
    (List.replicate 20 (Except.error (StoreError.other 5) : Except StoreError Segment)).length
      = maxFailCount ∧
    getAttrUsingList examplePathOps "a/file"
        (List.replicate 20 (Except.error (StoreError.other 5)) ++ [.ok exampleSegment]) =
      ((List.replicate 20 (Except.error (StoreError.other 5) :
          Except StoreError Segment)).map (fun _ => { marker := none, failed := true }),
       some (.error Error.ENOENT)) :=
  ⟨rfl,
   (getAttrUsingList_error_is_ENOENT_or_EPERM examplePathOps "a/file"
      (List.replicate 20 (Except.error (StoreError.other 5))) [.ok exampleSegment] rfl
      (fun _ hr => ⟨5, List.eq_of_mem_replicate hr⟩)).1⟩

/-! ## Directory operations and rename -/

theorem deleteChildren_spec (ops : PathOps) (delete : String → DeleteAnswer)
    (items : List BlobItem) :
    ∀ calls : List DirCall,
      deleteChildren ops delete items calls =
        calls ++ items.map (fun b => DirCall.delete (ops.split b.Name)) := by
  induction items with
  | nil => intro calls; simp [deleteChildren]
  | cons b rest ih => intro calls; simp [deleteChildren, ih]

theorem renameChildren_spec (ops : PathOps) (rename : String → String → Option Error)
    (source target : String) (items : List BlobItem) :
    ∀ calls : List DirCall,
      renameChildren ops rename source target items calls =
        calls ++ items.map (fun b =>
          DirCall.rename (ops.split b.Name) (ops.replaceFirst (ops.split b.Name) source target)) := by
  induction items with
  | nil => intro calls; simp [renameChildren]
  | cons b rest ih => intro calls; simp [renameChildren, ih]

theorem DeleteDirectoryLoop_done (ops : PathOps) (delete : String → DeleteAnswer)
    (name : String) (answers : List (Except Nat Segment)) (marker : Option String)
    (calls : List DirCall) (h : NotDone marker = false) :
    DeleteDirectoryLoop ops delete name answers marker calls =
      (calls ++ [DirCall.delete name], some (DeleteFile (delete name))) := by
  cases answers <;> simp [DeleteDirectoryLoop, h]

theorem RenameDirectoryLoop_done (ops : PathOps) (rename : String → String → Option Error)
    (source target : String) (answers : List (Except Nat Segment)) (marker : Option String)
    (calls : List DirCall) (h : NotDone marker = false) :
    RenameDirectoryLoop ops rename source target answers marker calls =
      (calls ++ [DirCall.rename source target], some (rename source target)) := by
  cases answers <;> simp [RenameDirectoryLoop, h]

theorem DeleteDirectoryLoop_walk (ops : PathOps) (delete : String → DeleteAnswer)
    (name : String) (tail : List (Except Nat Segment)) (more : List Segment) :
    ∀ (segs : List Segment) (marker : Option String) (calls : List DirCall),
      NotDone marker = true → (∀ s ∈ segs, NotDone s.NextMarker = true) →
      ∃ m, NotDone m = true ∧
        DeleteDirectoryLoop ops delete name (segs.map .ok ++ tail) marker calls =
          DeleteDirectoryLoop ops delete name tail m
            (calls ++ walkCalls DirCall.delete ops marker segs) ∧
        walkCalls DirCall.delete ops marker (segs ++ more) =
          walkCalls DirCall.delete ops marker segs ++ walkCalls DirCall.delete ops m more := by
  intro segs
  induction segs with
  | nil =>
    intro marker calls hm _
    refine ⟨marker, hm, by simp [walkCalls], ?_⟩
    cases more <;> simp [walkCalls]
  | cons s segs ih =>
    intro marker calls hm hall
    obtain ⟨m, hm2, hloop, hwalk⟩ := ih s.NextMarker
      (deleteChildren ops delete s.BlobItems (calls ++ [DirCall.list marker]))
      (hall s (List.mem_cons_self _ _)) (fun t ht => hall t (List.mem_cons_of_mem _ ht))
    refine ⟨m, hm2, ?_, ?_⟩
    · rw [List.map_cons, List.cons_append]
      conv_lhs => unfold DeleteDirectoryLoop
      simp only [hm, if_true]
      rw [hloop, deleteChildren_spec]
      simp [walkCalls]
    · simp [walkCalls, hwalk]

theorem RenameDirectoryLoop_walk (ops : PathOps) (rename : String → String → Option Error)
    (source target : String) (tail : List (Except Nat Segment)) (more : List Segment) :
    ∀ (segs : List Segment) (marker : Option String) (calls : List DirCall),
      NotDone marker = true → (∀ s ∈ segs, NotDone s.NextMarker = true) →
      ∃ m, NotDone m = true ∧
        RenameDirectoryLoop ops rename source target (segs.map .ok ++ tail) marker calls =
          RenameDirectoryLoop ops rename source target tail m
            (calls ++ walkCalls
              (fun src => DirCall.rename src (ops.replaceFirst src source target)) ops marker segs) ∧
        walkCalls (fun src => DirCall.rename src (ops.replaceFirst src source target)) ops marker
            (segs ++ more) =
          walkCalls (fun src => DirCall.rename src (ops.replaceFirst src source target)) ops marker
              segs ++
            walkCalls (fun src => DirCall.rename src (ops.replaceFirst src source target)) ops m
              more := by
  intro segs
  induction segs with
  | nil =>
    intro marker calls hm _
    refine ⟨marker, hm, by simp [walkCalls], ?_⟩
    cases more <;> simp [walkCalls]
  | cons s segs ih =>
    intro marker calls hm hall
    obtain ⟨m, hm2, hloop, hwalk⟩ := ih s.NextMarker
      (renameChildren ops rename source target s.BlobItems (calls ++ [DirCall.list marker]))
      (hall s (List.mem_cons_self _ _)) (fun t ht => hall t (List.mem_cons_of_mem _ ht))
    refine ⟨m, hm2, ?_, ?_⟩
    · rw [List.map_cons, List.cons_append]
      conv_lhs => unfold RenameDirectoryLoop
      simp only [hm, if_true]
      rw [hloop, renameChildren_spec]
      simp [walkCalls]
    · simp [walkCalls, hwalk]

/-- C23, counterexample: in the directory `d` the delete of the child `d/a` fails with
EIO (and the rename of `d/a` fails), the other child is still processed, and
`DeleteDirectory` (`RenameDirectory`) returns nil, success, because the final operation
on `d` itself succeeds. -/
theorem directory_ops_drop_child_errors :
    DeleteFile (leasedDelete "d/a") = some Error.EIO ∧
    DeleteDirectory examplePathOps leasedDelete "d" [.ok dirSegment] =
      ([DirCall.list none, DirCall.delete "d/a", DirCall.delete "d/b", DirCall.delete "d"],
       some none) ∧
    failingRename "d/a" "e/a" = some (Error.other 9) ∧
    RenameDirectory examplePathOps failingRename "d" "e" [.ok dirSegment] =
      ([DirCall.list none, DirCall.rename "d/a" "e/a", DirCall.rename "d/b" "e/b",
        DirCall.rename "d" "e"],
       some none) := by
  refine ⟨rfl, ?_, rfl, ?_⟩ <;> decide

/-- C23, amended: when the list calls succeed until the listing is done,
`DeleteDirectory` lists segment after segment, attempts the delete of every blob of
every segment whatever the earlier deletes answered, and returns what the final
`DeleteFile(name)` on the directory itself returns; `RenameDirectory` does the same
with `RenameFile`, and returns what the final `RenameFile(source, target)` returns.
A failure on a child is logged and never returned. -/
theorem directory_ops_return_final_result (ops : PathOps) (delete : String → DeleteAnswer)
    (rename : String → String → Option Error) (name source target : String)
    (segs : List Segment) (last : Segment) (rest : List (Except Nat Segment))
    (hmore : ∀ s ∈ segs, NotDone s.NextMarker = true)
    (hlast : NotDone last.NextMarker = false) :
    DeleteDirectory ops delete name ((segs ++ [last]).map .ok ++ rest) =
      (walkCalls DirCall.delete ops none (segs ++ [last]) ++ [DirCall.delete name],
       some (DeleteFile (delete name))) ∧
    RenameDirectory ops rename source target ((segs ++ [last]).map .ok ++ rest) =
      (walkCalls (fun src => DirCall.rename src (ops.replaceFirst src source target)) ops none
          (segs ++ [last]) ++ [DirCall.rename source target],
       some (rename source target)) := by
  constructor
  · obtain ⟨m, hm, hloop, hwalk⟩ :=
      DeleteDirectoryLoop_walk ops delete name (.ok last :: rest) [last] segs none []
        (by decide) hmore
    unfold DeleteDirectory
    rw [List.map_append, List.append_assoc, List.map_cons, List.map_nil, List.singleton_append,
      hloop, hwalk]
    conv_lhs => unfold DeleteDirectoryLoop
    simp only [hm, if_true]
    rw [DeleteDirectoryLoop_done ops delete name _ _ _ hlast, deleteChildren_spec]
    simp [walkCalls]
  · obtain ⟨m, hm, hloop, hwalk⟩ :=
      RenameDirectoryLoop_walk ops rename source target (.ok last :: rest) [last] segs none []
        (by decide) hmore
    unfold RenameDirectory
    rw [List.map_append, List.append_assoc, List.map_cons, List.map_nil, List.singleton_append,
      hloop, hwalk]
    conv_lhs => unfold RenameDirectoryLoop
    simp only [hm, if_true]
    rw [RenameDirectoryLoop_done ops rename source target _ _ _ hlast, renameChildren_spec]
    simp [walkCalls]

/-- Witness of the amended C23: the directory `d` listed in two segments, the delete
of `d/a` failing. -/
theorem directory_ops_return_final_result_witness :
    (∀ s ∈ dirSegments.take 1, NotDone s.NextMarker = true) ∧
    (DeleteDirectory examplePathOps leasedDelete "d" (dirSegments.map .ok) =
      ([DirCall.list none, DirCall.delete "d/a", DirCall.list (some "m1"), DirCall.delete "d/b",
        DirCall.delete "d"],
       some none)) ∧
    (RenameDirectory examplePathOps failingRename "d" "e" (dirSegments.map .ok) =
      ([DirCall.list none, DirCall.rename "d/a" "e/a", DirCall.list (some "m1"),
        DirCall.rename "d/b" "e/b", DirCall.rename "d" "e"],
       some none)) :=
  ⟨by decide,
   directory_ops_return_final_result examplePathOps leasedDelete failingRename "d" "d" "e"
     (dirSegments.take 1) { BlobItems := [⟨"d/b", 4, []⟩], BlobPrefixes := [], NextMarker := some "" }
     [] (by decide) (by decide)⟩

/-- C28: a server-side copy that is pending at first and has failed at the first poll,
or that `StartCopyFromURL` already reports aborted, ends the polling of `RenameFile`;
the source is deleted all the same and `RenameFile` returns nil. -/
theorem RenameFile_deletes_source_after_failed_copy :
    RenameFile copyFailsAnswers =
      ([RenameCall.getProperties, RenameCall.startCopy, RenameCall.sleep,
        RenameCall.getTargetProperties, RenameCall.deleteSource],
       some (Outcome.returned none)) ∧
    RenameFile copyAbortedAnswers =
      ([RenameCall.getProperties, RenameCall.startCopy, RenameCall.deleteSource],
       some (Outcome.returned none)) := by
  constructor <;> rfl

theorem RenameFilePoll_settled (delete : DeleteAnswer) (polls : List (Except Nat CopyStatus))
    (copyStatus : CopyStatus) (calls : List RenameCall) (h : copyStatus ≠ CopyStatus.pending) :
    RenameFilePoll delete polls copyStatus calls =
      (calls ++ [RenameCall.deleteSource], some (Outcome.returned (DeleteFile delete))) := by
  cases polls <;> simp [RenameFilePoll, h]

/-! ## Attribute errors in `TruncateFile`, and the `umask` option -/

theorem TruncateFile_attr_error (bb : BB) (svc : Service) (size : Int) (err : Error)
    (hattr : svc.getAttr = .error err) (herr : err ≠ Error.ENOENT) (hsize : size ≠ 0) :
    TruncateFile bb svc size = ([Call.getAttr], Outcome.panicked) := by
  simp [TruncateFile, hattr, herr, hsize]

/-- C29: when `GetAttr` fails with EPERM the attribute is nil and `TruncateFile` goes
on: for the size 10 it panics reading `attr.Size`, and for the size 0 it uploads an
empty blob and returns nil. -/
theorem TruncateFile_goes_on_after_attr_error :
    deniedService.getAttr = .error Error.EPERM ∧
    TruncateFile (exampleBB 16) deniedService 10 = ([Call.getAttr], Outcome.panicked) ∧
    TruncateFile (exampleBB 16) deniedService 0 =
      ([Call.getAttr, Call.upload []], Outcome.returned none) := by
  refine ⟨rfl, ?_, ?_⟩ <;> decide

theorem libfuseOption_umask_022 (ignored : List String) :
    libfuseOption ignored "umask=022" =
      if ignored.contains "umask=022" then OptionStep.skip
      else OptionStep.set "libfuse.default-permission" "777" := by
  have hs : (splitEquals "umask=022".data).map String.mk = ["umask", "022"] := by decide
  have ht : TrimSpace "umask=022" = "umask=022" := by decide
  unfold libfuseOption
  simp only [hs, ht]
  cases ignored.contains "umask=022" <;> decide

/-- C30: for the option `umask=022` the mount command sets
`libfuse.default-permission` to `777`, not `755`, and for `umask=027` to `768`, not
`750`: the value is parsed in base 10 and the mask is the decimal number 777. -/
theorem umask_option_decimal_mask :
    libfuseOption [] "umask=022" = OptionStep.set "libfuse.default-permission" "777" ∧
    libfuseOption [] "umask=027" = OptionStep.set "libfuse.default-permission" "768" ∧
    ParseUint "022" = some 22 ∧ (2 ^ 32 - 1 - 22) &&& 777 = 777 := by
  refine ⟨?_, ?_, ?_, ?_⟩ <;> decide

/-! ## The slices staged by `stageAndCommitModifiedBlocks` -/

theorem stageModifiedLoop_clean (svc : Service) (data : List Byte) (rest : List Block) :
    ∀ (pre : List Block) (blockOffset : Int) (ids : List String) (calls : List Call),
      (∀ b ∈ pre, b.Dirty = false) →
      stageModifiedLoop svc data (pre ++ rest) blockOffset ids calls =
        stageModifiedLoop svc data rest blockOffset (ids ++ pre.map (fun b => b.Id)) calls := by
  intro pre
  induction pre with
  | nil => intro blockOffset ids calls _; simp
  | cons b pre ih =>
    intro blockOffset ids calls hclean
    have hb : b.Dirty = false := hclean b (List.mem_cons_self _ _)
    rw [List.cons_append]
    conv_lhs => unfold stageModifiedLoop
    simp only [hb, Bool.false_eq_true, if_false]
    rw [ih _ _ _ (fun c hc => hclean c (List.mem_cons_of_mem _ hc))]
    simp

theorem sliceBytes_chunk (base : Int) (data : List Byte) (b : Block)
    (h0 : 0 ≤ b.StartIndex - base) (h1 : b.StartIndex ≤ b.EndIndex)
    (h2 : b.EndIndex - base ≤ (data.length : Int)) :
    sliceBytes data (b.StartIndex - base) ((b.EndIndex - b.StartIndex) + (b.StartIndex - base)) =
      some (bufferChunk base data b) := by
  have he : (b.EndIndex - b.StartIndex) + (b.StartIndex - base) = b.EndIndex - base := by ring
  rw [he]
  unfold sliceBytes bufferChunk
  rw [if_pos ⟨h0, by omega, h2⟩]

theorem stageModifiedLoop_run (svc : Service) (data : List Byte) (base e : Int)
    (rest : List Block) (he : e - base ≤ (data.length : Int)) :
    ∀ (run : List Block) (s : Int) (ids : List String) (calls : List Call),
      (∀ b ∈ run, b.Dirty = true) → Contiguous s e run → 0 ≤ s - base →
      ((∀ b ∈ run, svc.stageBlock b.Id (bufferChunk base data b) = none) ∧
        stageModifiedLoop svc data (run ++ rest) (s - base) ids calls =
          stageModifiedLoop svc data rest (e - base) (ids ++ run.map (fun b => b.Id))
            (calls ++ chunkCalls base data run)) ∨
      (∃ (k : Nat) (err : Error), k < run.length ∧
        stageModifiedLoop svc data (run ++ rest) (s - base) ids calls =
          (ids ++ (run.take (k + 1)).map (fun b => b.Id),
           calls ++ chunkCalls base data (run.take (k + 1)),
           some (Outcome.returned (some err)))) := by
  intro run
  induction run with
  | nil =>
    intro s ids calls _ hc _
    have hse : s = e := hc
    subst hse
    left
    exact ⟨fun b hb => absurd hb (List.not_mem_nil _), by simp [chunkCalls]⟩
  | cons b run ih =>
    intro s ids calls hdirty hc hs
    obtain ⟨hstart, hle, hrest⟩ := hc
    have hb : b.Dirty = true := hdirty b (List.mem_cons_self _ _)
    have hend : b.EndIndex ≤ e := hrest.le
    have hslice := sliceBytes_chunk base data b (by omega) hle (by omega)
    have hunf : stageModifiedLoop svc data (b :: run ++ rest) (s - base) ids calls =
        match svc.stageBlock b.Id (bufferChunk base data b) with
        | some err =>
          (ids ++ [b.Id], calls ++ [Call.stage b.Id (bufferChunk base data b)],
            some (Outcome.returned (some err)))
        | none =>
          stageModifiedLoop svc data (run ++ rest) (b.EndIndex - base) (ids ++ [b.Id])
            (calls ++ [Call.stage b.Id (bufferChunk base data b)]) := by
      rw [List.cons_append]
      conv_lhs => unfold stageModifiedLoop
      simp only [hb, if_true]
      rw [← hstart, hslice]
      have he2 : (b.EndIndex - b.StartIndex) + (b.StartIndex - base) = b.EndIndex - base := by
        ring
      simp only [he2]
    cases hst : svc.stageBlock b.Id (bufferChunk base data b) with
    | some err =>
      right
      refine ⟨0, err, by simp, ?_⟩
      rw [hunf, hst]
      simp [chunkCalls]
    | none =>
      rw [hst] at hunf
      rcases ih b.EndIndex (ids ++ [b.Id])
          (calls ++ [Call.stage b.Id (bufferChunk base data b)])
          (fun c hc => hdirty c (List.mem_cons_of_mem _ hc)) hrest (by omega) with
        ⟨hall, hloop⟩ | ⟨k, err, hk, hloop⟩
      · left
        refine ⟨?_, ?_⟩
        · intro c hc
          rcases List.mem_cons.1 hc with rfl | hc
          · exact hst
          · exact hall c hc
        · rw [hunf, hloop]
          simp [chunkCalls]
      · right
        refine ⟨k + 1, err, by simp [hk], ?_⟩
        rw [hunf, hloop]
        simp [chunkCalls]

theorem bufferChunk_join (base e : Int) (data : List Byte) (he : e - base = (data.length : Int)) :
    ∀ (run : List Block) (s : Int), Contiguous s e run → 0 ≤ s - base →
      (run.map (bufferChunk base data)).flatten = data.drop (s - base).toNat := by
  intro run
  induction run with
  | nil =>
    intro s hc hs
    have hse : s = e := hc
    subst hse
    rw [List.map_nil, List.flatten_nil, he]
    simp
  | cons b run ih =>
    intro s hc hs
    obtain ⟨hstart, hle, hrest⟩ := hc
    rw [List.map_cons, List.flatten_cons, ih b.EndIndex hrest (by omega)]
    unfold bufferChunk
    rw [hstart]
    have h2 : data.drop (b.EndIndex - base).toNat =
        (data.drop (s - base).toNat).drop ((b.EndIndex - base).toNat - (s - base).toNat) := by
      rw [List.drop_drop]
      congr 1
      omega
    rw [h2]
    exact List.take_append_drop _ _

/-- C25: let the block map be clean blocks, then a run of dirty blocks that tile
`[s, e)`, then clean blocks, and let the buffer have as many bytes as the dirty blocks
together.  Then every slice `stageAndCommitModifiedBlocks` takes is within the buffer
(the call never panics), the stage calls are those of the dirty blocks in order, each
with the buffer bytes `[blk.StartIndex - s, blk.EndIndex - s)`, up to the first one
that fails; when none fails all dirty blocks are staged and the ids of all blocks are
committed.  No clean block is staged, and the slices of the dirty blocks put one after
the other are the whole buffer. -/
theorem stageAndCommitModifiedBlocks_slices (svc : Service) (data : List Byte)
    (offsetList : BlockOffsetList) (pre run post : List Block) (s e : Int)
    (hmap : offsetList.BlockList = pre ++ run ++ post)
    (hpre : ∀ b ∈ pre, b.Dirty = false) (hpost : ∀ b ∈ post, b.Dirty = false)
    (hrun : ∀ b ∈ run, b.Dirty = true) (hc : Contiguous s e run)
    (hlen : (data.length : Int) = totalLength run) :
    (((∀ b ∈ run, svc.stageBlock b.Id (bufferChunk s data b) = none) ∧
        stageAndCommitModifiedBlocks svc data offsetList =
          (chunkCalls s data run ++ [Call.commit (offsetList.BlockList.map (fun b => b.Id))],
           Outcome.returned
             (svc.commitBlockList (offsetList.BlockList.map (fun b => b.Id))))) ∨
      (∃ (k : Nat) (err : Error), k < run.length ∧
        stageAndCommitModifiedBlocks svc data offsetList =
          (chunkCalls s data (run.take (k + 1)), Outcome.returned (some err)))) ∧
    (∀ b ∈ run, 0 ≤ b.StartIndex - s ∧ b.StartIndex - s ≤ b.EndIndex - s ∧
      b.EndIndex - s ≤ (data.length : Int)) ∧
    (run.map (bufferChunk s data)).flatten = data := by
  have hes : e - s = (data.length : Int) := by rw [hlen, hc.totalLength]
  refine ⟨?_, ?_, ?_⟩
  · have hstart : stageModifiedLoop svc data offsetList.BlockList 0 [] [] =
        stageModifiedLoop svc data (run ++ post) (s - s) (pre.map (fun b => b.Id)) [] := by
      rw [hmap, List.append_assoc, stageModifiedLoop_clean svc data (run ++ post) pre 0 [] []
        hpre]
      simp
    have hfinish : ∀ (ids : List String) (calls : List Call),
        stageModifiedLoop svc data post (e - s) ids calls =
          (ids ++ post.map (fun b => b.Id), calls, none) := by
      intro ids calls
      have := stageModifiedLoop_clean svc data [] post (e - s) ids calls hpost
      rw [List.append_nil] at this
      rw [this]
      simp [stageModifiedLoop]
    rcases stageModifiedLoop_run svc data s e post (le_of_eq hes) run s
        (pre.map (fun b => b.Id)) [] hrun hc (by omega) with
      ⟨hall, hloop⟩ | ⟨k, err, hk, hloop⟩
    · left
      refine ⟨hall, ?_⟩
      unfold stageAndCommitModifiedBlocks
      rw [hstart, hloop, hfinish]
      simp [hmap]
    · right
      refine ⟨k, err, hk, ?_⟩
      unfold stageAndCommitModifiedBlocks
      rw [hstart, hloop]
      simp
  · intro b hb
    have := hc.bounds b hb
    omega
  · have := bufferChunk_join s e data hes run s hc (by omega)
    simpa using this

/-- Witness of C25: a clean block of 16 bytes followed by dirty blocks of 16 and 8
bytes, and a buffer of 24 bytes. -/
theorem stageAndCommitModifiedBlocks_slices_witness :
    Contiguous 16 40 [dirtyBlock "blk1" 16 32, dirtyBlock "blk2" 32 40] ∧
    ((List.replicate 24 (7 : Byte)).length : Int) =
      totalLength [dirtyBlock "blk1" 16 32, dirtyBlock "blk2" 32 40] ∧
    ([dirtyBlock "blk1" 16 32, dirtyBlock "blk2" 32 40].map
        (bufferChunk 16 (List.replicate 24 (7 : Byte)))).flatten =
      List.replicate 24 (7 : Byte) :=
  ⟨by simp [Contiguous, dirtyBlock], by decide,
   (stageAndCommitModifiedBlocks_slices (exampleService 40 [])
      (List.replicate 24 (7 : Byte))
      { BlockList :=
          [committedBlock "blk0" 0 16, dirtyBlock "blk1" 16 32, dirtyBlock "blk2" 32 40]
        SmallFile := false
        BlockIdLength := 4 }
      [committedBlock "blk0" 0 16] [dirtyBlock "blk1" 16 32, dirtyBlock "blk2" 32 40] []
      16 40 rfl (by decide) (by decide) (by decide) (by simp [Contiguous, dirtyBlock])
      (by decide)).2.2⟩

/-! ## The block-file branch of `Write` at the end of the file -/

theorem writeBlockFile_empty_at_end (bb : BB) (svc : Service) (fileOffsets : BlockOffsetList)
    (offset : Int) (calls : List Call) (bl : List Block) (oldDataSize : Int)
    (exceeds appendOnly : Bool) (last : Block)
    (hfind : bb.common.FindBlocksToModify fileOffsets.BlockList offset 0 =
      (bl, (bl.length : Int), oldDataSize, exceeds, appendOnly))
    (hlast : bl.getLast? = some last) (hend : last.EndIndex = offset) :
    writeBlockFile bb svc fileOffsets offset [] calls = (calls, Outcome.panicked) := by
  have hget : getAt bl ((bl.length : Int) - 1) = some last := by
    rw [getAt_last, hlast]
  have hout : getAt bl (bl.length : Int) = none := by
    rw [getAt_natCast]
    simp
  have hgrow : createNewBlocks bb { fileOffsets with BlockList := bl } offset 0 =
      some ({ fileOffsets with BlockList := bl }, 0) := by
    unfold createNewBlocks
    simp only [hget, hend, add_zero, sub_self, Int.toNat_zero]
    unfold createNewBlocksLoop
    simp
  unfold writeBlockFile
  simp only [List.length_nil, Nat.cast_zero, hfind]
  cases exceeds
  · simp only [Bool.false_eq_true, if_false, hout]
    cases makeBytes (oldDataSize + 0) <;> rfl
  · simp only [if_true, hgrow, hout]
    cases makeBytes (oldDataSize + 0) <;> rfl

/-- C26: on a block file of one block of 16 bytes, `Write` of empty data at the offset
16, the end of the file, panics after `GetBlockList`: the block selection returns the
number of blocks as index, `createNewBlocks` has nothing to append, and
`BlockList[index]` is out of range. -/
theorem Write_empty_at_end_of_file_panics :
    FindBlocksToModify [committedBlock "blk0" 0 16] 16 0 =
      ([committedBlock "blk0" 0 16], 1, 0, false, true) ∧
    createNewBlocks selectingBB
        { BlockList := [committedBlock "blk0" 0 16], SmallFile := false, BlockIdLength := 4 }
        16 0 =
      some ({ BlockList := [committedBlock "blk0" 0 16], SmallFile := false,
              BlockIdLength := 4 }, 0) ∧
    getAt [committedBlock "blk0" 0 16] 1 = none ∧
    Write selectingBB (exampleService 16 [("blk0", 16)]) 16 [] =
      ([Call.getBlockList], Outcome.panicked) := by
  refine ⟨?_, ?_, ?_, ?_⟩ <;> decide

/-! ## The per-path mutex in `StageAndCommit` and in `Write` -/

theorem unlockedCalls_held (calls : List Call) (tail : List Event) :
    unlockedCalls (calls.map Event.call ++ tail) true = unlockedCalls tail true := by
  induction calls with
  | nil => rfl
  | cons c rest ih => simpa [unlockedCalls] using ih

theorem unlockedCalls_free (calls : List Call) :
    unlockedCalls (calls.map Event.call) false = calls := by
  induction calls with
  | nil => rfl
  | cons c rest ih => simp [unlockedCalls, ih]

theorem StageAndCommitEvents_under_mutex (svc : Service) (bol : BlockOffsetList) :
    unlockedCalls (StageAndCommitEvents svc bol) false = [] ∧
    lockHeld (StageAndCommitEvents svc bol) false = false := by
  constructor
  · unfold StageAndCommitEvents
    show unlockedCalls ((StageAndCommit svc bol).2.1.map Event.call ++ [Event.unlock]) true = []
    rw [unlockedCalls_held]
    rfl
  · unfold StageAndCommitEvents lockHeld
    rw [List.foldl_append]
    rfl

theorem WriteEvents_without_mutex (bb : BB) (svc : Service) (offset : Int) (data : List Byte) :
    unlockedCalls (WriteEvents bb svc offset data) false = (Write bb svc offset data).1 ∧
    Event.lock ∉ WriteEvents bb svc offset data := by
  constructor
  · exact unlockedCalls_free _
  · simp [WriteEvents]

/-- C24: a `Write` on a block file stages and commits without holding the mutex of the
path (none of its events takes it), so two writes on the same file can run with the
stage and commit of the second between the stage and the commit of the first;
`StageAndCommit` issues all its calls under the mutex, and a second `StageAndCommit`
cannot start before the first has released it. -/
theorem Write_stages_and_commits_without_mutex :
    unlockedCalls (WriteEvents selectingBB twoBlockService 10 [1, 2]) false =
      [Call.getBlockList, Call.download 0 16,
       Call.stage "blk0" [65, 65, 65, 65, 65, 65, 65, 65, 65, 65, 1, 2, 65, 65, 65, 65],
       Call.commit ["blk0", "blk1"]] ∧
    (interleave [false, false, false, true, true, true, true, false]
        (WriteEvents selectingBB twoBlockService 10 [1, 2])
        (WriteEvents selectingBB twoBlockService 20 [3]) none).map
        (fun tr => tr.drop 2) =
      some [(false, Event.call (Call.stage "blk0"
               [65, 65, 65, 65, 65, 65, 65, 65, 65, 65, 1, 2, 65, 65, 65, 65])),
            (true, Event.call Call.getBlockList),
            (true, Event.call (Call.download 16 16)),
            (true, Event.call (Call.stage "blk1"
               [65, 65, 65, 65, 3, 65, 65, 65, 65, 65, 65, 65, 65, 65, 65, 65])),
            (true, Event.call (Call.commit ["blk0", "blk1"])),
            (false, Event.call (Call.commit ["blk0", "blk1"]))] ∧
    unlockedCalls (StageAndCommitEvents twoBlockService mixedBlocks) false = [] ∧
    interleave [false, false, true] (StageAndCommitEvents twoBlockService mixedBlocks)
      (StageAndCommitEvents twoBlockService mixedBlocks) none = none := by
  refine ⟨?_, ?_, ?_, ?_⟩ <;> decide

end BlockBlob
